import Mathlib

/-!
Shallow embedding of meli's mailbox threading module
(`src/melib/src/mailbox/thread.rs`) and proofs about it.

The arena `Vec<Container>` is modelled as `List Container`, the
`FnvHashMap<String, usize>` ID index as an insertion-ordered association
list (`List (String × Nat)`); the code always checks `contains_key`
before inserting, so keys are unique and lookup agrees with the hash
map.  The recursive/looping pieces of the Rust code (`is_descendant`,
the date-propagation loop, the child-list append loop, the recursive
`build_threaded` walk) are modelled with an explicit fuel parameter;
the top-level driver instantiates the fuel with a bound that is proved
sufficient whenever the code's own invariants hold.
-/

namespace Meli

/-- Modelled from the spec: the `Envelope` record of `melib`'s
`mailbox/email.rs` (that file is not part of the sources under
verification).  Per spec §3/§6 an envelope carries `message_id`,
`references` (ordered oldest-first), `in_reply_to`, `date` (unix
timestamp), `subject`, and a mutable `thread` back-reference written by
the engine.  The accessors `message_id_raw`, `references`,
`in_reply_to_raw`, `date`, `subject`, `set_thread` used by `thread.rs`
are plain field reads/writes of this record. -/
structure Envelope where
  message_id : String
  references : List String
  in_reply_to : String
  date : Nat
  subject : String
  thread : Option Nat
deriving Repr, DecidableEq

instance : Inhabited Envelope := ⟨⟨"", [], "", 0, "", none⟩⟩

/-- Rust `str::starts_with` on strings, modelled character-wise. -/
def str_starts_with (s p : String) : Bool := p.toList.isPrefixOf s.toList

/-- Rust `str::ends_with` on strings, modelled character-wise. -/
def str_ends_with (s p : String) : Bool := p.toList.isSuffixOf s.toList

/-- `Container` from `thread.rs` lines 40-49. -/
structure Container where
  id : Nat
  message : Option Nat
  parent : Option Nat
  first_child : Option Nat
  next_sibling : Option Nat
  date : Nat
  indentation : Nat
  show_subject : Bool
deriving Repr, DecidableEq

instance : Inhabited Container := ⟨⟨0, none, none, none, none, 0, 0, true⟩⟩

/-- Arena read `threads[i]` (all reads in the code are in range; out of
range reads return the default container). -/
def getC (threads : List Container) (i : Nat) : Container := threads.getD i default

/-- Arena write `threads[i] = c`. -/
def setC (threads : List Container) (i : Nat) (c : Container) : List Container :=
  threads.set i c

/-- The custom `PartialEq for Container` (lines 107-114): compare bound
message indices when both are bound, otherwise compare arena ids. -/
def ceq (a b : Container) : Bool :=
  match a.message, b.message with
  | some s, some o => s == o
  | _, _ => a.id == b.id

/-- `Container::is_descendant` (lines 82-98): searches `other` (by
`PartialEq`) through `self`'s `first_child` and `next_sibling` links.
Fuel bounds the recursion depth; the Rust recursion terminates exactly
when the link structure is acyclic, which the development proves is
invariant, and a fuel of `threads.length + 1` is proved sufficient. -/
def is_descendant (threads : List Container) : Nat → Container → Container → Bool
  | 0, _, _ => false
  | fuel+1, self, other =>
    if ceq self other then true
    else
      (match self.first_child with
       | some v => is_descendant threads fuel (getC threads v) other
       | none => false) ||
      (match self.next_sibling with
       | some v => is_descendant threads fuel (getC threads v) other
       | none => false)

/-- The `'date: loop` of lines 211-225 and 320-334: walk `parent` links
from `parent_iter` to the root, raising each date to at least `x_date`.
Fuel bounds the walk; `threads.length + 1` is sufficient whenever the
parent chain is acyclic. -/
def propagate_date (x_date : Nat) : Nat → List Container → Nat → List Container
  | 0, threads, _ => threads
  | fuel+1, threads, parent_iter =>
    let p := getC threads parent_iter
    let threads' := if p.date < x_date then setC threads parent_iter { p with date := x_date }
                    else threads
    match p.parent with
    | some pp => propagate_date x_date fuel threads' pp
    | none => threads'

/-- The child-list append loop of lines 182-189 (and identically
308-317): walk `p`'s sibling chain from `child_iter`, re-asserting
`parent = p` on the way, and hang `curr_ref` off the end. -/
def chain_append : Nat → List Container → Nat → Nat → Nat → List Container
  | 0, threads, _, _, _ => threads
  | fuel+1, threads, p, child_iter, curr_ref =>
    match (getC threads child_iter).next_sibling with
    | some ns =>
        chain_append fuel (setC threads child_iter { getC threads child_iter with parent := some p })
          p ns curr_ref
    | none =>
        let threads' := setC threads child_iter
          { getC threads child_iter with next_sibling := some curr_ref }
        setC threads' child_iter { getC threads' child_iter with parent := some p }

/-- Lines 179-189: append `curr_ref` to `p`'s child list. -/
def append_child (threads : List Container) (p curr_ref : Nat) : List Container :=
  match (getC threads p).first_child with
  | none => setC threads p { getC threads p with first_child := some curr_ref }
  | some fc0 => chain_append (threads.length + 1) threads p fc0 curr_ref

/-- Lines 178-189: set `curr_ref`'s parent to `p` and append it to `p`'s
child list. -/
def link_child (threads : List Container) (p curr_ref : Nat) : List Container :=
  append_child (setC threads curr_ref { getC threads curr_ref with parent := some p })
    p curr_ref

/-- The placeholder container pushed for an unresolved reference
(lines 193-199), named for reuse in the invariant proofs. -/
def ph_node (len cr d : Nat) : Container :=
  { id := len, message := none, parent := none, first_child := some cr,
    next_sibling := none, date := d, indentation := 0, show_subject := true }

/-- Association-list model of the `FnvHashMap` lookup. -/
def tableGet? (t : List (String × Nat)) (k : String) : Option Nat :=
  (t.find? (fun e => e.1 == k)).map (·.2)

/-- Association-list model of `insert` (the code only inserts keys it
has just checked to be absent, so appending preserves lookup). -/
def tableInsert (t : List (String × Nat)) (k : String) (v : Nat) : List (String × Nat) :=
  t ++ [(k, v)]

/-- The mutable state threaded through `build_threads`: the container
arena, the ID index, and the envelope collection (whose `thread` fields
the builder writes back, and which the sent-folder merge extends). -/
structure TState where
  threads : List Container
  id_table : List (String × Nat)
  collection : List Envelope
deriving Repr, DecidableEq

/-- Envelope read from the collection. -/
def getE (st : TState) (i : Nat) : Envelope := st.collection.getD i default

/-- The body of the references loop for the single reference `r` that is
actually processed (lines 173-226): resolve-or-create the referenced
container, link with the acyclicity guard, then propagate the date from
the resolved parent; returns the updated state and `parent_id`. -/
def process_ref (st : TState) (x_date : Nat) (curr_ref : Nat) (r : String) : TState × Nat :=
  match tableGet? st.id_table r with
  | some p =>
    let fuel := st.threads.length + 1
    let threads :=
      if !(is_descendant st.threads fuel (getC st.threads p) (getC st.threads curr_ref) ||
           is_descendant st.threads fuel (getC st.threads curr_ref) (getC st.threads p))
      then link_child st.threads p curr_ref
      else st.threads
    let threads := propagate_date x_date (threads.length + 1) threads p
    ({ st with threads := threads }, p)
  | none =>
    let idx := st.threads.length
    let threads := st.threads ++ [ph_node idx curr_ref x_date]
    let threads :=
      if (getC threads curr_ref).parent.isNone then
        setC threads curr_ref { getC threads curr_ref with parent := some idx }
      else threads
    let id_table := tableInsert st.id_table r idx
    let threads := propagate_date x_date (threads.length + 1) threads idx
    ({ st with threads := threads, id_table := id_table }, idx)

/-- One iteration of the references loop (lines 168-227): the `iasf`
counter skips the whole body once it has reached 1, so only the first
iteration runs `process_ref`.  The accumulator carries
`(iasf, curr_ref, state)`. -/
def refs_step (x_date : Nat) (acc : Nat × Nat × TState) (r : String) : Nat × Nat × TState :=
  if acc.1 == 1 then acc
  else
    let pr := process_ref acc.2.2 x_date acc.2.1 r
    (acc.1 + 1, pr.2, pr.1)

/-- The references loop of lines 166-227: iterate the references
newest-first (`.iter().rev()`), with the `iasf` counter letting only
the first iteration (the most recent reference) run the body. -/
def refs_loop (st : TState) (x_date : Nat) (x_index : Nat) (refs : List String) : TState :=
  (refs.reverse.foldl (refs_step x_date) (0, x_index, st)).2.2

/-- Processing of one envelope of the primary collection
(`build_collection`'s loop body, lines 121-227). -/
def step_envelope (st : TState) (i : Nat) : TState :=
  let x := getE st i
  let m_id := x.message_id
  match tableGet? st.id_table m_id with
  | some t =>
    if (getC st.threads t).message.isSome then
      st
    else
      let threads := setC st.threads t
        { getC st.threads t with date := x.date, message := some i }
      let collection := st.collection.set i { x with thread := some t }
      refs_loop { st with threads := threads, collection := collection } x.date t x.references
  | none =>
    let x_index := st.threads.length
    let threads := st.threads ++
      [{ id := x_index, message := some i, parent := none, first_child := none,
         next_sibling := none, date := x.date, indentation := 0, show_subject := true }]
    let collection := st.collection.set i { x with thread := some x_index }
    let id_table := tableInsert st.id_table m_id x_index
    refs_loop { threads := threads, id_table := id_table, collection := collection }
      x.date x_index x.references

/-- `build_collection` (lines 116-229). -/
def build_collection (st : TState) : TState :=
  (List.range st.collection.length).foldl step_envelope st

/-- The sent-folder merge loop body (lines 264-339) for one sent
envelope `x0`.  Non-matching envelopes are skipped; a match by
Message-ID against an already-bound container hits the duplicate
`continue` (line 274), which also skips the `collection.push` at line
336.  `idx`/`tidx` in the source always equal the current collection
and arena lengths.  In the second branch the source rechecks
`id_table.contains_key(message_id)`, which is false there because the
first branch did not fire; the model takes the fresh-container arm
directly. -/
def sent_step (st : TState) (x0 : Envelope) : TState :=
  if ((tableGet? st.id_table x0.message_id).isSome ||
      (x0.in_reply_to != "" && (tableGet? st.id_table x0.in_reply_to).isSome)) then
    let idx := st.collection.length
    match tableGet? st.id_table x0.message_id with
    | some c =>
      if (getC st.threads c).message.isSome then
        st
      else
        let threads := setC st.threads c
          { getC st.threads c with message := some idx, date := x0.date }
        { st with threads := threads,
                  collection := st.collection ++ [{ x0 with thread := some c }] }
    | none =>
      if x0.in_reply_to != "" && (tableGet? st.id_table x0.in_reply_to).isSome then
        let p := (tableGet? st.id_table x0.in_reply_to).getD 0
        let tidx := st.threads.length
        let threads := st.threads ++
          [{ id := tidx, message := some idx, parent := some p, first_child := none,
             next_sibling := none, date := x0.date, indentation := 0, show_subject := true }]
        let id_table := tableInsert st.id_table x0.message_id tidx
        let x := { x0 with thread := some tidx }
        let c := tidx
        let threads := setC threads c { getC threads c with parent := some p }
        let fuel := threads.length + 1
        if is_descendant threads fuel (getC threads p) (getC threads c) ||
           is_descendant threads fuel (getC threads c) (getC threads p) then
          { st with threads := threads, id_table := id_table }
        else
          let threads := append_child threads p c
          let threads := propagate_date x0.date (threads.length + 1) threads p
          { threads := threads, id_table := id_table,
            collection := st.collection ++ [x] }
      else
        { st with collection := st.collection ++ [x0] }
  else st

/-- The sent-folder merge (lines 259-341).  An absent sent folder and a
sent folder whose open failed (`!sent_box.is_ok()`) both skip the merge;
the model folds them into `none`. -/
def sent_merge (st : TState) (sent_folder : Option (List Envelope)) : TState :=
  match sent_folder with
  | some sent => sent.foldl sent_step st
  | none => st

/-- The root harvest loop (lines 344-357): walk the ID index, and for
each parentless container either push it, or — when it is a placeholder
whose single child has no sibling — push that child instead. -/
def root_set_of (st : TState) : List Nat :=
  st.id_table.foldl
    (fun acc kv =>
      let v := kv.2
      let cv := getC st.threads v
      if cv.parent.isNone then
        if !cv.message.isSome && cv.first_child.isSome &&
           !(getC st.threads (cv.first_child.getD 0)).next_sibling.isSome then
          acc ++ [cv.first_child.getD 0]
        else acc ++ [v]
      else acc)
    []

/-- Stable insertion into a list sorted descending by `key`: the new
element goes after every element whose key is at least its own. -/
def insert_desc (key : Nat → Nat) (x : Nat) : List Nat → List Nat
  | [] => [x]
  | y :: ys => if key x ≤ key y then y :: insert_desc key x ys else x :: y :: ys

/-- Model of line 358's
`root_set.sort_by(|a, b| threads[*b].date.cmp(&threads[*a].date))`:
Rust's `sort_by` is a stable sort, and the comparator orders by
descending date, so the call is extensionally a stable
descending-by-date sort. -/
def sort_desc (key : Nat → Nat) (l : List Nat) : List Nat :=
  l.foldl (fun acc x => insert_desc key x acc) []

/-- The subject-suppression phase of `build_threaded` (lines 371-385):
when the subject-reference container bears a message and the current
node is message-bearing at positive indentation, compare subjects and
clear `show_subject` on equality or on a `"Re: "`-prefixed match.
`subj_cmp` is the comparison of line 379-380: equal subjects, or the
current subject starts with `"Re: "` and ends with the reference
subject. -/
def subj_cmp (collection : List Envelope) (threads : List Container)
    (i root_subject_idx : Nat) : Bool :=
  let root_subject :=
    (collection.getD ((getC threads root_subject_idx).message.getD 0) default).subject
  let subject := (collection.getD ((getC threads i).message.getD 0) default).subject
  subject == root_subject ||
    (str_starts_with subject "Re: " && str_ends_with subject root_subject)

/-- The subject-suppression phase of `build_threaded` (lines 371-385):
when the subject-reference container bears a message and the current
node is message-bearing at positive indentation, compare subjects and
clear `show_subject` on equality or on a `"Re: "`-prefixed match. -/
def subject_step (collection : List Envelope) (threads : List Container)
    (indentation i root_subject_idx : Nat) : List Container :=
  if (getC threads root_subject_idx).message.isSome then
    if indentation > 0 && (getC threads i).message.isSome then
      if subj_cmp collection threads i root_subject_idx then
        setC threads i { getC threads i with show_subject := false }
      else threads
    else threads
  else threads

/-- The parent-clearing phase (lines 386-388): if the snapshot parent
exists but bears no message, clear the `parent` field.  `thread` is the
snapshot of `threads[i]` taken at entry. -/
def parent_step (threads : List Container) (thread : Container) (i : Nat) : List Container :=
  if thread.parent.isSome && !(getC threads (thread.parent.getD 0)).message.isSome then
    setC threads i { getC threads i with parent := none }
  else threads

/-- The indentation/emission phase (lines 389-399): a message-bearing
node records its indentation, is appended to the output unless already
present, and indents its children one level; a placeholder passes the
indentation through unless it is 0, in which case it passes 1. -/
def indent_step (threads : List Container) (threaded : List Nat) (thread : Container)
    (indentation i : Nat) : List Container × List Nat × Nat :=
  if thread.message.isSome then
    (setC threads i { getC threads i with indentation := indentation },
     if threaded.contains i then threaded else threaded ++ [i],
     indentation + 1)
  else if indentation > 0 then (threads, threaded, indentation)
  else (threads, threaded, indentation + 1)

/-- The recursive flatten walk `build_threaded` (lines 362-411)
together with its sibling loop (lines 401-409), merged into one
structurally fuel-recursive function; `sibs = false` is a
`build_threaded` call on node `i` with subject reference
`root_subject_idx`, `sibs = true` is the sibling loop positioned at
chain member `i` under current node `root_subject_idx`.  Fuel bounds
the recursion depth; the driver passes `2 * threads.length + 2`,
sufficient whenever the link structure is an acyclic in-degree-≤1
graph. -/
def flat_go (collection : List Envelope) :
    Nat → Bool → List Container → List Nat → Nat → Nat → Nat → List Container × List Nat
  | 0, _, threads, threaded, _, _, _ => (threads, threaded)
  | fuel+1, false, threads, threaded, indentation, i, root_subject_idx =>
    let thread := getC threads i
    let th1 := subject_step collection threads indentation i root_subject_idx
    let th2 := parent_step th1 thread i
    let s := indent_step th2 threaded thread indentation i
    match thread.first_child with
    | some fc => flat_go collection fuel true s.1 s.2.1 s.2.2 fc i
    | none => (s.1, s.2.1)
  | fuel+1, true, threads, threaded, indentation, fc, i =>
    let r := flat_go collection fuel false threads threaded indentation fc i
    match (getC r.1 fc).next_sibling with
    | none => r
    | some ns => flat_go collection fuel true r.1 r.2 indentation ns i

/-- A `build_threaded` recursive call (lines 362-411). -/
def build_threaded (collection : List Envelope) (fuel : Nat) (threads : List Container)
    (threaded : List Nat) (indentation i root_subject_idx : Nat) :
    List Container × List Nat :=
  flat_go collection fuel false threads threaded indentation i root_subject_idx

/-- The flatten driver (lines 412-421): walk each root at indentation 0
with itself as the initial `root_subject_idx`. -/
def flatten (collection : List Envelope) (threads : List Container) (root_set : List Nat) :
    List Container × List Nat :=
  root_set.foldl
    (fun (acc : List Container × List Nat) i =>
      build_threaded collection (2 * acc.1.length + 2) acc.1 acc.2 0 i i)
    (threads, [])

/-- Everything `build_threads` (lines 233-425) computes, including the
mutated collection and the intermediate root set and ID index. -/
structure BuildResult where
  threads : List Container
  threaded : List Nat
  collection : List Envelope
  root_set : List Nat
  id_table : List (String × Nat)
deriving Repr

/-- The full `build_threads` pipeline. -/
def build_state (collection : List Envelope) (sent_folder : Option (List Envelope)) :
    BuildResult :=
  let st0 : TState := { threads := [], id_table := [], collection := collection }
  let st1 := build_collection st0
  let st2 := sent_merge st1 sent_folder
  let rs := sort_desc (fun a => (getC st2.threads a).date) (root_set_of st2)
  let fl := flatten st2.collection st2.threads rs
  { threads := fl.1, threaded := fl.2, collection := st2.collection,
    root_set := rs, id_table := st2.id_table }

/-- `build_threads`' return value `(Vec<Container>, Vec<usize>)`. -/
def build_threads (collection : List Envelope) (sent_folder : Option (List Envelope)) :
    List Container × List Nat :=
  let r := build_state collection sent_folder
  (r.threads, r.threaded)

/-! ### Graph-theoretic view of the arena used by the invariant proofs -/

/-- `first_child` edge between arena indices. -/
def fcE (th : List Container) (a b : Nat) : Prop := (getC th a).first_child = some b

/-- `next_sibling` edge between arena indices. -/
def nsE (th : List Container) (a b : Nat) : Prop := (getC th a).next_sibling = some b

/-- A link-structure edge: the successor relation `is_descendant` walks. -/
def lstep (th : List Container) (a b : Nat) : Prop := fcE th a b ∨ nsE th a b

/-- Reachability along `first_child`/`next_sibling` links. -/
def lReach (th : List Container) : Nat → Nat → Prop := Relation.ReflTransGen (lstep th)

/-- `parent`-field edge between arena indices. -/
def pE (th : List Container) (a b : Nat) : Prop := (getC th a).parent = some b

/-- `c` is a member of `p`'s child list: it lies on the sibling chain
hanging off `p`'s `first_child`. -/
def child_mem (th : List Container) (p c : Nat) : Prop :=
  ∃ f, fcE th p f ∧ Relation.ReflTransGen (nsE th) f c

/-- No index is reachable from itself through a nonempty chain of
`first_child`/`next_sibling` hops. -/
def Acyclic (th : List Container) : Prop := ∀ i, ¬ Relation.TransGen (lstep th) i i

/-- Every index has at most one incoming link edge, counting the edge
kind: at most one `first_child` pointer and at most one `next_sibling`
pointer reference it, and never both. -/
def UniqueIn (th : List Container) : Prop :=
  (∀ a a' b, fcE th a b → fcE th a' b → a = a') ∧
  (∀ a a' b, nsE th a b → nsE th a' b → a = a') ∧
  (∀ a a' b, fcE th a b → nsE th a' b → False)

/-- The well-formedness invariant maintained by the thread builder and
the sent-folder merge. -/
structure WFS (st : TState) : Prop where
  closed : ∀ a b, lstep st.threads a b → b < st.threads.length
  uniq : UniqueIn st.threads
  acyc : Acyclic st.threads
  pmem : ∀ a b, pE st.threads a b → child_mem st.threads b a
  bearing : ∀ a b, lstep st.threads a b → (getC st.threads b).message.isSome = true
  ids : ∀ i, i < st.threads.length → (getC st.threads i).id = i
  msg_lt : ∀ i m, (getC st.threads i).message = some m → m < st.collection.length
  tval : ∀ kv, kv ∈ st.id_table → kv.2 < st.threads.length

/-- Two arenas that agree on the `first_child` and `next_sibling`
fields of every index, hence on the whole link graph. -/
def same_links (th th' : List Container) : Prop :=
  (∀ j, (getC th' j).first_child = (getC th j).first_child) ∧
  (∀ j, (getC th' j).next_sibling = (getC th j).next_sibling)

/-- Two arenas that agree on the skeleton fields (`first_child`,
`next_sibling`, `message`, `date`) of every index; the flatten walk
only ever changes the remaining fields. -/
def same_skel (th th' : List Container) : Prop :=
  ∀ j, (getC th' j).first_child = (getC th j).first_child ∧
       (getC th' j).next_sibling = (getC th j).next_sibling ∧
       (getC th' j).message = (getC th j).message ∧
       (getC th' j).date = (getC th j).date

/-- Arena `th'` weakens `th`'s parent fields: each index keeps its
parent or has it cleared to `none` (the flatten walk's parent-clearing
phase may clear, but never introduces, parent links). -/
def par_wk (th th' : List Container) : Prop :=
  ∀ j, (getC th' j).parent = (getC th j).parent ∨ (getC th' j).parent = none

/-- The sibling chain hanging off `c0`, followed through `next_sibling`
links with fuel. -/
def ns_chain_list (th : List Container) : Nat → Nat → List Nat
  | 0, _ => []
  | fuel+1, c0 =>
    match (getC th c0).next_sibling with
    | none => []
    | some n1 => n1 :: ns_chain_list th fuel n1

/-! ### Concrete inputs and auxiliary definitions used by the claims -/

/-- The two-envelope collection that exhibits the date regression:
envelope 0 (`"b"`, date 100) references the not-yet-seen `"a"`, so a
placeholder container for `"a"` is created with date 100; envelope 1
(`"a"`, date 50) then fills that placeholder, and line 137
(`threads[t].date = x.date()`) overwrites its date with 50 without ever
re-raising it above its child's date. -/
def c1_input : List Envelope :=
  [{ message_id := "b", references := ["a"], in_reply_to := "a", date := 100,
     subject := "s", thread := none },
   { message_id := "a", references := [], in_reply_to := "", date := 50,
     subject := "t", thread := none }]

/-- A three-message linear chain: `"m1"` (subject `"A"`), `"m2"`
replying to it (subject `"B"`), `"m3"` replying to `"m2"` (subject
`"Re: A"`).  The thread root's subject is `"A"` and `"m3"`'s subject is
exactly `"Re: " ++ "A"`, but the recursive walk passes the *current*
node — `"m3"`'s parent `"m2"` — as `root_subject_idx` (line 403), so
`"m3"` is compared against `"B"` and keeps `show_subject = true`. -/
def c3_input : List Envelope :=
  [{ message_id := "m1", references := [], in_reply_to := "", date := 10,
     subject := "A", thread := none },
   { message_id := "m2", references := ["m1"], in_reply_to := "m1", date := 20,
     subject := "B", thread := none },
   { message_id := "m3", references := ["m1", "m2"], in_reply_to := "m2", date := 30,
     subject := "Re: A", thread := none }]

/-- A two-node arena (a message-bearing node 0 whose first child is the
message-bearing node 1) used to witness the amended C3 and C5 walk
lemmas at concrete inputs. -/
def c3w_th : List Container :=
  [{ id := 0, message := some 0, parent := none, first_child := some 1,
     next_sibling := none, date := 10, indentation := 0, show_subject := true },
   { id := 1, message := some 1, parent := some 0, first_child := none,
     next_sibling := none, date := 20, indentation := 0, show_subject := true }]

/-- Two messages replying to the same missing `"m0"`: the placeholder
for `"m0"` (container 1) keeps both children and stays a root, so the
flatten walk visits it at indentation 0 and — through the
`else { indentation + 1 }` arm of lines 395-398 — passes indentation 1
to its children. -/
def c5_input : List Envelope :=
  [{ message_id := "m2", references := ["m0"], in_reply_to := "m0", date := 5,
     subject := "x", thread := none },
   { message_id := "m3", references := ["m0"], in_reply_to := "m0", date := 4,
     subject := "y", thread := none }]

/-- A two-node arena whose node 0 is a parentless placeholder with the
single message-bearing child 1, used to witness the amended C5 walk
lemma at indentation 0. -/
def c5w_th : List Container :=
  [{ id := 0, message := none, parent := none, first_child := some 1,
     next_sibling := none, date := 5, indentation := 0, show_subject := true },
   { id := 1, message := some 0, parent := some 0, first_child := none,
     next_sibling := none, date := 5, indentation := 0, show_subject := true }]

/-- One primary envelope `"a"`, and a sent copy with the same
Message-ID: the sent envelope's Message-ID is in the ID index, yet the
duplicate guard of line 273 `continue`s before the `collection.push` of
line 336, so it is neither cloned nor linked. -/
def c6_primary : List Envelope :=
  [{ message_id := "a", references := [], in_reply_to := "", date := 50,
     subject := "t", thread := none }]

/-- The sent copy sharing the primary envelope's Message-ID. -/
def c6_sent : Envelope :=
  { message_id := "a", references := [], in_reply_to := "", date := 60,
    subject := "u", thread := none }

/-- Scenario B input: `"m2"` references the missing `"m0"`, `"m1"` is a
standalone message unrelated to `"m0"`. -/
def c7_input : List Envelope :=
  [{ message_id := "m2", references := ["m0"], in_reply_to := "m0", date := 2,
     subject := "x", thread := none },
   { message_id := "m1", references := [], in_reply_to := "", date := 1,
     subject := "y", thread := none }]

/-- The contribution of one ID-index entry to the harvested root set. -/
def harvest_entry (th : List Container) (v : Nat) : List Nat :=
  let cv := getC th v
  if cv.parent.isNone then
    if !cv.message.isSome && cv.first_child.isSome &&
       !(getC th (cv.first_child.getD 0)).next_sibling.isSome then
      [cv.first_child.getD 0]
    else [v]
  else []

/-- Index `i` is the first occurrence of its Message-ID in the
collection: no earlier record carries the same Message-ID. -/
def first_occ (cc : List Envelope) (i : Nat) : Prop :=
  ∀ k, k < i → (cc.getD k default).message_id ≠ (cc.getD i default).message_id

/-- Scenario C input: two records sharing Message-ID `"dup"`. -/
def c8_input : List Envelope :=
  [{ message_id := "dup", references := [], in_reply_to := "", date := 1,
     subject := "p", thread := none },
   { message_id := "dup", references := [], in_reply_to := "", date := 2,
     subject := "q", thread := none }]

/-- Two arenas agree on one field of every index. -/
def eq_field {α : Type} (th th' : List Container) (f : Container → α) : Prop :=
  ∀ j, f (getC th' j) = f (getC th j)

/-- The invariant carried by the first-occurrence-wins proof: after
processing the first `k` envelopes, (1) the collection keeps its
length, (2) unprocessed records are untouched, (3) each processed
first occurrence is bound to a container that holds it and is indexed
under its Message-ID, while each processed later duplicate is left
untouched, (4) every bound container binds a processed first
occurrence and is indexed under its Message-ID, (5) distinct keys map
to distinct containers, and (6) index values are in range. -/
def c8_inv (cc : List Envelope) (k : Nat) (st : TState) : Prop :=
  st.collection.length = cc.length ∧
  (∀ j, k ≤ j → st.collection.getD j default = cc.getD j default) ∧
  (∀ j, j < k → j < cc.length →
    ((first_occ cc j →
      ∃ t, t < st.threads.length ∧
        st.collection.getD j default = { cc.getD j default with thread := some t } ∧
        (getC st.threads t).message = some j ∧
        tableGet? st.id_table ((cc.getD j default).message_id) = some t) ∧
     (¬ first_occ cc j → st.collection.getD j default = cc.getD j default))) ∧
  (∀ t i, (getC st.threads t).message = some i →
    (i < k ∧ i < cc.length ∧ first_occ cc i ∧
     tableGet? st.id_table ((cc.getD i default).message_id) = some t)) ∧
  (∀ ka kb v, tableGet? st.id_table ka = some v → tableGet? st.id_table kb = some v →
    ka = kb) ∧
  (∀ k' v, tableGet? st.id_table k' = some v → v < st.threads.length)

/-! ### Generic lemmas about the references loop -/

/-- Once `iasf` has reached 1 every remaining iteration of the
references loop is a no-op. -/
theorem refs_fold_skip (d : Nat) (rest : List String) (acc : Nat × Nat × TState)
    (h : acc.1 = 1) : rest.foldl (refs_step d) acc = acc := by
  induction rest with
  | nil => rfl
  | cons r rest ih =>
      simp only [List.foldl_cons, refs_step, h]
      exact ih

/-- The references loop is the processing of the last reference alone
(or a no-op when there are no references). -/
theorem refs_loop_last (st : TState) (d xi : Nat) (refs : List String) :
    refs_loop st d xi refs =
      (match refs.getLast? with
       | none => st
       | some r => (process_ref st d xi r).1) := by
  unfold refs_loop
  rcases h : refs.reverse with _ | ⟨r, rest⟩
  · have : refs = [] := by
      have := congrArg List.reverse h
      simpa using this
    subst this
    rfl
  · have hlast : refs.getLast? = some r := by
      rw [← List.head?_reverse, h]
      rfl
    rw [hlast]
    simp only [List.foldl_cons]
    have h1 : (refs_step d (0, xi, st) r).1 = 1 := by
      simp [refs_step]
    rw [refs_fold_skip d rest _ h1]
    simp [refs_step]

/-- C4: for each envelope, the references loop runs its body for at
most one reference — the most recent one, i.e. the last element of the
oldest-first `References` list — and the state after the loop is
exactly the state after processing that single reference; in
particular the remaining references create no links and no
placeholder containers. -/
theorem claim_C4_single_reference_used (st : TState) (d xi : Nat) (refs : List String) :
    refs_loop st d xi refs =
      (match refs.getLast? with
       | none => st
       | some r => (process_ref st d xi r).1) :=
  refs_loop_last st d xi refs

/-! ### C1: the date invariant fails when a placeholder is filled late -/

/-- C1: the claimed invariant — every reachable container's date is at
least the date of each of its descendants — is violated by the code on
`c1_input`: after `build_threads` container 1 is the parent of
container 0 (its `first_child`), yet container 1's date (50) is
strictly below its child's date (100). -/
theorem claim_C1_date_invariant_fails :
    (getC (build_threads c1_input none).1 1).first_child = some 0 ∧
    (getC (build_threads c1_input none).1 1).message = some 1 ∧
    (getC (build_threads c1_input none).1 0).message = some 0 ∧
    (getC (build_threads c1_input none).1 1).date = 50 ∧
    (getC (build_threads c1_input none).1 0).date = 100 := by
  refine ⟨?_, ?_, ?_, ?_, ?_⟩ <;> decide

/-! ### C3: the subject comparison is against the parent, not the thread root -/

/-- C3 counterexample: on `c3_input`, container 2 is a non-root
message-bearing container of the single thread rooted at container 0;
the root subject is `"A"` (the root itself bears message 0) and
container 2's subject is `"Re: " ++ "A"`, so the claim requires
`show_subject = false` — but the code leaves it `true`, because the
walk compared it against its parent's subject `"B"`. -/
theorem claim_C3_counterexample :
    (build_state c3_input none).root_set = [0] ∧
    (getC (build_state c3_input none).threads 0).message = some 0 ∧
    ((build_state c3_input none).collection.getD 0 default).subject = "A" ∧
    (getC (build_state c3_input none).threads 2).message = some 2 ∧
    (getC (build_state c3_input none).threads 2).parent = some 1 ∧
    ((build_state c3_input none).collection.getD 2 default).subject = "Re: " ++ "A" ∧
    (getC (build_state c3_input none).threads 2).show_subject = true := by
  refine ⟨?_, ?_, ?_, ?_, ?_, ?_, ?_⟩ <;> decide

/-! ### C5: a placeholder visited at indentation 0 does consume a level -/

/-- C5 counterexample: on `c5_input` container 1 is a placeholder
(`message = none`) visited as a root at indentation 0; its children
(containers 0 and 2, both message-bearing) are assigned indentation 1,
not the placeholder's own indentation 0 as the claim requires. -/
theorem claim_C5_counterexample :
    (build_state c5_input none).root_set = [1] ∧
    (getC (build_state c5_input none).threads 1).message = none ∧
    (getC (build_state c5_input none).threads 1).first_child = some 0 ∧
    (getC (build_state c5_input none).threads 0).next_sibling = some 2 ∧
    (getC (build_state c5_input none).threads 0).message = some 0 ∧
    (getC (build_state c5_input none).threads 2).message = some 1 ∧
    (getC (build_state c5_input none).threads 0).indentation = 1 ∧
    (getC (build_state c5_input none).threads 2).indentation = 1 := by
  refine ⟨?_, ?_, ?_, ?_, ?_, ?_, ?_, ?_⟩ <;> decide

/-! ### C6: a matching sent envelope can still be skipped (duplicate id) -/

/-- C6 counterexample: after `build_collection` the sent envelope's
Message-ID *is* in the ID index, so the claim requires it to be cloned
and appended — but the merge leaves the whole state untouched (in
particular the collection keeps length 1). -/
theorem claim_C6_counterexample :
    tableGet? (build_collection ⟨[], [], c6_primary⟩).id_table c6_sent.message_id = some 0 ∧
    sent_merge (build_collection ⟨[], [], c6_primary⟩) (some [c6_sent]) =
      build_collection ⟨[], [], c6_primary⟩ := by
  exact ⟨by decide, by decide⟩

/-! ### C9: the root set is stably sorted by descending date -/

theorem insert_desc_perm (key : Nat → Nat) (x : Nat) (l : List Nat) :
    (insert_desc key x l).Perm (x :: l) := by
  induction l with
  | nil => exact List.Perm.refl _
  | cons y ys ih =>
      unfold insert_desc
      by_cases h : key x ≤ key y
      · simp only [if_pos h]
        exact ((ih.cons y).trans (List.Perm.swap x y ys))
      · simp only [if_neg h]
        exact List.Perm.refl _

theorem mem_insert_desc {key : Nat → Nat} {x z : Nat} {l : List Nat}
    (h : z ∈ insert_desc key x l) : z = x ∨ z ∈ l := by
  have := (insert_desc_perm key x l).mem_iff.mp h
  simpa using this

theorem insert_desc_sorted (key : Nat → Nat) (x : Nat) (l : List Nat)
    (h : l.Sorted (fun a b => key b ≤ key a)) :
    (insert_desc key x l).Sorted (fun a b => key b ≤ key a) := by
  induction l with
  | nil => simp [insert_desc]
  | cons y ys ih =>
      rw [List.sorted_cons] at h
      unfold insert_desc
      by_cases hxy : key x ≤ key y
      · simp only [if_pos hxy]
        rw [List.sorted_cons]
        refine ⟨?_, ih h.2⟩
        intro z hz
        rcases mem_insert_desc hz with rfl | hz
        · exact hxy
        · exact h.1 z hz
      · simp only [if_neg hxy]
        rw [List.sorted_cons]
        refine ⟨?_, ?_⟩
        · intro z hz
          rcases hz with _ | hz
          · exact le_of_lt (Nat.lt_of_not_le hxy)
          · exact le_trans (h.1 z (by assumption)) (le_of_lt (Nat.lt_of_not_le hxy))
        · rw [List.sorted_cons]
          exact h

theorem insert_desc_filter (key : Nat → Nat) (d x : Nat) (l : List Nat)
    (h : l.Sorted (fun a b => key b ≤ key a)) :
    (insert_desc key x l).filter (fun y => key y == d) =
      l.filter (fun y => key y == d) ++ (if key x == d then [x] else []) := by
  induction l with
  | nil => by_cases hxd : key x = d <;> simp [insert_desc, hxd]
  | cons y ys ih =>
      rw [List.sorted_cons] at h
      unfold insert_desc
      by_cases hxy : key x ≤ key y
      · simp only [if_pos hxy]
        rw [List.filter_cons, List.filter_cons]
        by_cases hyd : (key y == d) = true
        · simp only [hyd, if_pos, ih h.2]
          simp
        · simp only [hyd]
          simp only [Bool.false_eq_true, if_neg, ih h.2, not_false_iff]
      · simp only [if_neg hxy]
        by_cases hxd : (key x == d) = true
        · have hd : key x = d := by simpa using hxd
          have hlt : key y < key x := Nat.lt_of_not_le hxy
          have hnil : (y :: ys).filter (fun z => key z == d) = [] := by
            rw [List.filter_eq_nil_iff]
            intro z hz
            have hzle : key z ≤ key y := by
              rcases List.mem_cons.mp hz with rfl | hz'
              · exact le_refl _
              · exact h.1 z hz'
            have hzd : key z < d := lt_of_le_of_lt hzle (hd ▸ hlt)
            simp [Nat.ne_of_lt hzd]
          have lhs : (x :: y :: ys).filter (fun z => key z == d) = [x] := by
            rw [List.filter_cons]
            simp [hxd, hnil]
          rw [lhs, hnil]
          simp [hxd]
        · have lhs : (x :: y :: ys).filter (fun z => key z == d) =
              (y :: ys).filter (fun z => key z == d) := by
            rw [List.filter_cons]
            simp [hxd]
          rw [lhs]
          simp [hxd]

theorem sort_desc_append_single (key : Nat → Nat) (l : List Nat) (x : Nat) :
    sort_desc key (l ++ [x]) = insert_desc key x (sort_desc key l) := by
  unfold sort_desc
  rw [List.foldl_append]
  rfl

theorem sort_desc_perm (key : Nat → Nat) (l : List Nat) : (sort_desc key l).Perm l := by
  induction l using List.reverseRecOn with
  | nil => exact List.Perm.refl _
  | append_singleton l x ih =>
      rw [sort_desc_append_single]
      have h1 := insert_desc_perm key x (sort_desc key l)
      have h2 : (x :: sort_desc key l).Perm (x :: l) := ih.cons x
      have h3 : (x :: l).Perm (l ++ [x]) := (List.perm_append_singleton x l).symm
      exact h1.trans (h2.trans h3)

theorem sort_desc_sorted (key : Nat → Nat) (l : List Nat) :
    (sort_desc key l).Sorted (fun a b => key b ≤ key a) := by
  induction l using List.reverseRecOn with
  | nil => simp [sort_desc]
  | append_singleton l x ih =>
      rw [sort_desc_append_single]
      exact insert_desc_sorted key x _ ih

theorem sort_desc_filter (key : Nat → Nat) (d : Nat) (l : List Nat) :
    (sort_desc key l).filter (fun y => key y == d) = l.filter (fun y => key y == d) := by
  induction l using List.reverseRecOn with
  | nil => rfl
  | append_singleton l x ih =>
      rw [sort_desc_append_single,
        insert_desc_filter key d x _ (sort_desc_sorted key l), ih, List.filter_append]
      simp [List.filter_cons]

/-- C9: the root set returned by `build_threads` is the root-harvest
list sorted descending by container date, the sort is a permutation of
the harvest list, and it is stable: for every date value, the roots
carrying that date appear in exactly their harvest (discovery) order.
The ID index is modelled as an insertion-ordered association list, so
discovery order means insertion order of the index. -/
theorem claim_C9_root_sort_stable (cc : List Envelope) (sent : Option (List Envelope)) :
    ((build_state cc sent).root_set.Sorted (fun a b =>
        (getC (sent_merge (build_collection ⟨[], [], cc⟩) sent).threads b).date ≤
        (getC (sent_merge (build_collection ⟨[], [], cc⟩) sent).threads a).date)) ∧
    ((build_state cc sent).root_set.Perm
        (root_set_of (sent_merge (build_collection ⟨[], [], cc⟩) sent))) ∧
    (∀ d : Nat,
      (build_state cc sent).root_set.filter (fun x =>
          (getC (sent_merge (build_collection ⟨[], [], cc⟩) sent).threads x).date == d) =
      (root_set_of (sent_merge (build_collection ⟨[], [], cc⟩) sent)).filter (fun x =>
          (getC (sent_merge (build_collection ⟨[], [], cc⟩) sent).threads x).date == d)) := by
  refine ⟨sort_desc_sorted _ _, sort_desc_perm _ _, fun d => sort_desc_filter _ d _⟩

/-! ### C7: root-harvest promotion of single-child placeholders -/

theorem root_set_of_bind (st : TState) :
    root_set_of st = st.id_table.flatMap (fun kv => harvest_entry st.threads kv.2) := by
  unfold root_set_of
  have key : ∀ (l : List (String × Nat)) (acc : List Nat),
      l.foldl
        (fun acc kv =>
          let v := kv.2
          let cv := getC st.threads v
          if cv.parent.isNone then
            if !cv.message.isSome && cv.first_child.isSome &&
               !(getC st.threads (cv.first_child.getD 0)).next_sibling.isSome then
              acc ++ [cv.first_child.getD 0]
            else acc ++ [v]
          else acc)
        acc = acc ++ l.flatMap (fun kv => harvest_entry st.threads kv.2) := by
    intro l
    induction l with
    | nil => intro acc; simp
    | cons kv rest ih =>
        intro acc
        simp only [List.foldl_cons, List.flatMap_cons]
        rw [ih]
        unfold harvest_entry
        by_cases h1 : (getC st.threads kv.2).parent.isNone
        · by_cases h2 : (!(getC st.threads kv.2).message.isSome &&
              (getC st.threads kv.2).first_child.isSome &&
              !(getC st.threads ((getC st.threads kv.2).first_child.getD 0)).next_sibling.isSome) = true
          · simp only [h1, h2]
            simp
          · simp only [h1]
            simp only [Bool.and_assoc] at h2 ⊢
            simp only [if_pos, h2]
            simp [h1, h2]
        · simp only [h1]
          simp [h1]
  rw [key]
  rfl

/-- C7: (general rule, first conjunct) a parentless placeholder whose
single child has no sibling contributes that child to the root set;
(second conjunct) a parentless placeholder whose first child has a
sibling stays in the root set itself; (third conjunct) under the side
conditions that the promoted child differs from the placeholder and no
other indexed container has the placeholder as its first child, the
placeholder itself does not appear in the root set; (fourth conjunct)
scenario B concretely: with `"m2"` referencing the missing `"m0"` and
`"m1"` standalone, a placeholder (container 1) is created for `"m0"`
with `"m2"`'s container 0 as its only child, the root set is the
promoted container 0 followed by `"m1"`'s container 2, and the
placeholder is not a root. -/
theorem claim_C7_placeholder_promotion :
    (∀ (st : TState) (k : String) (v c : Nat),
      (k, v) ∈ st.id_table →
      (getC st.threads v).parent = none →
      (getC st.threads v).message = none →
      (getC st.threads v).first_child = some c →
      (getC st.threads c).next_sibling = none →
      c ∈ root_set_of st) ∧
    (∀ (st : TState) (k : String) (v c c' : Nat),
      (k, v) ∈ st.id_table →
      (getC st.threads v).parent = none →
      (getC st.threads v).message = none →
      (getC st.threads v).first_child = some c →
      (getC st.threads c).next_sibling = some c' →
      v ∈ root_set_of st) ∧
    (∀ (st : TState) (v c : Nat),
      (getC st.threads v).parent = none →
      (getC st.threads v).message = none →
      (getC st.threads v).first_child = some c →
      (getC st.threads c).next_sibling = none →
      c ≠ v →
      (∀ kv, kv ∈ st.id_table → kv.2 ≠ v → (getC st.threads kv.2).first_child ≠ some v) →
      v ∉ root_set_of st) ∧
    ((build_state c7_input none).root_set = [0, 2] ∧
     (getC (build_state c7_input none).threads 1).message = none ∧
     tableGet? (build_state c7_input none).id_table "m0" = some 1 ∧
     (getC (build_state c7_input none).threads 1).first_child = some 0 ∧
     (getC (build_state c7_input none).threads 0).next_sibling = none ∧
     (getC (build_state c7_input none).threads 0).message = some 0 ∧
     (getC (build_state c7_input none).threads 2).message = some 1 ∧
     1 ∉ (build_state c7_input none).root_set) := by
  refine ⟨?_, ?_, ?_, ?_⟩
  · intro st k v c hmem hp hm hfc hns
    rw [root_set_of_bind]
    rw [List.mem_flatMap]
    refine ⟨(k, v), hmem, ?_⟩
    unfold harvest_entry
    simp [hp, hm, hfc, hns]
  · intro st k v c c' hmem hp hm hfc hns
    rw [root_set_of_bind]
    rw [List.mem_flatMap]
    refine ⟨(k, v), hmem, ?_⟩
    unfold harvest_entry
    simp [hp, hm, hfc, hns]
  · intro st v c hp hm hfc hns hcv hother
    rw [root_set_of_bind]
    intro hmem
    rw [List.mem_flatMap] at hmem
    obtain ⟨kv, hkv, hv⟩ := hmem
    unfold harvest_entry at hv
    by_cases hw : kv.2 = v
    · rw [hw] at hv
      simp [hp, hm, hfc, hns] at hv
      exact hcv hv.symm
    · rcases hpw : (getC st.threads kv.2).parent.isNone with _ | _
      · simp [hpw] at hv
      · simp only [hpw, if_pos] at hv
        by_cases hpromo : (!(getC st.threads kv.2).message.isSome &&
            (getC st.threads kv.2).first_child.isSome &&
            !(getC st.threads ((getC st.threads kv.2).first_child.getD 0)).next_sibling.isSome) = true
        · rw [if_pos hpromo] at hv
          simp only [List.mem_singleton] at hv
          have hfcw := hother kv hkv hw
          apply hfcw
          have h2 : (getC st.threads kv.2).first_child.isSome = true := by
            rcases hpromo' : (getC st.threads kv.2).first_child with _ | w
            · rw [hpromo'] at hpromo; simp at hpromo
            · rfl
          rcases hfc' : (getC st.threads kv.2).first_child with _ | w
          · rw [hfc'] at h2; simp at h2
          · rw [hfc'] at hv
            simp at hv
            exact congrArg some hv.symm
        · rw [if_neg hpromo] at hv
          simp at hv
          exact hw hv.symm
  · refine ⟨by decide, by decide, by decide, by decide, by decide, by decide, by decide, by decide⟩

/-- Concrete instantiation of the general promotion rules of
`claim_C7_placeholder_promotion` on scenario B's built state (first
conjunct) and on the `c5_input` state whose placeholder keeps two
children (second and third conjuncts' side conditions checked by
evaluation). -/
theorem claim_C7_placeholder_promotion_witness :
    0 ∈ root_set_of (sent_merge (build_collection ⟨[], [], c7_input⟩) none) ∧
    1 ∈ root_set_of (sent_merge (build_collection ⟨[], [], c5_input⟩) none) ∧
    1 ∉ root_set_of (sent_merge (build_collection ⟨[], [], c7_input⟩) none) := by
  refine ⟨?_, ?_, ?_⟩
  · exact claim_C7_placeholder_promotion.1
      (sent_merge (build_collection ⟨[], [], c7_input⟩) none) "m0" 1 0
      (by decide) (by decide) (by decide) (by decide) (by decide)
  · exact claim_C7_placeholder_promotion.2.1
      (sent_merge (build_collection ⟨[], [], c5_input⟩) none) "m0" 1 0 2
      (by decide) (by decide) (by decide) (by decide) (by decide)
  · exact claim_C7_placeholder_promotion.2.2.1
      (sent_merge (build_collection ⟨[], [], c7_input⟩) none) 1 0
      (by decide) (by decide) (by decide) (by decide) (by decide)
      (by decide)

/-! ### Arena read/write lemmas -/

theorem setC_length (th : List Container) (i : Nat) (c : Container) :
    (setC th i c).length = th.length := List.length_set th i c

theorem getC_oob (th : List Container) (i : Nat) (h : th.length ≤ i) :
    getC th i = default := List.getD_eq_default th default h

theorem setC_oob (th : List Container) (i : Nat) (c : Container) (h : th.length ≤ i) :
    setC th i c = th := List.set_eq_of_length_le h

theorem getC_setC_self (th : List Container) (i : Nat) (c : Container) (h : i < th.length) :
    getC (setC th i c) i = c := by
  unfold getC setC
  rw [List.getD_eq_getElem?_getD, List.getElem?_set_self h]
  rfl

theorem getC_setC_ne (th : List Container) (i j : Nat) (c : Container) (h : j ≠ i) :
    getC (setC th i c) j = getC th j := by
  unfold getC setC
  rw [List.getD_eq_getElem?_getD, List.getElem?_set_ne (Ne.symm h), ← List.getD_eq_getElem?_getD]

theorem getC_append_lt (th : List Container) (l : List Container) (i : Nat)
    (h : i < th.length) : getC (th ++ l) i = getC th i := by
  unfold getC
  rw [List.getD_eq_getElem?_getD, List.getElem?_append_left h, ← List.getD_eq_getElem?_getD]

theorem getC_append_self (th : List Container) (c : Container) :
    getC (th ++ [c]) th.length = c := by
  unfold getC
  rw [List.getD_eq_getElem?_getD]
  rw [List.getElem?_append_right (le_refl _)]
  simp

theorem getC_append_oob (th : List Container) (c : Container) (i : Nat)
    (h : th.length + 1 ≤ i) : getC (th ++ [c]) i = default := by
  apply getC_oob
  simpa using h

/-! ### `same_skel` lemmas -/

theorem same_skel_refl (th : List Container) : same_skel th th := by
  intro j; exact ⟨rfl, rfl, rfl, rfl⟩

theorem same_skel_trans {th1 th2 th3 : List Container}
    (h12 : same_skel th1 th2) (h23 : same_skel th2 th3) : same_skel th1 th3 := by
  intro j
  obtain ⟨a1, b1, c1, d1⟩ := h12 j
  obtain ⟨a2, b2, c2, d2⟩ := h23 j
  exact ⟨a2.trans a1, b2.trans b1, c2.trans c1, d2.trans d1⟩

theorem same_skel_setC (th : List Container) (i : Nat) (c : Container)
    (h1 : c.first_child = (getC th i).first_child)
    (h2 : c.next_sibling = (getC th i).next_sibling)
    (h3 : c.message = (getC th i).message)
    (h4 : c.date = (getC th i).date) :
    same_skel th (setC th i c) := by
  intro j
  by_cases hj : j = i
  · subst hj
    by_cases hlt : j < th.length
    · rw [getC_setC_self th j c hlt]
      exact ⟨h1, h2, h3, h4⟩
    · rw [setC_oob th j c (le_of_not_lt hlt)]
      exact ⟨rfl, rfl, rfl, rfl⟩
  · rw [getC_setC_ne th i j c hj]
    exact ⟨rfl, rfl, rfl, rfl⟩

theorem subject_step_skel (c : List Envelope) (th : List Container) (ind i rsi : Nat) :
    same_skel th (subject_step c th ind i rsi) := by
  unfold subject_step
  by_cases h1 : (getC th rsi).message.isSome = true
  · rw [if_pos h1]
    by_cases h2 : (decide (ind > 0) && (getC th i).message.isSome) = true
    · rw [if_pos h2]
      by_cases h3 : subj_cmp c th i rsi = true
      · rw [if_pos h3]
        exact same_skel_setC th i _ rfl rfl rfl rfl
      · rw [if_neg h3]
        exact same_skel_refl th
    · rw [if_neg h2]
      exact same_skel_refl th
  · rw [if_neg h1]
    exact same_skel_refl th

theorem parent_step_skel (th : List Container) (snap : Container) (i : Nat) :
    same_skel th (parent_step th snap i) := by
  unfold parent_step
  split
  · exact same_skel_setC th i _ rfl rfl rfl rfl
  · exact same_skel_refl th

theorem indent_step_skel (th : List Container) (td : List Nat) (snap : Container)
    (ind i : Nat) : same_skel th (indent_step th td snap ind i).1 := by
  unfold indent_step
  by_cases hm : snap.message.isSome = true
  · rw [if_pos hm]
    exact same_skel_setC th i _ rfl rfl rfl rfl
  · rw [if_neg hm]
    by_cases hi : ind > 0
    · rw [if_pos hi]
      exact same_skel_refl th
    · rw [if_neg hi]
      exact same_skel_refl th

theorem indent_step_threaded (th : List Container) (td : List Nat) (snap : Container)
    (ind i : Nat) :
    (indent_step th td snap ind i).2.1 = td ∨
      ((indent_step th td snap ind i).2.1 = td ++ [i] ∧ snap.message.isSome = true ∧
        i ∉ td) := by
  unfold indent_step
  by_cases hm : snap.message.isSome = true
  · rw [if_pos hm]
    by_cases hc : td.contains i = true
    · rw [if_pos hc]
      exact Or.inl rfl
    · rw [if_neg hc]
      exact Or.inr ⟨rfl, hm, by simpa using hc⟩
  · rw [if_neg hm]
    by_cases hi : ind > 0
    · rw [if_pos hi]
      exact Or.inl rfl
    · rw [if_neg hi]
      exact Or.inl rfl

/-! ### The flatten walk: skeleton preservation and output shape -/

theorem flat_go_skel (c : List Envelope) : ∀ (fuel : Nat) (sibs : Bool)
    (th : List Container) (td : List Nat) (ind i rsi : Nat),
    same_skel th (flat_go c fuel sibs th td ind i rsi).1 := by
  intro fuel
  induction fuel with
  | zero => intro sibs th td ind i rsi; exact same_skel_refl th
  | succ fuel ih =>
      intro sibs th td ind i rsi
      cases sibs
      · rcases hfc : (getC th i).first_child with _ | fc
        · simp only [flat_go, hfc]
          exact same_skel_trans
            (same_skel_trans (subject_step_skel c th ind i rsi)
              (parent_step_skel _ (getC th i) i))
            (indent_step_skel _ td (getC th i) ind i)
        · simp only [flat_go, hfc]
          exact same_skel_trans
            (same_skel_trans (same_skel_trans (subject_step_skel c th ind i rsi)
              (parent_step_skel _ (getC th i) i))
              (indent_step_skel _ td (getC th i) ind i))
            (ih true _ _ _ fc i)
      · simp only [flat_go]
        rcases hns : (getC (flat_go c fuel false th td ind i rsi).1 i).next_sibling with _ | ns
        · simp only [hns]
          exact ih false th td ind i rsi
        · simp only [hns]
          exact same_skel_trans (ih false th td ind i rsi) (ih true _ _ _ ns rsi)

theorem flat_go_out (c : List Envelope) : ∀ (fuel : Nat) (sibs : Bool)
    (th : List Container) (td : List Nat) (ind i rsi : Nat),
    (td.Nodup → (flat_go c fuel sibs th td ind i rsi).2.Nodup) ∧
    (∀ j, j ∈ (flat_go c fuel sibs th td ind i rsi).2 →
      j ∈ td ∨ (getC th j).message.isSome = true) := by
  intro fuel
  induction fuel with
  | zero =>
      intro sibs th td ind i rsi
      exact ⟨id, fun j hj => Or.inl hj⟩
  | succ fuel ih =>
      intro sibs th td ind i rsi
      cases sibs
      · have hstep := indent_step_threaded
          (parent_step (subject_step c th ind i rsi) (getC th i) i) td (getC th i) ind i
        rcases hfc : (getC th i).first_child with _ | fc
        · simp only [flat_go, hfc]
          rcases hstep with h | ⟨h, hm, hni⟩
          · rw [h]
            exact ⟨id, fun j hj => Or.inl hj⟩
          · rw [h]
            constructor
            · intro hnd
              simpa [List.nodup_append] using ⟨hnd, hni⟩
            · intro j hj
              rcases List.mem_append.mp hj with hj | hj
              · exact Or.inl hj
              · simp only [List.mem_singleton] at hj
                subst hj
                exact Or.inr hm
        · simp only [flat_go, hfc]
          have hrec := ih true
            (indent_step (parent_step (subject_step c th ind i rsi) (getC th i) i) td
              (getC th i) ind i).1
            (indent_step (parent_step (subject_step c th ind i rsi) (getC th i) i) td
              (getC th i) ind i).2.1
            (indent_step (parent_step (subject_step c th ind i rsi) (getC th i) i) td
              (getC th i) ind i).2.2 fc i
          have hskel : same_skel th
              (indent_step (parent_step (subject_step c th ind i rsi) (getC th i) i) td
                (getC th i) ind i).1 :=
            same_skel_trans
              (same_skel_trans (subject_step_skel c th ind i rsi)
                (parent_step_skel _ (getC th i) i))
              (indent_step_skel _ td (getC th i) ind i)
          constructor
          · intro hnd
            apply hrec.1
            rcases hstep with h | ⟨h, hm, hni⟩
            · rw [h]; exact hnd
            · rw [h]
              simpa [List.nodup_append] using ⟨hnd, hni⟩
          · intro j hj
            rcases hrec.2 j hj with hj' | hj'
            · rcases hstep with h | ⟨h, hm, hni⟩
              · rw [h] at hj'
                exact Or.inl hj'
              · rw [h] at hj'
                rcases List.mem_append.mp hj' with hj2 | hj2
                · exact Or.inl hj2
                · simp only [List.mem_singleton] at hj2
                  subst hj2
                  exact Or.inr hm
            · right
              rw [← (hskel j).2.2.1]
              exact hj'
      · simp only [flat_go]
        rcases hns : (getC (flat_go c fuel false th td ind i rsi).1 i).next_sibling with _ | ns
        · simp only [hns]
          exact ih false th td ind i rsi
        · simp only [hns]
          have h1 := ih false th td ind i rsi
          have h2 := ih true (flat_go c fuel false th td ind i rsi).1
            (flat_go c fuel false th td ind i rsi).2 ind ns rsi
          constructor
          · intro hnd
            exact h2.1 (h1.1 hnd)
          · intro j hj
            rcases h2.2 j hj with hj' | hj'
            · exact h1.2 j hj'
            · right
              rw [← ((flat_go_skel c fuel false th td ind i rsi) j).2.2.1]
              exact hj'

theorem flatten_out (c : List Envelope) (th : List Container) (rs : List Nat) :
    same_skel th (flatten c th rs).1 ∧ (flatten c th rs).2.Nodup ∧
    (∀ j, j ∈ (flatten c th rs).2 → (getC th j).message.isSome = true) := by
  unfold flatten
  have key : ∀ (rs : List Nat) (acc : List Container × List Nat),
      same_skel th acc.1 → acc.2.Nodup →
      (∀ j, j ∈ acc.2 → (getC th j).message.isSome = true) →
      same_skel th (rs.foldl
        (fun acc i => build_threaded c (2 * acc.1.length + 2) acc.1 acc.2 0 i i) acc).1 ∧
      (rs.foldl
        (fun acc i => build_threaded c (2 * acc.1.length + 2) acc.1 acc.2 0 i i) acc).2.Nodup ∧
      (∀ j, j ∈ (rs.foldl
          (fun acc i => build_threaded c (2 * acc.1.length + 2) acc.1 acc.2 0 i i) acc).2 →
        (getC th j).message.isSome = true) := by
    intro rs
    induction rs with
    | nil => intro acc h1 h2 h3; exact ⟨h1, h2, h3⟩
    | cons r rs ih =>
        intro acc h1 h2 h3
        simp only [List.foldl_cons]
        apply ih
        · exact same_skel_trans h1
            (flat_go_skel c (2 * acc.1.length + 2) false acc.1 acc.2 0 r r)
        · exact (flat_go_out c (2 * acc.1.length + 2) false acc.1 acc.2 0 r r).1 h2
        · intro j hj
          rcases (flat_go_out c (2 * acc.1.length + 2) false acc.1 acc.2 0 r r).2 j hj
            with hj' | hj'
          · exact h3 j hj'
          · rw [(h1 j).2.2.1] at hj'
            exact hj'
  exact key rs (th, []) (same_skel_refl th) List.nodup_nil (by intro j hj; cases hj)

/-- C10: every index the flatten walk emits refers to a message-bearing
container and the emitted sequence contains no duplicates, for every
input collection and optional sent folder. -/
theorem claim_C10_flat_order_nodup_message_bearing (cc : List Envelope)
    (sent : Option (List Envelope)) :
    (build_threads cc sent).2.Nodup ∧
    (∀ j, j ∈ (build_threads cc sent).2 →
      (getC (build_threads cc sent).1 j).message.isSome = true) := by
  have h := flatten_out (sent_merge (build_collection ⟨[], [], cc⟩) sent).collection
    (sent_merge (build_collection ⟨[], [], cc⟩) sent).threads
    (sort_desc
      (fun a => (getC (sent_merge (build_collection ⟨[], [], cc⟩) sent).threads a).date)
      (root_set_of (sent_merge (build_collection ⟨[], [], cc⟩) sent)))
  have hb2 : (build_threads cc sent).2 =
      (flatten (sent_merge (build_collection ⟨[], [], cc⟩) sent).collection
        (sent_merge (build_collection ⟨[], [], cc⟩) sent).threads
        (sort_desc
          (fun a => (getC (sent_merge (build_collection ⟨[], [], cc⟩) sent).threads a).date)
          (root_set_of (sent_merge (build_collection ⟨[], [], cc⟩) sent)))).2 := rfl
  have hb1 : (build_threads cc sent).1 =
      (flatten (sent_merge (build_collection ⟨[], [], cc⟩) sent).collection
        (sent_merge (build_collection ⟨[], [], cc⟩) sent).threads
        (sort_desc
          (fun a => (getC (sent_merge (build_collection ⟨[], [], cc⟩) sent).threads a).date)
          (root_set_of (sent_merge (build_collection ⟨[], [], cc⟩) sent)))).1 := rfl
  rw [hb1, hb2]
  refine ⟨h.2.1, ?_⟩
  intro j hj
  rw [(h.1 j).2.2.1]
  exact h.2.2 j hj

/-! ### ID-index lemmas -/

theorem tableGet?_insert (t : List (String × Nat)) (k k' : String) (v' : Nat) :
    tableGet? (tableInsert t k' v') k =
      (match tableGet? t k with
       | some v => some v
       | none => if k' == k then some v' else none) := by
  unfold tableGet? tableInsert
  rw [List.find?_append]
  rcases h : List.find? (fun e => e.1 == k) t with _ | e
  · simp only [h]
    by_cases hk : (k' == k) = true
    · simp [List.find?, hk]
    · simp [List.find?, hk]
  · simp [h]

theorem tableGet?_insert_of_some (t : List (String × Nat)) (k k' : String) (v v' : Nat)
    (h : tableGet? t k = some v) : tableGet? (tableInsert t k' v') k = some v := by
  rw [tableGet?_insert, h]

theorem tableGet?_insert_self (t : List (String × Nat)) (k : String) (v : Nat)
    (h : tableGet? t k = none) : tableGet? (tableInsert t k v) k = some v := by
  rw [tableGet?_insert, h]
  simp

theorem tableGet?_insert_none (t : List (String × Nat)) (k k' : String) (v' : Nat)
    (hk : tableGet? t k = none) (hne : k' ≠ k) :
    tableGet? (tableInsert t k' v') k = none := by
  rw [tableGet?_insert, hk]
  simp [hne]

theorem tableGet?_insert_inv (t : List (String × Nat)) (k k' : String) (v v' : Nat)
    (h : tableGet? (tableInsert t k' v') k = some v) :
    tableGet? t k = some v ∨ (tableGet? t k = none ∧ k' = k ∧ v = v') := by
  have hh := (tableGet?_insert t k k' v').symm.trans h
  by_cases ht : (tableGet? t k).isSome = true
  · left
    rcases Option.isSome_iff_exists.mp ht with ⟨w, hw⟩
    rw [hw] at hh
    simp only at hh
    rw [hw, hh]
  · right
    have hn : tableGet? t k = none := Option.not_isSome_iff_eq_none.mp (by simpa using ht)
    rw [hn] at hh
    simp only at hh
    by_cases hk : (k' == k) = true
    · rw [if_pos hk] at hh
      exact ⟨hn, by simpa using hk, by simpa using hh.symm⟩
    · rw [if_neg hk] at hh
      cases hh

/-! ### Field preservation through the builder's mutation helpers -/

theorem eq_field_refl {α : Type} (th : List Container) (f : Container → α) :
    eq_field th th f := fun _ => rfl

theorem eq_field_trans {α : Type} {th1 th2 th3 : List Container} {f : Container → α}
    (h12 : eq_field th1 th2 f) (h23 : eq_field th2 th3 f) : eq_field th1 th3 f :=
  fun j => (h23 j).trans (h12 j)

theorem eq_field_setC {α : Type} (th : List Container) (i : Nat) (c : Container)
    (f : Container → α) (h : f c = f (getC th i)) : eq_field th (setC th i c) f := by
  intro j
  by_cases hj : j = i
  · subst hj
    by_cases hlt : j < th.length
    · rw [getC_setC_self th j c hlt, h]
    · rw [setC_oob th j c (le_of_not_lt hlt)]
  · rw [getC_setC_ne th i j c hj]

theorem propagate_date_len (d : Nat) : ∀ (fuel : Nat) (th : List Container) (p : Nat),
    (propagate_date d fuel th p).length = th.length := by
  intro fuel
  induction fuel with
  | zero => intro th p; rfl
  | succ fuel ih =>
      intro th p
      unfold propagate_date
      dsimp only
      split
      · rw [ih]
        split <;> simp [setC_length]
      · split <;> simp [setC_length]

theorem propagate_date_field {α : Type} (d : Nat) (f : Container → α)
    (hf : ∀ c x, f { c with date := x } = f c) :
    ∀ (fuel : Nat) (th : List Container) (p : Nat),
    eq_field th (propagate_date d fuel th p) f := by
  intro fuel
  induction fuel with
  | zero => intro th p; exact eq_field_refl th f
  | succ fuel ih =>
      intro th p
      unfold propagate_date
      dsimp only
      split
      · refine eq_field_trans ?_ (ih _ _)
        split
        · exact eq_field_setC th p _ f (hf _ d)
        · exact eq_field_refl th f
      · split
        · exact eq_field_setC th p _ f (hf _ d)
        · exact eq_field_refl th f

theorem chain_append_len : ∀ (fuel : Nat) (th : List Container) (p ci cr : Nat),
    (chain_append fuel th p ci cr).length = th.length := by
  intro fuel
  induction fuel with
  | zero => intro th p ci cr; rfl
  | succ fuel ih =>
      intro th p ci cr
      unfold chain_append
      dsimp only
      split
      · rw [ih, setC_length]
      · rw [setC_length, setC_length]

theorem chain_append_field {α : Type} (f : Container → α)
    (hf1 : ∀ c x, f { c with parent := x } = f c)
    (hf2 : ∀ c x, f { c with next_sibling := x } = f c) :
    ∀ (fuel : Nat) (th : List Container) (p ci cr : Nat),
    eq_field th (chain_append fuel th p ci cr) f := by
  intro fuel
  induction fuel with
  | zero => intro th p ci cr; exact eq_field_refl th f
  | succ fuel ih =>
      intro th p ci cr
      unfold chain_append
      dsimp only
      split
      · exact eq_field_trans (eq_field_setC th ci _ f (hf1 _ _)) (ih _ _ _ _)
      · exact @eq_field_trans _ th (setC th ci { getC th ci with next_sibling := some cr }) _ f
          (eq_field_setC th ci _ f (hf2 _ _)) (eq_field_setC _ ci _ f (hf1 _ _))

theorem append_child_len (th : List Container) (p cr : Nat) :
    (append_child th p cr).length = th.length := by
  unfold append_child
  dsimp only
  split
  · rw [setC_length]
  · rw [chain_append_len]

theorem append_child_field {α : Type} (f : Container → α)
    (hf1 : ∀ c x, f { c with parent := x } = f c)
    (hf2 : ∀ c x, f { c with next_sibling := x } = f c)
    (hf3 : ∀ c x, f { c with first_child := x } = f c)
    (th : List Container) (p cr : Nat) :
    eq_field th (append_child th p cr) f := by
  unfold append_child
  dsimp only
  split
  · exact eq_field_setC th p _ f (hf3 _ _)
  · exact chain_append_field f hf1 hf2 _ th p _ cr

theorem link_child_len (th : List Container) (p cr : Nat) :
    (link_child th p cr).length = th.length := by
  unfold link_child
  rw [append_child_len, setC_length]

theorem link_child_field {α : Type} (f : Container → α)
    (hf1 : ∀ c x, f { c with parent := x } = f c)
    (hf2 : ∀ c x, f { c with next_sibling := x } = f c)
    (hf3 : ∀ c x, f { c with first_child := x } = f c)
    (th : List Container) (p cr : Nat) :
    eq_field th (link_child th p cr) f := by
  unfold link_child
  exact eq_field_trans
    (eq_field_setC th cr { getC th cr with parent := some p } f (hf1 _ _))
    (append_child_field f hf1 hf2 hf3 _ p cr)

/-! ### `process_ref` effects relevant to message binding -/

theorem eq_field_append_one {α : Type} (th : List Container) (c : Container)
    (f : Container → α) (h : f c = f (default : Container)) :
    eq_field th (th ++ [c]) f := by
  intro j
  by_cases hj : j < th.length
  · rw [getC_append_lt th [c] j hj]
  · by_cases hj2 : j = th.length
    · subst hj2
      rw [getC_append_self, getC_oob th _ (le_refl _), h]
    · rw [getC_append_oob th c j (by omega), getC_oob th j (by omega)]

theorem process_ref_message (st : TState) (d cr : Nat) (r : String) :
    eq_field st.threads (process_ref st d cr r).1.threads Container.message := by
  unfold process_ref
  rcases hr : tableGet? st.id_table r with _ | p
  · simp only [hr]
    refine eq_field_trans (eq_field_append_one st.threads
      (ph_node st.threads.length cr d) Container.message rfl) ?_
    refine eq_field_trans ?_ (propagate_date_field d Container.message (fun c x => rfl) _ _ _)
    split
    · exact eq_field_setC _ cr _ Container.message rfl
    · exact eq_field_refl _ _
  · simp only [hr]
    refine eq_field_trans ?_ (propagate_date_field d Container.message (fun c x => rfl) _ _ _)
    split
    · exact link_child_field Container.message (fun c x => rfl) (fun c x => rfl)
        (fun c x => rfl) st.threads p cr
    · exact eq_field_refl _ _

theorem process_ref_len (st : TState) (d cr : Nat) (r : String) :
    st.threads.length ≤ (process_ref st d cr r).1.threads.length := by
  unfold process_ref
  rcases hr : tableGet? st.id_table r with _ | p
  · simp only [hr]
    rw [propagate_date_len]
    split
    · rw [setC_length]
      simp
    · simp
  · simp only [hr]
    rw [propagate_date_len]
    split
    · rw [link_child_len]
    · exact le_refl _

theorem process_ref_collection (st : TState) (d cr : Nat) (r : String) :
    (process_ref st d cr r).1.collection = st.collection := by
  unfold process_ref
  rcases hr : tableGet? st.id_table r with _ | p <;> simp [hr]

theorem process_ref_table (st : TState) (d cr : Nat) (r : String) :
    (process_ref st d cr r).1.id_table = st.id_table ∨
    ((process_ref st d cr r).1.id_table = tableInsert st.id_table r st.threads.length ∧
     tableGet? st.id_table r = none ∧
     (process_ref st d cr r).1.threads.length = st.threads.length + 1) := by
  rcases hr : tableGet? st.id_table r with _ | p
  · right
    refine ⟨?_, rfl, ?_⟩
    · simp only [process_ref, hr]
    · simp only [process_ref, hr]
      rw [propagate_date_len]
      split
      · rw [setC_length]
        simp
      · simp
  · left
    simp only [process_ref, hr]

/-! ### `refs_loop` effects, generic list lemmas, fold invariants -/

theorem refs_loop_message (st : TState) (d xi : Nat) (refs : List String) :
    eq_field st.threads (refs_loop st d xi refs).threads Container.message := by
  rw [refs_loop_last]
  rcases refs.getLast? with _ | r
  · exact eq_field_refl _ _
  · exact process_ref_message st d xi r

theorem refs_loop_len (st : TState) (d xi : Nat) (refs : List String) :
    st.threads.length ≤ (refs_loop st d xi refs).threads.length := by
  rw [refs_loop_last]
  rcases refs.getLast? with _ | r
  · exact le_refl _
  · exact process_ref_len st d xi r

theorem refs_loop_collection (st : TState) (d xi : Nat) (refs : List String) :
    (refs_loop st d xi refs).collection = st.collection := by
  rw [refs_loop_last]
  rcases refs.getLast? with _ | r
  · rfl
  · exact process_ref_collection st d xi r

theorem refs_loop_table (st : TState) (d xi : Nat) (refs : List String) :
    (refs_loop st d xi refs).id_table = st.id_table ∨
    ∃ r, ((refs_loop st d xi refs).id_table = tableInsert st.id_table r st.threads.length ∧
      tableGet? st.id_table r = none ∧
      (refs_loop st d xi refs).threads.length = st.threads.length + 1) := by
  rw [refs_loop_last]
  rcases refs.getLast? with _ | r
  · exact Or.inl rfl
  · rcases process_ref_table st d xi r with h | h
    · exact Or.inl h
    · exact Or.inr ⟨r, h⟩

theorem getD_set_self {α : Type} (l : List α) (i : Nat) (a d : α) (h : i < l.length) :
    (l.set i a).getD i d = a := by
  rw [List.getD_eq_getElem?_getD, List.getElem?_set_self h]
  rfl

theorem getD_set_ne {α : Type} (l : List α) (i j : Nat) (a d : α) (h : j ≠ i) :
    (l.set i a).getD j d = l.getD j d := by
  rw [List.getD_eq_getElem?_getD, List.getElem?_set_ne (Ne.symm h),
    ← List.getD_eq_getElem?_getD]

theorem foldl_range_inv {α : Type} (P : Nat → α → Prop) (f : α → Nat → α) (n : Nat) (a : α)
    (h0 : P 0 a) (hstep : ∀ k b, k < n → P k b → P (k+1) (f b k)) :
    P n ((List.range n).foldl f a) := by
  induction n with
  | zero => exact h0
  | succ n ih =>
      rw [List.range_succ, List.foldl_append]
      exact hstep n _ (Nat.lt_succ_self n)
        (ih (fun k b hk hb => hstep k b (Nat.lt_succ_of_lt hk) hb))

theorem tbl_inv_insert (t : List (String × Nat)) (len : Nat) (r : String)
    (h5 : ∀ ka kb v, tableGet? t ka = some v → tableGet? t kb = some v → ka = kb)
    (h6 : ∀ k v, tableGet? t k = some v → v < len) :
    (∀ ka kb v, tableGet? (tableInsert t r len) ka = some v →
      tableGet? (tableInsert t r len) kb = some v → ka = kb) ∧
    (∀ k v, tableGet? (tableInsert t r len) k = some v → v < len + 1) := by
  constructor
  · intro ka kb v hka hkb
    rcases tableGet?_insert_inv t ka r v len hka with ha | ⟨_, hra, hva⟩
    · rcases tableGet?_insert_inv t kb r v len hkb with hb | ⟨_, hrb, hvb⟩
      · exact h5 ka kb v ha hb
      · exact absurd (hvb ▸ h6 ka v ha) (lt_irrefl len)
    · rcases tableGet?_insert_inv t kb r v len hkb with hb | ⟨_, hrb, hvb⟩
      · exact absurd (hva ▸ h6 kb v hb) (lt_irrefl len)
      · rw [← hra, ← hrb]
  · intro k v hk
    rcases tableGet?_insert_inv t k r v len hk with h | ⟨_, _, hv⟩
    · exact Nat.lt_succ_of_lt (h6 k v h)
    · rw [hv]
      exact Nat.lt_succ_self len

theorem exists_first_occ_same_id (cc : List Envelope) (k : Nat) (hnot : ¬ first_occ cc k) :
    ∃ i, i < k ∧ first_occ cc i ∧
      (cc.getD i default).message_id = (cc.getD k default).message_id := by
  unfold first_occ at hnot
  push_neg at hnot
  obtain ⟨j, hj, hjid⟩ := hnot
  have hP : ∃ n, n < k ∧
      (cc.getD n default).message_id = (cc.getD k default).message_id := ⟨j, hj, hjid⟩
  refine ⟨Nat.find hP, (Nat.find_spec hP).1, ?_, (Nat.find_spec hP).2⟩
  intro m hm heq
  exact Nat.find_min hP hm
    ⟨lt_trans hm (Nat.find_spec hP).1, heq.trans (Nat.find_spec hP).2⟩

theorem c8_inv_refs_loop (cc : List Envelope) (k : Nat) (stB : TState) (d xi : Nat)
    (refs : List String) (h : c8_inv cc k stB) :
    c8_inv cc k (refs_loop stB d xi refs) := by
  obtain ⟨h1, h2, h3, h4, h5, h6⟩ := h
  have hcol := refs_loop_collection stB d xi refs
  have hmsg := refs_loop_message stB d xi refs
  have hlen := refs_loop_len stB d xi refs
  have htab := refs_loop_table stB d xi refs
  refine ⟨?_, ?_, ?_, ?_, ?_, ?_⟩
  · rw [hcol]; exact h1
  · intro j hj
    rw [hcol]
    exact h2 j hj
  · intro j hj hjc
    refine ⟨?_, ?_⟩
    · intro hfo
      obtain ⟨t, ht, hc, hm, hl⟩ := (h3 j hj hjc).1 hfo
      refine ⟨t, lt_of_lt_of_le ht hlen, by rw [hcol]; exact hc,
        by rw [hmsg t]; exact hm, ?_⟩
      rcases htab with he | ⟨r, he, hr, _⟩
      · rw [he]; exact hl
      · rw [he]; exact tableGet?_insert_of_some _ _ _ _ _ hl
    · intro hnfo
      rw [hcol]
      exact (h3 j hj hjc).2 hnfo
  · intro t i hmi
    rw [hmsg t] at hmi
    obtain ⟨hik, hic, hif, hil⟩ := h4 t i hmi
    refine ⟨hik, hic, hif, ?_⟩
    rcases htab with he | ⟨r, he, hr, _⟩
    · rw [he]; exact hil
    · rw [he]; exact tableGet?_insert_of_some _ _ _ _ _ hil
  · rcases htab with he | ⟨r, he, hr, hlen2⟩
    · rw [he]; exact h5
    · rw [he]
      exact (tbl_inv_insert stB.id_table stB.threads.length r h5 h6).1
  · rcases htab with he | ⟨r, he, hr, hlen2⟩
    · rw [he]
      intro k' v hv
      exact lt_of_lt_of_le (h6 k' v hv) hlen
    · rw [he, hlen2]
      exact (tbl_inv_insert stB.id_table stB.threads.length r h5 h6).2

theorem c8_step_none (cc : List Envelope) (k : Nat) (st : TState) (hk : k < cc.length)
    (hinv : c8_inv cc k st)
    (hlook : tableGet? st.id_table ((cc.getD k default).message_id) = none) :
    c8_inv cc (k+1)
      { threads := st.threads ++
          [{ id := st.threads.length, message := some k, parent := none, first_child := none,
             next_sibling := none, date := (cc.getD k default).date, indentation := 0,
             show_subject := true }],
        id_table := tableInsert st.id_table ((cc.getD k default).message_id)
          st.threads.length,
        collection := st.collection.set k
          { cc.getD k default with thread := some st.threads.length } } := by
  obtain ⟨h1, h2, h3, h4, h5, h6⟩ := hinv
  have hfo : first_occ cc k := by
    by_contra hno
    obtain ⟨i0, hi0k, hfo0, hid0⟩ := exists_first_occ_same_id cc k hno
    obtain ⟨t0, _, _, _, hl0⟩ := (h3 i0 hi0k (lt_trans hi0k hk)).1 hfo0
    rw [hid0, hlook] at hl0
    cases hl0
  refine ⟨?_, ?_, ?_, ?_, ?_, ?_⟩
  · simpa using h1
  · intro j hj
    have hjk : j ≠ k := by omega
    rw [getD_set_ne st.collection k j _ default hjk]
    exact h2 j (by omega)
  · intro j hj hjc
    by_cases hjk : j = k
    · subst hjk
      constructor
      · intro _
        refine ⟨st.threads.length, by simp, ?_, ?_, ?_⟩
        · rw [getD_set_self st.collection j _ default (by rw [h1]; exact hk)]
        · rw [getC_append_self]
        · exact tableGet?_insert_self _ _ _ hlook
      · intro hn
        exact absurd hfo hn
    · have hjk' : j < k := by omega
      constructor
      · intro hfo'
        obtain ⟨t, ht, hc, hm, hl⟩ := (h3 j hjk' hjc).1 hfo'
        refine ⟨t, ?_, ?_, ?_, ?_⟩
        · simp
          omega
        · rw [getD_set_ne st.collection k j _ default hjk]
          exact hc
        · rw [getC_append_lt st.threads _ t ht]
          exact hm
        · exact tableGet?_insert_of_some _ _ _ _ _ hl
      · intro hn
        rw [getD_set_ne st.collection k j _ default hjk]
        exact (h3 j hjk' hjc).2 hn
  · intro t i hmi
    by_cases ht : t < st.threads.length
    · rw [getC_append_lt st.threads _ t ht] at hmi
      obtain ⟨hik, hic, hif, hil⟩ := h4 t i hmi
      exact ⟨by omega, hic, hif, tableGet?_insert_of_some _ _ _ _ _ hil⟩
    · by_cases ht2 : t = st.threads.length
      · subst ht2
        rw [getC_append_self] at hmi
        have hik : k = i := Option.some.inj hmi
        subst hik
        exact ⟨by omega, hk, hfo, tableGet?_insert_self _ _ _ hlook⟩
      · rw [getC_append_oob st.threads _ t (by omega)] at hmi
        cases hmi
  · exact (tbl_inv_insert st.id_table st.threads.length _ h5 h6).1
  · intro k' v hv
    have := (tbl_inv_insert st.id_table st.threads.length _ h5 h6).2 k' v hv
    simpa using this

theorem c8_step_fill (cc : List Envelope) (k : Nat) (st : TState) (hk : k < cc.length)
    (hinv : c8_inv cc k st) (t : Nat)
    (hlook : tableGet? st.id_table ((cc.getD k default).message_id) = some t)
    (hmnone : (getC st.threads t).message = none) :
    c8_inv cc (k+1)
      { threads := setC st.threads t
          { getC st.threads t with date := (cc.getD k default).date, message := some k },
        id_table := st.id_table,
        collection := st.collection.set k { cc.getD k default with thread := some t } } := by
  obtain ⟨h1, h2, h3, h4, h5, h6⟩ := hinv
  have ht : t < st.threads.length := h6 _ t hlook
  have hfo : first_occ cc k := by
    by_contra hno
    obtain ⟨i0, hi0k, hfo0, hid0⟩ := exists_first_occ_same_id cc k hno
    obtain ⟨t0, _, _, hm0, hl0⟩ := (h3 i0 hi0k (lt_trans hi0k hk)).1 hfo0
    rw [hid0, hlook] at hl0
    have ht0 : t0 = t := (Option.some.inj hl0).symm
    rw [ht0, hmnone] at hm0
    cases hm0
  refine ⟨?_, ?_, ?_, ?_, h5, ?_⟩
  · simpa using h1
  · intro j hj
    have hjk : j ≠ k := by omega
    rw [getD_set_ne st.collection k j _ default hjk]
    exact h2 j (by omega)
  · intro j hj hjc
    by_cases hjk : j = k
    · subst hjk
      constructor
      · intro _
        refine ⟨t, ?_, ?_, ?_, hlook⟩
        · rw [setC_length]
          exact ht
        · rw [getD_set_self st.collection j _ default (by rw [h1]; exact hk)]
        · rw [getC_setC_self st.threads t _ ht]
      · intro hn
        exact absurd hfo hn
    · have hjk' : j < k := by omega
      constructor
      · intro hfo'
        obtain ⟨t0, ht0, hc, hm, hl⟩ := (h3 j hjk' hjc).1 hfo'
        have ht0t : t0 ≠ t := by
          intro he
          rw [he, hmnone] at hm
          cases hm
        refine ⟨t0, ?_, ?_, ?_, hl⟩
        · rw [setC_length]
          exact ht0
        · rw [getD_set_ne st.collection k j _ default hjk]
          exact hc
        · rw [getC_setC_ne st.threads t t0 _ ht0t]
          exact hm
      · intro hn
        rw [getD_set_ne st.collection k j _ default hjk]
        exact (h3 j hjk' hjc).2 hn
  · intro t' i hmi
    by_cases ht' : t' = t
    · subst ht'
      rw [getC_setC_self st.threads t' _ ht] at hmi
      have hik : k = i := Option.some.inj hmi
      subst hik
      exact ⟨by omega, hk, hfo, hlook⟩
    · rw [getC_setC_ne st.threads t t' _ ht'] at hmi
      obtain ⟨hik, hic, hif, hil⟩ := h4 t' i hmi
      exact ⟨by omega, hic, hif, hil⟩
  · intro k' v hv
    rw [setC_length]
    exact h6 k' v hv

theorem c8_step_skip (cc : List Envelope) (k : Nat) (st : TState) (hk : k < cc.length)
    (hinv : c8_inv cc k st) (t i : Nat)
    (hlook : tableGet? st.id_table ((cc.getD k default).message_id) = some t)
    (hmsome : (getC st.threads t).message = some i) :
    c8_inv cc (k+1) st := by
  obtain ⟨h1, h2, h3, h4, h5, h6⟩ := hinv
  have hnfo : ¬ first_occ cc k := by
    obtain ⟨hik, hic, hif, hil⟩ := h4 t i hmsome
    have hid : (cc.getD i default).message_id = (cc.getD k default).message_id :=
      h5 _ _ t hil hlook
    intro hfo
    exact hfo i hik hid
  refine ⟨h1, fun j hj => h2 j (by omega), ?_, ?_, h5, h6⟩
  · intro j hj hjc
    by_cases hjk : j = k
    · subst hjk
      exact ⟨fun hfo => absurd hfo hnfo, fun _ => h2 j (le_refl j)⟩
    · exact h3 j (by omega) hjc
  · intro t' i' hm'
    obtain ⟨a, b, c, d2⟩ := h4 t' i' hm'
    exact ⟨by omega, b, c, d2⟩

theorem c8_step (cc : List Envelope) (k : Nat) (st : TState) (hk : k < cc.length)
    (hinv : c8_inv cc k st) : c8_inv cc (k+1) (step_envelope st k) := by
  have hx : getE st k = cc.getD k default := hinv.2.1 k (le_refl k)
  rcases hlook : tableGet? st.id_table ((cc.getD k default).message_id) with _ | t
  · have heq : step_envelope st k = refs_loop
        { threads := st.threads ++
            [{ id := st.threads.length, message := some k, parent := none,
               first_child := none, next_sibling := none,
               date := (cc.getD k default).date, indentation := 0, show_subject := true }],
          id_table := tableInsert st.id_table ((cc.getD k default).message_id)
            st.threads.length,
          collection := st.collection.set k
            { cc.getD k default with thread := some st.threads.length } }
        (cc.getD k default).date st.threads.length (cc.getD k default).references := by
      simp only [step_envelope, hx, hlook]
    rw [heq]
    exact c8_inv_refs_loop cc (k+1) _ _ _ _ (c8_step_none cc k st hk hinv hlook)
  · by_cases hm : (getC st.threads t).message.isSome = true
    · obtain ⟨i, hi⟩ := Option.isSome_iff_exists.mp hm
      have heq : step_envelope st k = st := by
        simp only [step_envelope, hx, hlook, hm, if_pos]
      rw [heq]
      exact c8_step_skip cc k st hk hinv t i hlook hi
    · have hmnone : (getC st.threads t).message = none :=
        Option.not_isSome_iff_eq_none.mp (by simpa using hm)
      have heq : step_envelope st k = refs_loop
          { threads := setC st.threads t
              { getC st.threads t with
                  date := (cc.getD k default).date, message := some k },
            id_table := st.id_table,
            collection := st.collection.set k
              { cc.getD k default with thread := some t } }
          (cc.getD k default).date t (cc.getD k default).references := by
        simp only [step_envelope, hx, hlook, hmnone, Option.isSome_none]
        rfl
      rw [heq]
      exact c8_inv_refs_loop cc (k+1) _ _ _ _ (c8_step_fill cc k st hk hinv t hlook hmnone)

theorem c8_base (cc : List Envelope) : c8_inv cc 0 ⟨[], [], cc⟩ := by
  refine ⟨rfl, fun j _ => rfl, ?_, ?_, ?_, ?_⟩
  · intro j hj _
    exact absurd hj (Nat.not_lt_zero j)
  · intro t i hmi
    simp [getC] at hmi
  · intro ka kb v h
    simp [tableGet?] at h
  · intro k' v h
    simp [tableGet?] at h

theorem c8_invariant_final (cc : List Envelope) :
    c8_inv cc cc.length (build_collection ⟨[], [], cc⟩) := by
  unfold build_collection
  exact foldl_range_inv (c8_inv cc) step_envelope cc.length ⟨[], [], cc⟩ (c8_base cc)
    (fun k b hk hb => c8_step cc k b hk hb)

/-- C8: when records of the primary collection share a Message-ID, the
later records are skipped entirely — their envelope (in particular the
`thread` back-reference) is left exactly as it was — while the first
occurrence is bound to a container that still holds it when
`build_collection` returns, i.e. the binding is never overwritten by a
later duplicate. -/
theorem claim_C8_duplicate_message_id_first_wins (cc : List Envelope) :
    (∀ j, j < cc.length →
      (∃ i, i < j ∧ (cc.getD i default).message_id = (cc.getD j default).message_id) →
      (build_collection ⟨[], [], cc⟩).collection.getD j default = cc.getD j default) ∧
    (∀ i, i < cc.length → first_occ cc i →
      ∃ t, t < (build_collection ⟨[], [], cc⟩).threads.length ∧
        (build_collection ⟨[], [], cc⟩).collection.getD i default =
          { cc.getD i default with thread := some t } ∧
        (getC (build_collection ⟨[], [], cc⟩).threads t).message = some i) := by
  have h := c8_invariant_final cc
  obtain ⟨h1, h2, h3, h4, h5, h6⟩ := h
  constructor
  · intro j hj ⟨i, hij, hid⟩
    refine (h3 j hj hj).2 ?_
    intro hfo
    exact hfo i hij hid
  · intro i hi hfo
    obtain ⟨t, ht, hc, hm, _⟩ := (h3 i hi hi).1 hfo
    exact ⟨t, ht, hc, hm⟩

/-- Scenario C instantiation of
`claim_C8_duplicate_message_id_first_wins`: two records share
Message-ID `"dup"`; the second is left untouched (thread unset) and
the first is bound to container 0, which still holds it after the
build. -/
theorem claim_C8_duplicate_message_id_first_wins_witness :
    (build_collection ⟨[], [], c8_input⟩).collection.getD 1 default =
      c8_input.getD 1 default ∧
    ∃ t, t < (build_collection ⟨[], [], c8_input⟩).threads.length ∧
      (build_collection ⟨[], [], c8_input⟩).collection.getD 0 default =
        { c8_input.getD 0 default with thread := some t } ∧
      (getC (build_collection ⟨[], [], c8_input⟩).threads t).message = some 0 := by
  constructor
  · exact (claim_C8_duplicate_message_id_first_wins c8_input).1 1 (by decide)
      ⟨0, by decide, by decide⟩
  · exact (claim_C8_duplicate_message_id_first_wins c8_input).2 0 (by decide)
      (by intro k hk; exact absurd hk (Nat.not_lt_zero k))

/-! ### Basic graph lemmas -/

theorem ceq_refl (a : Container) : ceq a a = true := by
  unfold ceq
  rcases a.message with _ | m <;> simp

theorem lstep_src_lt {th : List Container} {a b : Nat} (h : lstep th a b) :
    a < th.length := by
  by_contra hn
  rcases h with h | h
  · unfold fcE at h
    rw [getC_oob th a (le_of_not_lt hn)] at h
    exact Option.noConfusion h
  · unfold nsE at h
    rw [getC_oob th a (le_of_not_lt hn)] at h
    exact Option.noConfusion h

theorem uniqueIn_pred {th : List Container} (h : UniqueIn th) {w w' z : Nat}
    (h1 : lstep th w z) (h2 : lstep th w' z) : w = w' := by
  rcases h1 with h1 | h1 <;> rcases h2 with h2 | h2
  · exact h.1 w w' z h1 h2
  · exact (h.2.2 w w' z h1 h2).elim
  · exact (h.2.2 w' w z h2 h1).elim
  · exact h.2.1 w w' z h1 h2

theorem rtg_comparable {r : Nat → Nat → Prop}
    (huniq : ∀ w w' z, r w z → r w' z → w = w') :
    ∀ {x z : Nat}, Relation.ReflTransGen r x z → ∀ {y : Nat},
      Relation.ReflTransGen r y z →
      Relation.ReflTransGen r x y ∨ Relation.ReflTransGen r y x := by
  intro x z hx
  induction hx with
  | refl =>
      intro y hy
      right
      exact hy
  | tail hxv hvz ih =>
      intro y hy
      rcases Relation.ReflTransGen.cases_tail hy with heq | ⟨w, hyw, hwz⟩
      · left
        rw [← heq]
        exact Relation.ReflTransGen.tail hxv hvz
      · have hvw := huniq _ _ _ hvz hwz
        rw [← hvw] at hyw
        exact ih hyw

theorem transGen_add {r r' : Nat → Nat → Prop} {u c : Nat}
    (hchar : ∀ x y, r' x y ↔ r x y ∨ (x = u ∧ y = c)) :
    ∀ {x y : Nat}, Relation.TransGen r' x y →
      Relation.TransGen r x y ∨
        (Relation.ReflTransGen r x u ∧ Relation.ReflTransGen r' c y) := by
  intro x y h
  induction h with
  | single h1 =>
      rcases (hchar _ _).mp h1 with h1 | ⟨he1, he2⟩
      · exact Or.inl (Relation.TransGen.single h1)
      · subst he1
        subst he2
        exact Or.inr ⟨Relation.ReflTransGen.refl, Relation.ReflTransGen.refl⟩
  | tail hxb hbz ih =>
      rcases (hchar _ _).mp hbz with hbz' | ⟨he1, he2⟩
      · rcases ih with ih | ⟨h1, h2⟩
        · exact Or.inl (ih.tail hbz')
        · exact Or.inr ⟨h1, h2.tail hbz⟩
      · subst he1
        subst he2
        rcases ih with ih | ⟨h1, _⟩
        · exact Or.inr ⟨ih.to_reflTransGen, Relation.ReflTransGen.refl⟩
        · exact Or.inr ⟨h1, Relation.ReflTransGen.refl⟩

theorem rtg_add {r r' : Nat → Nat → Prop} {u c : Nat}
    (hchar : ∀ x y, r' x y ↔ r x y ∨ (x = u ∧ y = c)) :
    ∀ {x y : Nat}, Relation.ReflTransGen r' x y →
      Relation.ReflTransGen r x y ∨
        (Relation.ReflTransGen r x u ∧ Relation.ReflTransGen r' c y) := by
  intro x y h
  rcases Relation.reflTransGen_iff_eq_or_transGen.mp h with heq | h
  · rw [heq]
    exact Or.inl Relation.ReflTransGen.refl
  · rcases transGen_add hchar h with h | ⟨h1, h2⟩
    · exact Or.inl h.to_reflTransGen
    · exact Or.inr ⟨h1, h2⟩

theorem rtg_add_purify {r r' : Nat → Nat → Prop} {u c : Nat}
    (hchar : ∀ x y, r' x y ↔ r x y ∨ (x = u ∧ y = c))
    (hnr : ¬ Relation.ReflTransGen r c u) :
    ∀ {y : Nat}, Relation.ReflTransGen r' c y → Relation.ReflTransGen r c y := by
  intro y h
  rcases rtg_add hchar h with h | ⟨h1, _⟩
  · exact h
  · exact absurd h1 hnr

theorem acyclic_add_edge {th th' : List Container} {u c : Nat}
    (hchar : ∀ x y, lstep th' x y ↔ lstep th x y ∨ (x = u ∧ y = c))
    (hacyc : Acyclic th) (hnr : ¬ lReach th c u) : Acyclic th' := by
  intro i hi
  rcases transGen_add hchar hi with h | ⟨h1, h2⟩
  · exact hacyc i h
  · have h2' : lReach th c i := rtg_add_purify hchar hnr h2
    exact hnr (h2'.trans h1)

theorem chain_mem_transGen {r : Nat → Nat → Prop} :
    ∀ {L : List Nat} {a : Nat}, List.Chain r a L → ∀ {b}, b ∈ L →
      Relation.TransGen r a b := by
  intro L
  induction L with
  | nil =>
      intro a _ b hb
      cases hb
  | cons x L ih =>
      intro a hch b hb
      rcases List.chain_cons.mp hch with ⟨hax, hchx⟩
      rcases List.mem_cons.mp hb with heq | hb
      · rw [heq]
        exact Relation.TransGen.single hax
      · exact Relation.TransGen.head hax (ih hchx hb)

theorem chain_nodup_of_acyclic {r : Nat → Nat → Prop}
    (hacyc : ∀ i, ¬ Relation.TransGen r i i) :
    ∀ {L : List Nat} {a : Nat}, List.Chain r a L → (a :: L).Nodup := by
  intro L
  induction L with
  | nil =>
      intro a _
      simp
  | cons x L ih =>
      intro a hch
      rcases List.chain_cons.mp hch with ⟨hax, hchx⟩
      have hx := ih hchx
      rw [List.nodup_cons]
      refine ⟨?_, hx⟩
      intro ha
      have hcyc : Relation.TransGen r a a := by
        rcases List.mem_cons.mp ha with heq | ha'
        · rw [heq] at hax ⊢
          exact Relation.TransGen.single hax
        · exact Relation.TransGen.head hax (chain_mem_transGen hchx ha')
      exact hacyc a hcyc

theorem chain_targets_lt {th : List Container}
    (hclosed : ∀ a b, lstep th a b → b < th.length) {r : Nat → Nat → Prop}
    (hsub : ∀ a b, r a b → lstep th a b) :
    ∀ {L : List Nat} {a : Nat}, List.Chain r a L → ∀ x ∈ L, x < th.length := by
  intro L
  induction L with
  | nil =>
      intro a _ x hx
      cases hx
  | cons y L ih =>
      intro a hch x hx
      rcases List.chain_cons.mp hch with ⟨hay, hchy⟩
      rcases List.mem_cons.mp hx with heq | hx
      · rw [heq]
        exact hclosed a y (hsub a y hay)
      · exact ih hchy x hx

theorem nodup_lt_length_le {L : List Nat} {n : Nat} (h1 : L.Nodup)
    (h2 : ∀ x ∈ L, x < n) : L.length ≤ n := by
  have hsub : L ⊆ List.range n := fun x hx => List.mem_range.mpr (h2 x hx)
  have := List.Subperm.length_le (List.Nodup.subperm h1 hsub)
  simpa using this

/-! ### Soundness and completeness of the fueled `is_descendant` -/

theorem is_descendant_sound (th : List Container) (o : Container) :
    ∀ (fuel : Nat) (v : Nat), is_descendant th fuel (getC th v) o = true →
      ∃ w, lReach th v w ∧ ceq (getC th w) o = true := by
  intro fuel
  induction fuel with
  | zero =>
      intro v h
      cases h
  | succ fuel ih =>
      intro v h
      unfold is_descendant at h
      by_cases hce : ceq (getC th v) o = true
      · exact ⟨v, Relation.ReflTransGen.refl, hce⟩
      · rw [if_neg hce] at h
        rcases Bool.or_eq_true_iff.mp h with h | h
        · rcases hfc : (getC th v).first_child with _ | w
          · rw [hfc] at h
            cases h
          · rw [hfc] at h
            obtain ⟨w', hw', hc⟩ := ih w h
            exact ⟨w', Relation.ReflTransGen.head (Or.inl hfc) hw', hc⟩
        · rcases hns : (getC th v).next_sibling with _ | w
          · rw [hns] at h
            cases h
          · rw [hns] at h
            obtain ⟨w', hw', hc⟩ := ih w h
            exact ⟨w', Relation.ReflTransGen.head (Or.inr hns) hw', hc⟩

theorem is_descendant_complete_aux (th : List Container) (o : Container) :
    ∀ (L : List Nat) (a fuel : Nat), List.Chain (lstep th) a L →
    ceq (getC th ((a :: L).getLast (List.cons_ne_nil a L))) o = true →
    L.length < fuel → is_descendant th fuel (getC th a) o = true := by
  intro L
  induction L with
  | nil =>
      intro a fuel _ hceq hfuel
      rcases fuel with _ | fuel
      · omega
      · unfold is_descendant
        simp only [List.getLast_singleton] at hceq
        rw [if_pos hceq]
  | cons x L ih =>
      intro a fuel hch hceq hfuel
      rcases fuel with _ | fuel
      · omega
      · rcases List.chain_cons.mp hch with ⟨hax, hchx⟩
        have hlast : (x :: L).getLast (List.cons_ne_nil x L) =
            (a :: x :: L).getLast (List.cons_ne_nil a (x :: L)) := by
          rw [List.getLast_cons_cons]
        have hrec : is_descendant th fuel (getC th x) o = true := by
          apply ih x fuel hchx
          · rw [hlast]
            exact hceq
          · simp only [List.length_cons] at hfuel
            omega
        unfold is_descendant
        by_cases hce : ceq (getC th a) o = true
        · rw [if_pos hce]
        · rw [if_neg hce]
          rcases hax with hfc | hns
          · unfold fcE at hfc
            rw [hfc]
            exact Bool.or_eq_true_iff.mpr (Or.inl hrec)
          · unfold nsE at hns
            rw [hns]
            refine Bool.or_eq_true_iff.mpr (Or.inr ?_)
            exact hrec

theorem lReach_found (th : List Container)
    (hclosed : ∀ a b, lstep th a b → b < th.length) (hacyc : Acyclic th)
    {a v : Nat} (h : lReach th a v) (o : Container)
    (ho : ceq (getC th v) o = true) :
    is_descendant th (th.length + 1) (getC th a) o = true := by
  obtain ⟨L, hch, hlast⟩ := List.exists_chain_of_relationReflTransGen h
  apply is_descendant_complete_aux th o L a (th.length + 1) hch (by rw [hlast]; exact ho)
  have hnd := chain_nodup_of_acyclic hacyc hch
  have hlt := chain_targets_lt hclosed (fun _ _ hh => hh) hch
  have := nodup_lt_length_le (List.Nodup.of_cons hnd) hlt
  omega

theorem guard_no_reach (th : List Container)
    (hclosed : ∀ a b, lstep th a b → b < th.length) (hacyc : Acyclic th) {a b : Nat}
    (hg : is_descendant th (th.length + 1) (getC th a) (getC th b) = false) :
    ¬ lReach th a b := by
  intro hr
  rw [lReach_found th hclosed hacyc hr (getC th b) (ceq_refl _)] at hg
  cases hg

theorem rtg_no_out {r : Nat → Nat → Prop} {c : Nat} (hno : ∀ y, ¬ r c y) {x : Nat}
    (h : Relation.ReflTransGen r c x) : x = c := by
  rcases Relation.ReflTransGen.cases_head h with heq | ⟨y, hy, _⟩
  · exact heq.symm
  · exact absurd hy (hno y)

theorem rtg_target_lt {th : List Container}
    (hclosed : ∀ a b, lstep th a b → b < th.length) {x y : Nat}
    (h : lReach th x y) (hx : x < th.length) : y < th.length := by
  induction h with
  | refl => exact hx
  | tail _ hbz _ => exact hclosed _ _ hbz

/-! ### Transfer of graph notions along `same_links` -/

theorem same_links_refl (th : List Container) : same_links th th := ⟨fun _ => rfl, fun _ => rfl⟩

theorem same_links_trans {th1 th2 th3 : List Container} (h12 : same_links th1 th2)
    (h23 : same_links th2 th3) : same_links th1 th3 :=
  ⟨fun j => (h23.1 j).trans (h12.1 j), fun j => (h23.2 j).trans (h12.2 j)⟩

theorem same_links_setC (th : List Container) (i : Nat) (c : Container)
    (h1 : c.first_child = (getC th i).first_child)
    (h2 : c.next_sibling = (getC th i).next_sibling) :
    same_links th (setC th i c) :=
  ⟨eq_field_setC th i c Container.first_child h1,
   eq_field_setC th i c Container.next_sibling h2⟩

theorem fcE_same_links {th th' : List Container} (h : same_links th th') :
    ∀ a b, fcE th' a b ↔ fcE th a b := by
  intro a b
  unfold fcE
  rw [h.1 a]

theorem nsE_same_links {th th' : List Container} (h : same_links th th') :
    ∀ a b, nsE th' a b ↔ nsE th a b := by
  intro a b
  unfold nsE
  rw [h.2 a]

theorem lstep_same_links {th th' : List Container} (h : same_links th th') :
    ∀ a b, lstep th' a b ↔ lstep th a b := by
  intro a b
  unfold lstep
  rw [fcE_same_links h, nsE_same_links h]

theorem lReach_same_links {th th' : List Container} (h : same_links th th') :
    ∀ a b, lReach th' a b ↔ lReach th a b := by
  intro a b
  constructor
  · exact Relation.ReflTransGen.mono (fun x y hxy => (lstep_same_links h x y).mp hxy)
  · exact Relation.ReflTransGen.mono (fun x y hxy => (lstep_same_links h x y).mpr hxy)

theorem acyclic_same_links {th th' : List Container} (h : same_links th th')
    (hacyc : Acyclic th) : Acyclic th' := by
  intro i hi
  exact hacyc i (Relation.TransGen.mono (fun x y hxy => (lstep_same_links h x y).mp hxy) hi)

theorem uniqueIn_same_links {th th' : List Container} (h : same_links th th')
    (hu : UniqueIn th) : UniqueIn th' := by
  refine ⟨?_, ?_, ?_⟩
  · intro a a' b h1 h2
    exact hu.1 a a' b ((fcE_same_links h a b).mp h1) ((fcE_same_links h a' b).mp h2)
  · intro a a' b h1 h2
    exact hu.2.1 a a' b ((nsE_same_links h a b).mp h1) ((nsE_same_links h a' b).mp h2)
  · intro a a' b h1 h2
    exact hu.2.2 a a' b ((fcE_same_links h a b).mp h1) ((nsE_same_links h a' b).mp h2)

theorem child_mem_same_links {th th' : List Container} (h : same_links th th') :
    ∀ p c, child_mem th' p c ↔ child_mem th p c := by
  intro p c
  unfold child_mem
  constructor
  · rintro ⟨f, hf, hrt⟩
    exact ⟨f, (fcE_same_links h p f).mp hf,
      Relation.ReflTransGen.mono (fun x y hxy => (nsE_same_links h x y).mp hxy) hrt⟩
  · rintro ⟨f, hf, hrt⟩
    exact ⟨f, (fcE_same_links h p f).mpr hf,
      Relation.ReflTransGen.mono (fun x y hxy => (nsE_same_links h x y).mpr hxy) hrt⟩

/-! ### Edge-addition characterizations -/

theorem fcE_eq_field {th th' : List Container}
    (h : eq_field th th' Container.first_child) : ∀ a b, fcE th' a b ↔ fcE th a b := by
  intro a b
  unfold fcE
  rw [show (getC th' a).first_child = (getC th a).first_child from h a]

theorem nsE_eq_field {th th' : List Container}
    (h : eq_field th th' Container.next_sibling) : ∀ a b, nsE th' a b ↔ nsE th a b := by
  intro a b
  unfold nsE
  rw [show (getC th' a).next_sibling = (getC th a).next_sibling from h a]

theorem fcE_set_fc {th : List Container} {a c : Nat} (ha : a < th.length)
    (hfc : (getC th a).first_child = none) :
    ∀ x y, fcE (setC th a { getC th a with first_child := some c }) x y ↔
      (fcE th x y ∨ (x = a ∧ y = c)) := by
  intro x y
  unfold fcE
  by_cases hx : x = a
  · subst hx
    rw [getC_setC_self th x _ ha]
    constructor
    · intro h
      exact Or.inr ⟨rfl, (Option.some.inj h).symm⟩
    · rintro (h | ⟨-, h⟩)
      · rw [hfc] at h
        exact Option.noConfusion h
      · rw [h]
  · rw [getC_setC_ne th a x _ hx]
    constructor
    · exact Or.inl
    · rintro (h | ⟨hxa, -⟩)
      · exact h
      · exact absurd hxa hx

theorem nsE_set_ns {th : List Container} {a c : Nat} (ha : a < th.length)
    (hns : (getC th a).next_sibling = none) :
    ∀ x y, nsE (setC th a { getC th a with next_sibling := some c }) x y ↔
      (nsE th x y ∨ (x = a ∧ y = c)) := by
  intro x y
  unfold nsE
  by_cases hx : x = a
  · subst hx
    rw [getC_setC_self th x _ ha]
    constructor
    · intro h
      exact Or.inr ⟨rfl, (Option.some.inj h).symm⟩
    · rintro (h | ⟨-, h⟩)
      · rw [hns] at h
        exact Option.noConfusion h
      · rw [h]
  · rw [getC_setC_ne th a x _ hx]
    constructor
    · exact Or.inl
    · rintro (h | ⟨hxa, -⟩)
      · exact h
      · exact absurd hxa hx

theorem lstep_set_fc {th : List Container} {a c : Nat} (ha : a < th.length)
    (hfc : (getC th a).first_child = none) :
    ∀ x y, lstep (setC th a { getC th a with first_child := some c }) x y ↔
      (lstep th x y ∨ (x = a ∧ y = c)) := by
  intro x y
  unfold lstep
  rw [fcE_set_fc ha hfc,
    nsE_eq_field (eq_field_setC th a { getC th a with first_child := some c }
      Container.next_sibling rfl)]
  tauto

theorem lstep_set_ns {th : List Container} {a c : Nat} (ha : a < th.length)
    (hns : (getC th a).next_sibling = none) :
    ∀ x y, lstep (setC th a { getC th a with next_sibling := some c }) x y ↔
      (lstep th x y ∨ (x = a ∧ y = c)) := by
  intro x y
  unfold lstep
  rw [nsE_set_ns ha hns,
    fcE_eq_field (eq_field_setC th a { getC th a with next_sibling := some c }
      Container.first_child rfl)]
  tauto

theorem fcE_append {th : List Container} {nd : Container} :
    ∀ x y, fcE (th ++ [nd]) x y ↔
      (fcE th x y ∨ (x = th.length ∧ nd.first_child = some y)) := by
  intro x y
  unfold fcE
  rcases lt_trichotomy x th.length with hx | hx | hx
  · rw [getC_append_lt th [nd] x hx]
    constructor
    · exact Or.inl
    · rintro (h | ⟨hxl, -⟩)
      · exact h
      · omega
  · subst hx
    rw [getC_append_self]
    constructor
    · intro h
      exact Or.inr ⟨rfl, h⟩
    · rintro (h | ⟨-, h⟩)
      · rw [getC_oob th _ (le_refl _)] at h
        exact Option.noConfusion h
      · exact h
  · rw [getC_append_oob th nd x (by omega)]
    constructor
    · intro h
      exact Option.noConfusion h
    · rintro (h | ⟨hxl, -⟩)
      · rw [getC_oob th x (by omega)] at h
        exact Option.noConfusion h
      · omega

theorem nsE_append {th : List Container} {nd : Container} :
    ∀ x y, nsE (th ++ [nd]) x y ↔
      (nsE th x y ∨ (x = th.length ∧ nd.next_sibling = some y)) := by
  intro x y
  unfold nsE
  rcases lt_trichotomy x th.length with hx | hx | hx
  · rw [getC_append_lt th [nd] x hx]
    constructor
    · exact Or.inl
    · rintro (h | ⟨hxl, -⟩)
      · exact h
      · omega
  · subst hx
    rw [getC_append_self]
    constructor
    · intro h
      exact Or.inr ⟨rfl, h⟩
    · rintro (h | ⟨-, h⟩)
      · rw [getC_oob th _ (le_refl _)] at h
        exact Option.noConfusion h
      · exact h
  · rw [getC_append_oob th nd x (by omega)]
    constructor
    · intro h
      exact Option.noConfusion h
    · rintro (h | ⟨hxl, -⟩)
      · rw [getC_oob th x (by omega)] at h
        exact Option.noConfusion h
      · omega

theorem lstep_append_ph {th : List Container} {cr : Nat} {d : Nat} :
    ∀ x y, lstep (th ++ [ph_node th.length cr d]) x y ↔
      (lstep th x y ∨ (x = th.length ∧ y = cr)) := by
  intro x y
  unfold lstep
  rw [fcE_append, nsE_append]
  simp only [ph_node]
  constructor
  · rintro ((h | ⟨hx, hy⟩) | (h | ⟨hx, hy⟩))
    · exact Or.inl (Or.inl h)
    · exact Or.inr ⟨hx, (Option.some.inj hy).symm⟩
    · exact Or.inl (Or.inr h)
    · exact Option.noConfusion hy
  · rintro ((h | h) | ⟨hx, hy⟩)
    · exact Or.inl (Or.inl h)
    · exact Or.inr (Or.inl h)
    · exact Or.inl (Or.inr ⟨hx, by rw [hy]⟩)

theorem lstep_append_leaf {th : List Container} {nd : Container}
    (h1 : nd.first_child = none) (h2 : nd.next_sibling = none) :
    ∀ x y, lstep (th ++ [nd]) x y ↔ lstep th x y := by
  intro x y
  unfold lstep
  rw [fcE_append, nsE_append, h1, h2]
  constructor
  · rintro ((h | ⟨-, h⟩) | (h | ⟨-, h⟩))
    · exact Or.inl h
    · exact Option.noConfusion h
    · exact Or.inr h
    · exact Option.noConfusion h
  · rintro (h | h)
    · exact Or.inl (Or.inl h)
    · exact Or.inr (Or.inl h)

/-! ### Child-list membership lemmas -/

theorem child_mem_in_edge {th : List Container} {p c : Nat} (h : child_mem th p c) :
    ∃ a, lstep th a c := by
  obtain ⟨f, hf, hrt⟩ := h
  rcases Relation.reflTransGen_iff_eq_or_transGen.mp hrt with heq | htg
  · exact ⟨p, Or.inl (heq ▸ hf)⟩
  · obtain ⟨w, _, hw⟩ := Relation.TransGen.tail'_iff.mp htg
    exact ⟨w, Or.inr hw⟩

theorem chain_rtg_mem {r : Nat → Nat → Prop} {a : Nat} {L : List Nat}
    (hch : List.Chain r a L) {x : Nat} (hx : x ∈ a :: L) :
    Relation.ReflTransGen r a x := by
  rcases List.mem_cons.mp hx with heq | hx'
  · rw [heq]
  · exact (chain_mem_transGen hch hx').to_reflTransGen

theorem child_mem_transGen {th : List Container} {p c : Nat} (h : child_mem th p c) :
    Relation.TransGen (lstep th) p c := by
  obtain ⟨f, hf, hrt⟩ := h
  exact Relation.TransGen.head' (Or.inl hf)
    (Relation.ReflTransGen.mono (fun x y hxy => Or.inr hxy) hrt)

theorem child_mem_unique {th : List Container} (huniq : UniqueIn th) {p q c : Nat}
    (hp : child_mem th p c) (hq : child_mem th q c) : p = q := by
  obtain ⟨f, hf, hrtf⟩ := hp
  obtain ⟨g, hg, hrtg⟩ := hq
  rcases rtg_comparable (fun w w' z h1 h2 => huniq.2.1 w w' z h1 h2) hrtf hrtg with h | h
  · rcases Relation.reflTransGen_iff_eq_or_transGen.mp h with heq | htg
    · rw [heq] at hg
      exact huniq.1 p q f hf hg
    · obtain ⟨w, _, hw⟩ := Relation.TransGen.tail'_iff.mp htg
      exact (huniq.2.2 q w g hg hw).elim
  · rcases Relation.reflTransGen_iff_eq_or_transGen.mp h with heq | htg
    · rw [heq] at hf
      exact (huniq.1 p q g hf hg)
    · obtain ⟨w, _, hw⟩ := Relation.TransGen.tail'_iff.mp htg
      exact (huniq.2.2 p w f hf hw).elim

/-! ### Maximal sibling chains -/

theorem getLastD_mem_cons {L : List Nat} : ∀ {c0 : Nat}, L.getLastD c0 ∈ c0 :: L := by
  induction L with
  | nil =>
      intro c0
      simp
  | cons x L ih =>
      intro c0
      rw [List.getLastD_cons]
      rcases List.mem_cons.mp (@ih x) with h | h
      · rw [h]
        simp
      · exact List.mem_cons_of_mem c0 (List.mem_cons_of_mem x h)

theorem ns_chain_list_chain (th : List Container) :
    ∀ (fuel c0 : Nat), List.Chain (nsE th) c0 (ns_chain_list th fuel c0) := by
  intro fuel
  induction fuel with
  | zero =>
      intro c0
      exact List.Chain.nil
  | succ fuel ih =>
      intro c0
      unfold ns_chain_list
      rcases hns : (getC th c0).next_sibling with _ | n1
      · exact List.Chain.nil
      · exact List.Chain.cons hns (ih n1)

theorem ns_chain_list_last (th : List Container) :
    ∀ (fuel c0 : Nat),
      (getC th ((ns_chain_list th fuel c0).getLastD c0)).next_sibling = none ∨
      (ns_chain_list th fuel c0).length = fuel := by
  intro fuel
  induction fuel with
  | zero =>
      intro c0
      right
      rfl
  | succ fuel ih =>
      intro c0
      rcases hns : (getC th c0).next_sibling with _ | n1
      · have he : ns_chain_list th (fuel + 1) c0 = [] := by
          simp [ns_chain_list, hns]
        rw [he]
        left
        exact hns
      · have he : ns_chain_list th (fuel + 1) c0 = n1 :: ns_chain_list th fuel n1 := by
          simp [ns_chain_list, hns]
        rw [he]
        rcases ih n1 with h | h
        · left
          rw [List.getLastD_cons]
          exact h
        · right
          simp only [List.length_cons, h]

theorem exists_max_ns_chain (th : List Container)
    (hclosed : ∀ a b, lstep th a b → b < th.length) (hacyc : Acyclic th) (c0 : Nat) :
    ∃ L : List Nat, List.Chain (nsE th) c0 L ∧
      (getC th (L.getLastD c0)).next_sibling = none ∧
      (c0 :: L).Nodup ∧ (∀ x ∈ L, x < th.length) ∧ L.length ≤ th.length := by
  have hch := ns_chain_list_chain th (th.length + 1) c0
  have hchl : List.Chain (lstep th) c0 (ns_chain_list th (th.length + 1) c0) :=
    List.Chain.imp (fun a b hab => Or.inr hab) hch
  have hnd := chain_nodup_of_acyclic hacyc hchl
  have hlt := chain_targets_lt hclosed (fun a b hab => Or.inr hab) hch
  have hlen := nodup_lt_length_le (List.Nodup.of_cons hnd) hlt
  refine ⟨ns_chain_list th (th.length + 1) c0, hch, ?_, hnd, hlt, hlen⟩
  rcases ns_chain_list_last th (th.length + 1) c0 with h | h
  · exact h
  · omega

/-! ### Characterization of the child-append loop -/

theorem chain_append_char (p curr : Nat) :
    ∀ (L : List Nat) (th : List Container) (c0 fuel : Nat),
    List.Chain (nsE th) c0 L →
    (getC th (L.getLastD c0)).next_sibling = none →
    (c0 :: L).Nodup →
    (∀ x ∈ c0 :: L, x < th.length) →
    L.length < fuel →
    ∀ j, getC (chain_append fuel th p c0 curr) j =
      (if j = L.getLastD c0 then
        { getC th j with next_sibling := some curr, parent := some p }
      else if j ∈ c0 :: L then { getC th j with parent := some p }
      else getC th j) := by
  intro L
  induction L with
  | nil =>
      intro th c0 fuel hch hlast hnd hmem hfuel j
      rcases fuel with _ | fuel
      · omega
      · have hc0 : c0 < th.length := hmem c0 (by simp)
        unfold chain_append
        rw [show ([] : List Nat).getLastD c0 = c0 from rfl] at hlast ⊢
        rw [hlast]
        by_cases hj : j = c0
        · subst hj
          rw [if_pos rfl]
          rw [getC_setC_self _ j _ (by rw [setC_length]; exact hc0)]
          rw [getC_setC_self th j _ hc0]
        · rw [if_neg hj, if_neg (by simpa using hj)]
          rw [getC_setC_ne _ c0 j _ hj, getC_setC_ne th c0 j _ hj]
  | cons n1 L ih =>
      intro th c0 fuel hch hlast hnd hmem hfuel j
      rcases fuel with _ | fuel
      · omega
      · rcases List.chain_cons.mp hch with ⟨hc0n1, hchn1⟩
        have hc0 : c0 < th.length := hmem c0 (by simp)
        have hc0notin : c0 ∉ n1 :: L := (List.nodup_cons.mp hnd).1
        unfold chain_append
        rw [show (getC th c0).next_sibling = some n1 from hc0n1]
        have hsl : same_links th (setC th c0 { getC th c0 with parent := some p }) :=
          same_links_setC th c0 _ rfl rfl
        have hns_eq := nsE_same_links hsl
        have hch1 : List.Chain
            (nsE (setC th c0 { getC th c0 with parent := some p })) n1 L :=
          List.Chain.imp (fun a b hab => (hns_eq a b).mpr hab) hchn1
        have hfield : ∀ x, getC (setC th c0 { getC th c0 with parent := some p }) x =
            (if x = c0 then { getC th c0 with parent := some p } else getC th x) := by
          intro x
          by_cases hx : x = c0
          · subst hx
            rw [if_pos rfl, getC_setC_self th x _ hc0]
          · rw [if_neg hx, getC_setC_ne th c0 x _ hx]
        have hlast_mem : L.getLastD n1 ∈ n1 :: L := getLastD_mem_cons
        have hlast_ne_c0 : L.getLastD n1 ≠ c0 := by
          intro he
          rw [he] at hlast_mem
          exact hc0notin hlast_mem
        rw [List.getLastD_cons] at hlast
        have hlast1 : (getC (setC th c0 { getC th c0 with parent := some p })
            (L.getLastD n1)).next_sibling = none := by
          rw [hfield, if_neg hlast_ne_c0]
          exact hlast
        have hmem1 : ∀ x ∈ n1 :: L,
            x < (setC th c0 { getC th c0 with parent := some p }).length := by
          intro x hx
          rw [setC_length]
          exact hmem x (List.mem_cons_of_mem c0 hx)
        have hrec := ih (setC th c0 { getC th c0 with parent := some p }) n1 fuel hch1
          hlast1 (List.nodup_cons.mp hnd).2 hmem1
          (by simp only [List.length_cons] at hfuel; omega) j
        rw [hrec]
        rw [List.getLastD_cons]
        by_cases hjl : j = L.getLastD n1
        · rw [if_pos hjl, if_pos hjl]
          rw [hfield, if_neg (by rw [hjl]; exact hlast_ne_c0)]
        · rw [if_neg hjl, if_neg hjl]
          by_cases hjc0 : j = c0
          · subst hjc0
            rw [if_neg hc0notin, if_pos (by simp)]
            rw [hfield, if_pos rfl]
          · by_cases hjm : j ∈ n1 :: L
            · rw [if_pos hjm, if_pos (List.mem_cons_of_mem c0 hjm)]
              rw [hfield, if_neg hjc0]
            · rw [if_neg hjm, if_neg (by
                intro hm
                rcases List.mem_cons.mp hm with hm | hm
                · exact hjc0 hm
                · exact hjm hm)]
              rw [hfield, if_neg hjc0]

/-! ### Further helper lemmas for the pipeline invariant -/

theorem tableGet?_val_mem {t : List (String × Nat)} {k : String} {v : Nat}
    (h : tableGet? t k = some v) : ∃ kv ∈ t, kv.2 = v := by
  unfold tableGet? at h
  rcases hf : List.find? (fun e => e.1 == k) t with _ | e
  · rw [hf] at h
    cases h
  · rw [hf] at h
    exact ⟨e, List.mem_of_find?_eq_some hf, Option.some.inj h⟩

theorem transGen_reverse {r s : Nat → Nat → Prop} (h : ∀ a b, r a b → Relation.TransGen s b a) :
    ∀ {x y : Nat}, Relation.TransGen r x y → Relation.TransGen s y x := by
  intro x y htg
  induction htg with
  | single hxy => exact h _ _ hxy
  | tail hxb hbc ih => exact (h _ _ hbc).trans ih

theorem transGen_mono_trans {r s : Nat → Nat → Prop}
    (h : ∀ a b, r a b → Relation.TransGen s a b) :
    ∀ {x y : Nat}, Relation.TransGen r x y → Relation.TransGen s x y := by
  intro x y htg
  induction htg with
  | single hxy => exact h _ _ hxy
  | tail hxb hbc ih => exact ih.trans (h _ _ hbc)

theorem same_links_propagate (d fuel : Nat) (th : List Container) (p : Nat) :
    same_links th (propagate_date d fuel th p) :=
  ⟨propagate_date_field d Container.first_child (fun c x => rfl) fuel th p,
   propagate_date_field d Container.next_sibling (fun c x => rfl) fuel th p⟩

theorem same_links_of_skel {th th' : List Container} (h : same_skel th th') :
    same_links th th' := ⟨fun j => (h j).1, fun j => (h j).2.1⟩

theorem wfs_graph_transfer {th th' : List Container}
    (hsl : same_links th th')
    (hpar : eq_field th th' Container.parent)
    (hmsg : eq_field th th' Container.message)
    (hlen : th'.length = th.length)
    (hclosed : ∀ a b, lstep th a b → b < th.length)
    (huniq : UniqueIn th) (hacyc : Acyclic th)
    (hpmem : ∀ a b, pE th a b → child_mem th b a)
    (hbearing : ∀ a b, lstep th a b → (getC th b).message.isSome = true) :
    (∀ a b, lstep th' a b → b < th'.length) ∧ UniqueIn th' ∧ Acyclic th' ∧
    (∀ a b, pE th' a b → child_mem th' b a) ∧
    (∀ a b, lstep th' a b → (getC th' b).message.isSome = true) := by
  refine ⟨?_, uniqueIn_same_links hsl huniq, acyclic_same_links hsl hacyc, ?_, ?_⟩
  · intro a b hab
    rw [hlen]
    exact hclosed a b ((lstep_same_links hsl a b).mp hab)
  · intro a b hab
    have hold : pE th a b := by
      unfold pE at hab ⊢
      rw [← hpar a]
      exact hab
    exact (child_mem_same_links hsl b a).mpr (hpmem a b hold)
  · intro a b hab
    rw [show (getC th' b).message = (getC th b).message from hmsg b]
    exact hbearing a b ((lstep_same_links hsl a b).mp hab)

theorem placeholder_link_WFS {th thB : List Container} {cr : Nat} {d : Nat}
    (hB : thB = setC (th ++ [ph_node th.length cr d]) cr
      { getC (th ++ [ph_node th.length cr d]) cr with parent := some th.length })
    (hclosed : ∀ a b, lstep th a b → b < th.length)
    (huniq : UniqueIn th) (hacyc : Acyclic th)
    (hpmem : ∀ a b, pE th a b → child_mem th b a)
    (hbearing : ∀ a b, lstep th a b → (getC th b).message.isSome = true)
    (hids : ∀ i, i < th.length → (getC th i).id = i)
    (hcr : cr < th.length)
    (hbear_cr : (getC th cr).message.isSome = true)
    (hindeg : ∀ x, ¬ lstep th x cr) :
    thB.length = th.length + 1 ∧
    (∀ a b, lstep thB a b → b < thB.length) ∧
    UniqueIn thB ∧ Acyclic thB ∧
    (∀ a b, pE thB a b → child_mem thB b a) ∧
    (∀ a b, lstep thB a b → (getC thB b).message.isSome = true) ∧
    (∀ i, i < th.length + 1 → (getC thB i).id = i) ∧
    eq_field th thB Container.message := by
  subst hB
  set thA := th ++ [ph_node th.length cr d] with hthA
  set thB := setC thA cr { getC thA cr with parent := some th.length } with hthB
  have hlenA : thA.length = th.length + 1 := by
    rw [hthA]
    simp
  have hlenB : thB.length = th.length + 1 := by
    rw [hthB, setC_length, hlenA]
  have hslAB : same_links thA thB := by
    rw [hthB]
    exact same_links_setC thA cr _ rfl rfl
  have hstepA : ∀ x y, lstep thA x y ↔ (lstep th x y ∨ (x = th.length ∧ y = cr)) :=
    lstep_append_ph
  have hstepB : ∀ x y, lstep thB x y ↔ (lstep th x y ∨ (x = th.length ∧ y = cr)) :=
    fun x y => (lstep_same_links hslAB x y).trans (hstepA x y)
  have hfcB : ∀ x y, fcE thB x y ↔ (fcE th x y ∨ (x = th.length ∧ y = cr)) := by
    intro x y
    rw [fcE_same_links hslAB, fcE_append]
    constructor
    · rintro (h | ⟨hx, hy⟩)
      · exact Or.inl h
      · exact Or.inr ⟨hx, (Option.some.inj (show some cr = some y from hy)).symm⟩
    · rintro (h | ⟨hx, hy⟩)
      · exact Or.inl h
      · refine Or.inr ⟨hx, ?_⟩
        rw [hy]
        rfl
  have hnsB : ∀ x y, nsE thB x y ↔ nsE th x y := by
    intro x y
    rw [nsE_same_links hslAB, nsE_append]
    constructor
    · rintro (h | ⟨-, hy⟩)
      · exact h
      · exact Option.noConfusion (show (none : Option Nat) = some y from hy)
    · exact fun h => Or.inl h
  have hparB : ∀ x, (getC thB x).parent =
      (if x = cr then some th.length else (getC th x).parent) := by
    intro x
    by_cases hx : x = cr
    · rw [if_pos hx, hx, hthB, getC_setC_self thA cr _ (by rw [hlenA]; omega)]
    · rw [if_neg hx, hthB, getC_setC_ne thA cr x _ hx]
      rcases lt_trichotomy x th.length with h | h | h
      · rw [hthA, getC_append_lt th _ x h]
      · rw [h, hthA, getC_append_self th _, getC_oob th th.length (le_refl _)]
        rfl
      · rw [hthA, getC_append_oob th _ x (by omega), getC_oob th x (by omega)]
  have hmsgB : eq_field th thB Container.message := by
    rw [hthB]
    exact eq_field_trans (eq_field_append_one th (ph_node th.length cr d)
        Container.message rfl)
      (eq_field_setC thA cr { getC thA cr with parent := some th.length }
        Container.message rfl)
  have hidAB : eq_field thA thB Container.id := by
    rw [hthB]
    exact eq_field_setC thA cr _ Container.id rfl
  refine ⟨hlenB, ?_, ?_, ?_, ?_, ?_, ?_, hmsgB⟩
  · intro a b hab
    rw [hlenB]
    rcases (hstepB a b).mp hab with h | ⟨-, he⟩
    · exact Nat.lt_succ_of_lt (hclosed a b h)
    · rw [he]
      exact Nat.lt_succ_of_lt hcr
  · refine ⟨?_, ?_, ?_⟩
    · intro a a' b h1 h2
      rcases (hfcB a b).mp h1 with h1 | ⟨he1, he2⟩
      · rcases (hfcB a' b).mp h2 with h2 | ⟨he3, he4⟩
        · exact huniq.1 a a' b h1 h2
        · rw [he4] at h1
          exact absurd (Or.inl h1) (hindeg a)
      · rcases (hfcB a' b).mp h2 with h2 | ⟨he3, he4⟩
        · rw [he2] at h2
          exact absurd (Or.inl h2) (hindeg a')
        · rw [he1, he3]
    · intro a a' b h1 h2
      exact huniq.2.1 a a' b ((hnsB a b).mp h1) ((hnsB a' b).mp h2)
    · intro a a' b h1 h2
      rcases (hfcB a b).mp h1 with h1 | ⟨he1, he2⟩
      · exact huniq.2.2 a a' b h1 ((hnsB a' b).mp h2)
      · rw [he2] at h2
        exact absurd (Or.inr ((hnsB a' cr).mp h2)) (hindeg a')
  · refine acyclic_add_edge hstepB hacyc ?_
    intro h
    exact absurd (rtg_target_lt hclosed h hcr) (lt_irrefl _)
  · intro a b hab
    unfold pE at hab
    rw [hparB a] at hab
    by_cases hac : a = cr
    · rw [if_pos hac] at hab
      have hbp : b = th.length := (Option.some.inj hab).symm
      rw [hbp, hac]
      exact ⟨cr, (hfcB th.length cr).mpr (Or.inr ⟨rfl, rfl⟩), Relation.ReflTransGen.refl⟩
    · rw [if_neg hac] at hab
      obtain ⟨f, hf, hrt⟩ := hpmem a b hab
      refine ⟨f, (hfcB b f).mpr (Or.inl hf), ?_⟩
      exact Relation.ReflTransGen.mono (fun x y hxy => (hnsB x y).mpr hxy) hrt
  · intro a b hab
    rw [show (getC thB b).message = (getC th b).message from hmsgB b]
    rcases (hstepB a b).mp hab with h | ⟨-, he⟩
    · exact hbearing a b h
    · rw [he]
      exact hbear_cr
  · intro i hi
    rw [hidAB i]
    by_cases h : i < th.length
    · rw [hthA, getC_append_lt th _ i h]
      exact hids i h
    · have hieq : i = th.length := by omega
      rw [hieq, hthA, getC_append_self th _]
      rfl

/-! ### The link operation preserves the well-formedness invariants -/

theorem linked_WFS {th : List Container} {p curr : Nat}
    (hclosed : ∀ a b, lstep th a b → b < th.length)
    (huniq : UniqueIn th) (hacyc : Acyclic th)
    (hpmem : ∀ a b, a ≠ curr → pE th a b → child_mem th b a)
    (hbearing : ∀ a b, lstep th a b → (getC th b).message.isSome = true)
    (hcurr_lt : curr < th.length) (hp_lt : p < th.length)
    (hbear_curr : (getC th curr).message.isSome = true)
    (hindeg0 : ∀ x, ¬ lstep th x curr)
    (hg1 : ¬ lReach th p curr) (hg2 : ¬ lReach th curr p) :
    (link_child th p curr).length = th.length ∧
    (∀ a b, lstep (link_child th p curr) a b → b < th.length) ∧
    UniqueIn (link_child th p curr) ∧
    Acyclic (link_child th p curr) ∧
    (∀ a b, pE (link_child th p curr) a b → child_mem (link_child th p curr) b a) ∧
    (∀ a b, lstep (link_child th p curr) a b →
      (getC (link_child th p curr) b).message.isSome = true) ∧
    eq_field th (link_child th p curr) Container.message ∧
    eq_field th (link_child th p curr) Container.id := by
  have hpc : p ≠ curr := by
    intro he
    exact hg1 (he ▸ Relation.ReflTransGen.refl)
  set th1 := setC th curr { getC th curr with parent := some p } with hth1
  have hsl1 : same_links th th1 := by
    rw [hth1]
    exact same_links_setC th curr _ rfl rfl
  have hlen1 : th1.length = th.length := setC_length th curr _
  have hmsg1 : eq_field th th1 Container.message :=
    eq_field_setC th curr _ Container.message rfl
  have hid1 : eq_field th th1 Container.id := eq_field_setC th curr _ Container.id rfl
  have hparent1 : ∀ x, (getC th1 x).parent =
      (if x = curr then some p else (getC th x).parent) := by
    intro x
    by_cases hx : x = curr
    · rw [if_pos hx, hx, hth1, getC_setC_self th curr _ hcurr_lt]
    · rw [if_neg hx, hth1, getC_setC_ne th curr x _ hx]
  have hclosed1 : ∀ a b, lstep th1 a b → b < th.length := fun a b hab =>
    hclosed a b ((lstep_same_links hsl1 a b).mp hab)
  have huniq1 : UniqueIn th1 := uniqueIn_same_links hsl1 huniq
  have hacyc1 : Acyclic th1 := acyclic_same_links hsl1 hacyc
  have hindeg1 : ∀ x, ¬ lstep th1 x curr := fun x hx =>
    hindeg0 x ((lstep_same_links hsl1 x curr).mp hx)
  have hg1a : ¬ lReach th1 p curr := fun hx => hg1 ((lReach_same_links hsl1 p curr).mp hx)
  have hg2a : ¬ lReach th1 curr p := fun hx => hg2 ((lReach_same_links hsl1 curr p).mp hx)
  have hp_lt1 : p < th1.length := by
    rw [hlen1]
    exact hp_lt
  unfold link_child append_child
  rw [← hth1]
  split
  case h_1 heq =>
    have hfchar : ∀ x y, fcE (setC th1 p { getC th1 p with first_child := some curr }) x y ↔
        (fcE th1 x y ∨ (x = p ∧ y = curr)) := fcE_set_fc hp_lt1 heq
    have hnchar : ∀ x y, nsE (setC th1 p { getC th1 p with first_child := some curr }) x y ↔
        nsE th1 x y :=
      nsE_eq_field (eq_field_setC th1 p _ Container.next_sibling rfl)
    have hchar : ∀ x y, lstep (setC th1 p { getC th1 p with first_child := some curr }) x y ↔
        (lstep th1 x y ∨ (x = p ∧ y = curr)) := lstep_set_fc hp_lt1 heq
    have hpar2 : eq_field th1 (setC th1 p { getC th1 p with first_child := some curr })
        Container.parent := eq_field_setC th1 p _ Container.parent rfl
    have hmsg2 : eq_field th (setC th1 p { getC th1 p with first_child := some curr })
        Container.message :=
      eq_field_trans hmsg1 (eq_field_setC th1 p _ Container.message rfl)
    have hid2 : eq_field th (setC th1 p { getC th1 p with first_child := some curr })
        Container.id :=
      eq_field_trans hid1 (eq_field_setC th1 p _ Container.id rfl)
    refine ⟨?_, ?_, ?_, ?_, ?_, ?_, hmsg2, hid2⟩
    · rw [setC_length, hlen1]
    · intro a b hab
      rcases (hchar a b).mp hab with h | ⟨-, he⟩
      · exact hclosed1 a b h
      · rw [he]
        exact hcurr_lt
    · refine ⟨?_, ?_, ?_⟩
      · intro a a' b h1 h2
        rcases (hfchar a b).mp h1 with h1 | ⟨he1, he2⟩
        · rcases (hfchar a' b).mp h2 with h2 | ⟨he3, he4⟩
          · exact huniq1.1 a a' b h1 h2
          · rw [he4] at h1
            exact absurd (Or.inl h1) (hindeg1 a)
        · rcases (hfchar a' b).mp h2 with h2 | ⟨he3, he4⟩
          · rw [he2] at h2
            exact absurd (Or.inl h2) (hindeg1 a')
          · rw [he1, he3]
      · intro a a' b h1 h2
        exact huniq1.2.1 a a' b ((hnchar a b).mp h1) ((hnchar a' b).mp h2)
      · intro a a' b h1 h2
        rcases (hfchar a b).mp h1 with h1 | ⟨he1, he2⟩
        · exact huniq1.2.2 a a' b h1 ((hnchar a' b).mp h2)
        · rw [he2] at h2
          exact absurd (Or.inr ((hnchar a' curr).mp h2)) (hindeg1 a')
    · exact acyclic_add_edge hchar hacyc1 hg2a
    · intro a b hab
      unfold pE at hab
      rw [hpar2 a, hparent1 a] at hab
      by_cases hac : a = curr
      · rw [if_pos hac] at hab
        have hbp : b = p := (Option.some.inj hab).symm
        rw [hbp, hac]
        exact ⟨curr, (hfchar p curr).mpr (Or.inr ⟨rfl, rfl⟩), Relation.ReflTransGen.refl⟩
      · rw [if_neg hac] at hab
        obtain ⟨f, hf, hrt⟩ := hpmem a b hac hab
        refine ⟨f, (hfchar b f).mpr (Or.inl ((fcE_same_links hsl1 b f).mpr hf)), ?_⟩
        exact Relation.ReflTransGen.mono
          (fun x y hxy => (hnchar x y).mpr ((nsE_same_links hsl1 x y).mpr hxy)) hrt
    · intro a b hab
      rw [show (getC (setC th1 p { getC th1 p with first_child := some curr }) b).message =
          (getC th b).message from hmsg2 b]
      rcases (hchar a b).mp hab with h | ⟨-, he⟩
      · exact hbearing a b ((lstep_same_links hsl1 a b).mp h)
      · rw [he]
        exact hbear_curr
  case h_2 c0 heq =>
    have hfc_th : fcE th1 p c0 := heq
    obtain ⟨L, hch, hlast, hnd, hmemL, hlenL⟩ := exists_max_ns_chain th1
      (by
        intro a b hab
        rw [hlen1]
        exact hclosed1 a b hab) hacyc1 c0
    have hc0lt : c0 < th1.length := by
      rw [hlen1]
      exact hclosed1 p c0 (Or.inl hfc_th)
    have hmem : ∀ x ∈ c0 :: L, x < th1.length := by
      intro x hx
      rcases List.mem_cons.mp hx with h | h
      · rw [h]
        exact hc0lt
      · exact hmemL x h
    have hcf := chain_append_char p curr L th1 c0 (th1.length + 1) hch hlast hnd hmem
      (Nat.lt_succ_of_le hlenL)
    set last := L.getLastD c0 with hlastdef
    have hlast_mem : last ∈ c0 :: L := getLastD_mem_cons
    have hcurr_notin : curr ∉ c0 :: L := by
      intro hmemc
      rcases List.mem_cons.mp hmemc with hx | hx
      · have hfcc : fcE th1 p curr := by
          rw [hx]
          exact hfc_th
        exact hindeg1 p (Or.inl hfcc)
      · obtain ⟨w, hw1, hw2⟩ := Relation.TransGen.tail'_iff.mp (chain_mem_transGen hch hx)
        exact hindeg1 w (Or.inr hw2)
    have hp_last : lReach th1 p last :=
      Relation.ReflTransGen.head (Or.inl hfc_th)
        (Relation.ReflTransGen.mono (fun x y hxy => Or.inr hxy) (chain_rtg_mem hch hlast_mem))
    have hnreach_cl : ¬ lReach th1 curr last := by
      intro hcl
      rcases @rtg_comparable (lstep th1) (fun w w' z h1 h2 => uniqueIn_pred huniq1 h1 h2)
        curr last hcl p hp_last with h | h
      · exact hg2a h
      · exact hg1a h
    have hfc21 : eq_field th1 (chain_append (th1.length + 1) th1 p c0 curr)
        Container.first_child :=
      chain_append_field Container.first_child (fun c x => rfl) (fun c x => rfl)
        (th1.length + 1) th1 p c0 curr
    have hmsg2 : eq_field th (chain_append (th1.length + 1) th1 p c0 curr)
        Container.message :=
      eq_field_trans hmsg1 (chain_append_field Container.message (fun c x => rfl)
        (fun c x => rfl) (th1.length + 1) th1 p c0 curr)
    have hid2 : eq_field th (chain_append (th1.length + 1) th1 p c0 curr) Container.id :=
      eq_field_trans hid1 (chain_append_field Container.id (fun c x => rfl)
        (fun c x => rfl) (th1.length + 1) th1 p c0 curr)
    have hns2 : ∀ j, (getC (chain_append (th1.length + 1) th1 p c0 curr) j).next_sibling =
        (if j = last then some curr else (getC th1 j).next_sibling) := by
      intro j
      rw [hcf j]
      by_cases h1 : j = last
      · rw [if_pos h1, if_pos h1]
      · rw [if_neg h1, if_neg h1]
        by_cases h2 : j ∈ c0 :: L
        · rw [if_pos h2]
        · rw [if_neg h2]
    have hpar2 : ∀ j, (getC (chain_append (th1.length + 1) th1 p c0 curr) j).parent =
        (if j ∈ c0 :: L then some p else (getC th1 j).parent) := by
      intro j
      rw [hcf j]
      by_cases h1 : j = last
      · rw [if_pos h1, if_pos (by rw [h1]; exact hlast_mem)]
      · rw [if_neg h1]
        by_cases h2 : j ∈ c0 :: L
        · rw [if_pos h2, if_pos h2]
        · rw [if_neg h2, if_neg h2]
    have hfchar : ∀ x y, fcE (chain_append (th1.length + 1) th1 p c0 curr) x y ↔
        fcE th1 x y := fcE_eq_field hfc21
    have hnchar : ∀ x y, nsE (chain_append (th1.length + 1) th1 p c0 curr) x y ↔
        (nsE th1 x y ∨ (x = last ∧ y = curr)) := by
      intro x y
      unfold nsE
      rw [hns2 x]
      by_cases h1 : x = last
      · rw [if_pos h1]
        constructor
        · intro h
          exact Or.inr ⟨h1, (Option.some.inj h).symm⟩
        · intro h
          rcases h with h | ⟨-, he⟩
          · rw [h1, hlast] at h
            cases h
          · rw [he]
      · rw [if_neg h1]
        constructor
        · exact fun h => Or.inl h
        · intro h
          rcases h with h | ⟨he, -⟩
          · exact h
          · exact absurd he h1
    have hchar : ∀ x y, lstep (chain_append (th1.length + 1) th1 p c0 curr) x y ↔
        (lstep th1 x y ∨ (x = last ∧ y = curr)) := by
      intro x y
      unfold lstep
      rw [hfchar, hnchar]
      tauto
    refine ⟨?_, ?_, ?_, ?_, ?_, ?_, hmsg2, hid2⟩
    · rw [chain_append_len, hlen1]
    · intro a b hab
      rcases (hchar a b).mp hab with h | ⟨-, he⟩
      · exact hclosed1 a b h
      · rw [he]
        exact hcurr_lt
    · refine ⟨?_, ?_, ?_⟩
      · intro a a' b h1 h2
        exact huniq1.1 a a' b ((hfchar a b).mp h1) ((hfchar a' b).mp h2)
      · intro a a' b h1 h2
        rcases (hnchar a b).mp h1 with h1 | ⟨he1, he2⟩
        · rcases (hnchar a' b).mp h2 with h2 | ⟨he3, he4⟩
          · exact huniq1.2.1 a a' b h1 h2
          · rw [he4] at h1
            exact absurd (Or.inr h1) (hindeg1 a)
        · rcases (hnchar a' b).mp h2 with h2 | ⟨he3, he4⟩
          · rw [he2] at h2
            exact absurd (Or.inr h2) (hindeg1 a')
          · rw [he1, he3]
      · intro a a' b h1 h2
        rcases (hnchar a' b).mp h2 with h2 | ⟨he3, he4⟩
        · exact huniq1.2.2 a a' b ((hfchar a b).mp h1) h2
        · rw [he4] at h1
          exact absurd (Or.inl ((hfchar a curr).mp h1)) (hindeg1 a)
    · exact acyclic_add_edge hchar hacyc1 hnreach_cl
    · intro a b hab
      unfold pE at hab
      rw [hpar2 a] at hab
      by_cases hmem_a : a ∈ c0 :: L
      · rw [if_pos hmem_a] at hab
        have hbp : b = p := (Option.some.inj hab).symm
        rw [hbp]
        refine ⟨c0, (hfchar p c0).mpr hfc_th, ?_⟩
        exact Relation.ReflTransGen.mono (fun x y hxy => (hnchar x y).mpr (Or.inl hxy))
          (chain_rtg_mem hch hmem_a)
      · rw [if_neg hmem_a, hparent1 a] at hab
        by_cases hac : a = curr
        · rw [if_pos hac] at hab
          have hbp : b = p := (Option.some.inj hab).symm
          rw [hbp, hac]
          refine ⟨c0, (hfchar p c0).mpr hfc_th, ?_⟩
          refine Relation.ReflTransGen.tail ?_ ((hnchar last curr).mpr (Or.inr ⟨rfl, rfl⟩))
          exact Relation.ReflTransGen.mono (fun x y hxy => (hnchar x y).mpr (Or.inl hxy))
            (chain_rtg_mem hch hlast_mem)
        · rw [if_neg hac] at hab
          obtain ⟨f, hf, hrt⟩ := hpmem a b hac hab
          refine ⟨f, (hfchar b f).mpr ((fcE_same_links hsl1 b f).mpr hf), ?_⟩
          exact Relation.ReflTransGen.mono
            (fun x y hxy => (hnchar x y).mpr (Or.inl ((nsE_same_links hsl1 x y).mpr hxy))) hrt
    · intro a b hab
      rw [show (getC (chain_append (th1.length + 1) th1 p c0 curr) b).message =
          (getC th b).message from hmsg2 b]
      rcases (hchar a b).mp hab with h | ⟨-, he⟩
      · exact hbearing a b ((lstep_same_links hsl1 a b).mp h)
      · rw [he]
        exact hbear_curr

theorem propagate_graph_WFS {th : List Container} (d fuel p : Nat)
    (hclosed : ∀ a b, lstep th a b → b < th.length)
    (huniq : UniqueIn th) (hacyc : Acyclic th)
    (hpmem : ∀ a b, pE th a b → child_mem th b a)
    (hbearing : ∀ a b, lstep th a b → (getC th b).message.isSome = true) :
    (∀ a b, lstep (propagate_date d fuel th p) a b →
      b < (propagate_date d fuel th p).length) ∧
    UniqueIn (propagate_date d fuel th p) ∧
    Acyclic (propagate_date d fuel th p) ∧
    (∀ a b, pE (propagate_date d fuel th p) a b →
      child_mem (propagate_date d fuel th p) b a) ∧
    (∀ a b, lstep (propagate_date d fuel th p) a b →
      (getC (propagate_date d fuel th p) b).message.isSome = true) :=
  wfs_graph_transfer (same_links_propagate d fuel th p)
    (propagate_date_field d Container.parent (fun c x => rfl) fuel th p)
    (propagate_date_field d Container.message (fun c x => rfl) fuel th p)
    (propagate_date_len d fuel th p) hclosed huniq hacyc hpmem hbearing

theorem process_ref_WFS {st : TState} (d cr : Nat) (r : String)
    (hw : WFS st) (hcr : cr < st.threads.length)
    (hbear : (getC st.threads cr).message.isSome = true)
    (hindeg : ∀ x, ¬ lstep st.threads x cr) :
    WFS (process_ref st d cr r).1 := by
  obtain ⟨hclosed, huniq, hacyc, hpmem, hbearing, hids, hmsg_lt, htval⟩ := hw
  unfold process_ref
  rcases hr : tableGet? st.id_table r with _ | p
  · simp only [hr]
    have hparnone : (getC (st.threads ++ [ph_node st.threads.length cr d]) cr).parent
        = none := by
      rw [getC_append_lt st.threads _ cr hcr]
      rcases hp : (getC st.threads cr).parent with _ | q
      · rfl
      · exfalso
        obtain ⟨a, ha⟩ := child_mem_in_edge (hpmem cr q hp)
        exact hindeg a ha
    rw [if_pos (show (getC (st.threads ++ [ph_node st.threads.length cr d]) cr).parent.isNone
        = true by rw [hparnone]; rfl)]
    set thB := setC (st.threads ++ [ph_node st.threads.length cr d]) cr
      { getC (st.threads ++ [ph_node st.threads.length cr d]) cr with
        parent := some st.threads.length } with hthB
    obtain ⟨hlenB, hclosedB, huniqB, hacycB, hpmemB, hbearB, hidsB, hmsgB⟩ :=
      placeholder_link_WFS hthB hclosed huniq hacyc hpmem hbearing hids hcr hbear hindeg
    have hP := propagate_graph_WFS d (thB.length + 1) st.threads.length
      hclosedB huniqB hacycB hpmemB hbearB
    have hidP := propagate_date_field d Container.id (fun c x => rfl)
      (thB.length + 1) thB st.threads.length
    have hmsgP := propagate_date_field d Container.message (fun c x => rfl)
      (thB.length + 1) thB st.threads.length
    have hlenP := propagate_date_len d (thB.length + 1) thB st.threads.length
    refine ⟨hP.1, hP.2.1, hP.2.2.1, hP.2.2.2.1, hP.2.2.2.2, ?_, ?_, ?_⟩
    · intro i hi
      rw [hidP i]
      apply hidsB
      rw [hlenP, hlenB] at hi
      exact hi
    · intro i m hm
      rw [hmsgP i, hmsgB i] at hm
      exact hmsg_lt i m hm
    · intro kv hkv
      rw [hlenP, hlenB]
      simp only [tableInsert] at hkv
      rcases List.mem_append.mp hkv with h | h
      · exact Nat.lt_succ_of_lt (htval kv h)
      · rw [List.mem_singleton.mp h]
        exact Nat.lt_succ_self _
  · simp only [hr]
    have hp_lt : p < st.threads.length := by
      obtain ⟨kv, hkv, hv⟩ := tableGet?_val_mem hr
      rw [← hv]
      exact htval kv hkv
    split
    · rename_i hgd
      have hor : (is_descendant st.threads (st.threads.length + 1) (getC st.threads p)
          (getC st.threads cr) || is_descendant st.threads (st.threads.length + 1)
          (getC st.threads cr) (getC st.threads p)) = false := by
        rcases hb : (is_descendant st.threads (st.threads.length + 1) (getC st.threads p)
            (getC st.threads cr) || is_descendant st.threads (st.threads.length + 1)
            (getC st.threads cr) (getC st.threads p)) with _ | _
        · rfl
        · rw [hb] at hgd
          exact absurd hgd (by decide)
      have hfalse := Bool.or_eq_false_iff.mp hor
      have hg1 : ¬ lReach st.threads p cr :=
        guard_no_reach st.threads hclosed hacyc hfalse.1
      have hg2 : ¬ lReach st.threads cr p :=
        guard_no_reach st.threads hclosed hacyc hfalse.2
      obtain ⟨hlenL, hclosedL, huniqL, hacycL, hpmemL, hbearL, hmsgL, hidL⟩ :=
        linked_WFS hclosed huniq hacyc (fun a b _ hab => hpmem a b hab) hbearing hcr hp_lt
          hbear hindeg hg1 hg2
      have hclosedL' : ∀ a b, lstep (link_child st.threads p cr) a b →
          b < (link_child st.threads p cr).length := by
        intro a b hab
        rw [hlenL]
        exact hclosedL a b hab
      have hP := propagate_graph_WFS d ((link_child st.threads p cr).length + 1) p
        hclosedL' huniqL hacycL hpmemL hbearL
      have hidP := propagate_date_field d Container.id (fun c x => rfl)
        ((link_child st.threads p cr).length + 1) (link_child st.threads p cr) p
      have hmsgP := propagate_date_field d Container.message (fun c x => rfl)
        ((link_child st.threads p cr).length + 1) (link_child st.threads p cr) p
      have hlenP := propagate_date_len d ((link_child st.threads p cr).length + 1)
        (link_child st.threads p cr) p
      refine ⟨hP.1, hP.2.1, hP.2.2.1, hP.2.2.2.1, hP.2.2.2.2, ?_, ?_, ?_⟩
      · intro i hi
        rw [hidP i, hidL i]
        apply hids
        rw [hlenP, hlenL] at hi
        exact hi
      · intro i m hm
        rw [hmsgP i, hmsgL i] at hm
        exact hmsg_lt i m hm
      · intro kv hkv
        rw [hlenP, hlenL]
        exact htval kv hkv
    · have hP := propagate_graph_WFS d (st.threads.length + 1) p
        hclosed huniq hacyc hpmem hbearing
      have hidP := propagate_date_field d Container.id (fun c x => rfl)
        (st.threads.length + 1) st.threads p
      have hmsgP := propagate_date_field d Container.message (fun c x => rfl)
        (st.threads.length + 1) st.threads p
      have hlenP := propagate_date_len d (st.threads.length + 1) st.threads p
      refine ⟨hP.1, hP.2.1, hP.2.2.1, hP.2.2.2.1, hP.2.2.2.2, ?_, ?_, ?_⟩
      · intro i hi
        rw [hidP i]
        apply hids
        rw [hlenP] at hi
        exact hi
      · intro i m hm
        rw [hmsgP i] at hm
        exact hmsg_lt i m hm
      · intro kv hkv
        rw [hlenP]
        exact htval kv hkv

theorem refs_loop_WFS {st : TState} (d xi : Nat) (refs : List String)
    (hw : WFS st) (hxi : xi < st.threads.length)
    (hbear : (getC st.threads xi).message.isSome = true)
    (hindeg : ∀ x, ¬ lstep st.threads x xi) :
    WFS (refs_loop st d xi refs) := by
  rw [refs_loop_last]
  rcases refs.getLast? with _ | r
  · exact hw
  · exact process_ref_WFS d xi r hw hxi hbear hindeg

theorem wfs_init (c : List Envelope) :
    WFS { threads := [], id_table := [], collection := c } := by
  have hns : ∀ a b, ¬ lstep ([] : List Container) a b := by
    intro a b h
    have hd : getC ([] : List Container) a = default := getC_oob [] a (Nat.zero_le a)
    rcases h with h | h
    · unfold fcE at h
      rw [hd] at h
      exact Option.noConfusion (show (none : Option Nat) = some b from h)
    · unfold nsE at h
      rw [hd] at h
      exact Option.noConfusion (show (none : Option Nat) = some b from h)
  refine ⟨?_, ⟨?_, ?_, ?_⟩, ?_, ?_, ?_, ?_, ?_, ?_⟩
  · intro a b h
    exact absurd h (hns a b)
  · intro a a' b h1 h2
    exact absurd (Or.inl h1) (hns a b)
  · intro a a' b h1 h2
    exact absurd (Or.inr h1) (hns a b)
  · intro a a' b h1 h2
    exact absurd (Or.inl h1) (hns a b)
  · intro i hi
    cases hi with
    | single h => exact absurd h (hns i _)
    | tail h1 h2 => exact absurd h2 (hns _ i)
  · intro a b h
    unfold pE at h
    rw [getC_oob [] a (Nat.zero_le a)] at h
    exact Option.noConfusion (show (none : Option Nat) = some b from h)
  · intro a b h
    exact absurd h (hns a b)
  · intro i hi
    exact absurd hi (by simp)
  · intro i m hm
    rw [getC_oob [] i (Nat.zero_le i)] at hm
    exact Option.noConfusion (show (none : Option Nat) = some m from hm)
  · intro kv hkv
    cases hkv

theorem step_envelope_collection_length (st : TState) (i : Nat) :
    (step_envelope st i).collection.length = st.collection.length := by
  unfold step_envelope
  rcases ht : tableGet? st.id_table (getE st i).message_id with _ | t
  · simp only [ht]
    rw [refs_loop_collection]
    simp
  · simp only [ht]
    split
    · rfl
    · rw [refs_loop_collection]
      simp

theorem step_envelope_WFS {st : TState} (i : Nat) (hw : WFS st)
    (hi : i < st.collection.length) : WFS (step_envelope st i) := by
  obtain ⟨hclosed, huniq, hacyc, hpmem, hbearing, hids, hmsg_lt, htval⟩ := hw
  unfold step_envelope
  rcases ht : tableGet? st.id_table (getE st i).message_id with _ | t
  · simp only [ht]
    set nd : Container :=
      { id := st.threads.length, message := some i, parent := none,
        first_child := none, next_sibling := none, date := (getE st i).date,
        indentation := 0, show_subject := true } with hnd
    have hfcnd : nd.first_child = none := rfl
    have hnsnd : nd.next_sibling = none := rfl
    have hslD : same_links st.threads (st.threads ++ [nd]) :=
      ⟨eq_field_append_one st.threads nd Container.first_child rfl,
       eq_field_append_one st.threads nd Container.next_sibling rfl⟩
    have hparD : eq_field st.threads (st.threads ++ [nd]) Container.parent :=
      eq_field_append_one st.threads nd Container.parent rfl
    have hlenD : (st.threads ++ [nd]).length = st.threads.length + 1 := by
      simp
    have hstepD : ∀ a b, lstep (st.threads ++ [nd]) a b ↔ lstep st.threads a b :=
      lstep_append_leaf hfcnd hnsnd
    apply refs_loop_WFS
    · refine ⟨?_, uniqueIn_same_links hslD huniq, acyclic_same_links hslD hacyc,
        ?_, ?_, ?_, ?_, ?_⟩
      · intro a b hab
        rw [hlenD]
        exact Nat.lt_succ_of_lt (hclosed a b ((hstepD a b).mp hab))
      · intro a b hab
        have hold : pE st.threads a b := by
          unfold pE at hab ⊢
          rw [← hparD a]
          exact hab
        exact (child_mem_same_links hslD b a).mpr (hpmem a b hold)
      · intro a b hab
        have h := (hstepD a b).mp hab
        have hb := hclosed a b h
        rw [getC_append_lt st.threads _ b hb]
        exact hbearing a b h
      · intro j hj
        rw [hlenD] at hj
        by_cases hjl : j < st.threads.length
        · rw [getC_append_lt st.threads _ j hjl]
          exact hids j hjl
        · have hje : j = st.threads.length := by omega
          rw [hje, getC_append_self st.threads nd]
      · intro j m hm
        rw [List.length_set]
        by_cases hjl : j < st.threads.length
        · rw [getC_append_lt st.threads _ j hjl] at hm
          exact hmsg_lt j m hm
        · by_cases hje : j = st.threads.length
          · rw [hje, getC_append_self st.threads nd] at hm
            rw [← Option.some.inj (show some i = some m from hm)]
            exact hi
          · rw [getC_append_oob st.threads nd j (by omega)] at hm
            exact absurd hm (by
              intro hmm
              exact Option.noConfusion (show (none : Option Nat) = some m from hmm))
      · intro kv hkv
        rw [hlenD]
        simp only [tableInsert] at hkv
        rcases List.mem_append.mp hkv with h | h
        · exact Nat.lt_succ_of_lt (htval kv h)
        · rw [List.mem_singleton.mp h]
          exact Nat.lt_succ_self _
    · rw [hlenD]
      exact Nat.lt_succ_self _
    · rw [getC_append_self st.threads nd]
      rfl
    · intro x hx
      exact absurd (hclosed x st.threads.length ((hstepD x st.threads.length).mp hx))
        (lt_irrefl _)
  · simp only [ht]
    have ht_lt : t < st.threads.length := by
      obtain ⟨kv, hkv, hv⟩ := tableGet?_val_mem ht
      rw [← hv]
      exact htval kv hkv
    split
    · exact ⟨hclosed, huniq, hacyc, hpmem, hbearing, hids, hmsg_lt, htval⟩
    · rename_i hns
      have hmnone : (getC st.threads t).message = none := by
        rcases hmm : (getC st.threads t).message with _ | m
        · rfl
        · rw [hmm] at hns
          exact absurd rfl hns
      set cC : Container :=
        { getC st.threads t with date := (getE st i).date, message := some i } with hcC
      have hslC : same_links st.threads (setC st.threads t cC) :=
        same_links_setC st.threads t cC rfl rfl
      have hparC : eq_field st.threads (setC st.threads t cC) Container.parent :=
        eq_field_setC st.threads t cC Container.parent rfl
      have hidC : eq_field st.threads (setC st.threads t cC) Container.id :=
        eq_field_setC st.threads t cC Container.id rfl
      have hlenC : (setC st.threads t cC).length = st.threads.length :=
        setC_length st.threads t cC
      have hmsgC : ∀ j, (getC (setC st.threads t cC) j).message =
          (if j = t then some i else (getC st.threads j).message) := by
        intro j
        by_cases hj : j = t
        · rw [if_pos hj, hj, getC_setC_self st.threads t cC ht_lt]
        · rw [if_neg hj, getC_setC_ne st.threads t j cC hj]
      apply refs_loop_WFS
      · refine ⟨?_, uniqueIn_same_links hslC huniq, acyclic_same_links hslC hacyc,
          ?_, ?_, ?_, ?_, ?_⟩
        · intro a b hab
          rw [hlenC]
          exact hclosed a b ((lstep_same_links hslC a b).mp hab)
        · intro a b hab
          have hold : pE st.threads a b := by
            unfold pE at hab ⊢
            rw [← hparC a]
            exact hab
          exact (child_mem_same_links hslC b a).mpr (hpmem a b hold)
        · intro a b hab
          rw [show (getC (setC st.threads t cC) b).message.isSome =
              ((if b = t then some i else (getC st.threads b).message) : Option Nat).isSome
            from congrArg Option.isSome (hmsgC b)]
          by_cases hbt : b = t
          · rw [if_pos hbt]
            rfl
          · rw [if_neg hbt]
            exact hbearing a b ((lstep_same_links hslC a b).mp hab)
        · intro j hj
          rw [hidC j]
          apply hids
          rw [hlenC] at hj
          exact hj
        · intro j m hm
          rw [List.length_set]
          rw [hmsgC j] at hm
          by_cases hj : j = t
          · rw [if_pos hj] at hm
            rw [← Option.some.inj (show some i = some m from hm)]
            exact hi
          · rw [if_neg hj] at hm
            exact hmsg_lt j m hm
        · intro kv hkv
          rw [hlenC]
          exact htval kv hkv
      · rw [hlenC]
        exact ht_lt
      · rw [show (getC (setC st.threads t cC) t).message =
            ((if t = t then some i else (getC st.threads t).message) : Option Nat)
          from hmsgC t, if_pos rfl]
        rfl
      · intro x hx
        have h := hbearing x t ((lstep_same_links hslC x t).mp hx)
        rw [hmnone] at h
        exact absurd h (by decide)

theorem build_collection_WFS (st : TState) (hw : WFS st) : WFS (build_collection st) := by
  unfold build_collection
  have h := foldl_range_inv (fun k s => WFS s ∧ s.collection.length = st.collection.length)
    step_envelope st.collection.length st ⟨hw, rfl⟩ ?_
  · exact h.1
  · intro k b hk hb
    refine ⟨step_envelope_WFS k hb.1 ?_, ?_⟩
    · rw [hb.2]
      exact hk
    · rw [step_envelope_collection_length, hb.2]

theorem fresh_guard_false {th thB : List Container} {p midx : Nat}
    (hslAB : same_links th thB)
    (hclosed : ∀ a b, lstep th a b → b < th.length)
    (hids : ∀ i, i < th.length → (getC th i).id = i)
    (hmsg_lt : ∀ i m, (getC th i).message = some m → m < midx)
    (hgw : ∀ w, w < th.length → getC thB w = getC th w)
    (hmsgT : (getC thB th.length).message = some midx)
    (hidT : (getC thB th.length).id = th.length)
    (hp_lt : p < th.length) :
    (is_descendant thB (thB.length + 1) (getC thB p) (getC thB th.length) ||
     is_descendant thB (thB.length + 1) (getC thB th.length) (getC thB p)) = false := by
  rcases hb : (is_descendant thB (thB.length + 1) (getC thB p) (getC thB th.length) ||
      is_descendant thB (thB.length + 1) (getC thB th.length) (getC thB p)) with _ | _
  · rfl
  · exfalso
    rcases Bool.or_eq_true_iff.mp hb with h1 | h2
    · obtain ⟨w, hrw, hceq⟩ :=
        is_descendant_sound thB (getC thB th.length) (thB.length + 1) p h1
      have hrw2 : lReach th p w := (lReach_same_links hslAB p w).mp hrw
      have hw_lt : w < th.length := rtg_target_lt hclosed hrw2 hp_lt
      rw [hgw w hw_lt] at hceq
      unfold ceq at hceq
      rcases hmw : (getC th w).message with _ | m
      · simp only [hmw, hmsgT] at hceq
        rw [hids w hw_lt, hidT] at hceq
        simp only [beq_iff_eq] at hceq
        omega
      · simp only [hmw, hmsgT] at hceq
        have hm := hmsg_lt w m hmw
        simp only [beq_iff_eq] at hceq
        omega
    · obtain ⟨w, hrw, hceq⟩ :=
        is_descendant_sound thB (getC thB p) (thB.length + 1) th.length h2
      have hrw2 : lReach th th.length w := (lReach_same_links hslAB th.length w).mp hrw
      have hno : ∀ y, ¬ lstep th th.length y := by
        intro y hy
        exact absurd (lstep_src_lt hy) (lt_irrefl _)
      have hweq : w = th.length := rtg_no_out hno hrw2
      rw [hweq, hgw p hp_lt] at hceq
      unfold ceq at hceq
      rcases hmp : (getC th p).message with _ | m
      · simp only [hmsgT, hmp] at hceq
        rw [hidT, hids p hp_lt] at hceq
        simp only [beq_iff_eq] at hceq
        omega
      · simp only [hmsgT, hmp] at hceq
        have hm := hmsg_lt p m hmp
        simp only [beq_iff_eq] at hceq
        omega

theorem sent_step_WFS {st : TState} (x0 : Envelope) (hw : WFS st) :
    WFS (sent_step st x0) := by
  obtain ⟨hclosed, huniq, hacyc, hpmem, hbearing, hids, hmsg_lt, htval⟩ := hw
  unfold sent_step
  split
  · rcases hc : tableGet? st.id_table x0.message_id with _ | c
    · simp only [hc]
      split
      · rename_i hirt
        have hps : (tableGet? st.id_table x0.in_reply_to).isSome = true := by
          rcases Bool.and_eq_true_iff.mp hirt with ⟨-, h⟩
          exact h
        obtain ⟨p, hp⟩ := Option.isSome_iff_exists.mp hps
        simp only [hp, Option.getD_some]
        have hp_lt : p < st.threads.length := by
          obtain ⟨kv, hkv, hv⟩ := tableGet?_val_mem hp
          rw [← hv]
          exact htval kv hkv
        set nd : Container :=
          { id := st.threads.length, message := some st.collection.length, parent := some p,
            first_child := none, next_sibling := none, date := x0.date,
            indentation := 0, show_subject := true } with hnd
        set thA := st.threads ++ [nd] with hthA
        set thB := setC thA st.threads.length
          { getC thA st.threads.length with parent := some p } with hthB
        have hlenA : thA.length = st.threads.length + 1 := by
          rw [hthA]
          simp
        have hlenB : thB.length = st.threads.length + 1 := by
          rw [hthB, setC_length, hlenA]
        have hslA : same_links st.threads thA := by
          rw [hthA]
          exact ⟨eq_field_append_one st.threads nd Container.first_child rfl,
            eq_field_append_one st.threads nd Container.next_sibling rfl⟩
        have hslB : same_links thA thB := by
          rw [hthB]
          exact same_links_setC thA st.threads.length _ rfl rfl
        have hslAB : same_links st.threads thB := same_links_trans hslA hslB
        have hgw : ∀ w, w < st.threads.length → getC thB w = getC st.threads w := by
          intro w hwl
          rw [hthB, getC_setC_ne thA st.threads.length w _ (by omega), hthA,
            getC_append_lt st.threads _ w hwl]
        have hgA : getC thA st.threads.length = nd := by
          rw [hthA]
          exact getC_append_self st.threads nd
        have hmsgT : (getC thB st.threads.length).message = some st.collection.length := by
          rw [hthB, getC_setC_self thA st.threads.length _ (by rw [hlenA]; omega)]
          show (getC thA st.threads.length).message = some st.collection.length
          rw [hgA]
        have hidT : (getC thB st.threads.length).id = st.threads.length := by
          rw [hthB, getC_setC_self thA st.threads.length _ (by rw [hlenA]; omega)]
          show (getC thA st.threads.length).id = st.threads.length
          rw [hgA]
        have hno : ∀ y, ¬ lstep st.threads st.threads.length y := by
          intro y hy
          exact absurd (lstep_src_lt hy) (lt_irrefl _)
        have hguard : (is_descendant thB (thB.length + 1) (getC thB p)
            (getC thB st.threads.length) ||
            is_descendant thB (thB.length + 1) (getC thB st.threads.length)
            (getC thB p)) = false :=
          fresh_guard_false hslAB hclosed hids hmsg_lt hgw hmsgT hidT hp_lt
        split
        · rename_i hg
          exact absurd (hguard.symm.trans hg) (by decide)
        · rw [show append_child thB p st.threads.length =
              link_child thA p st.threads.length from rfl]
          have hclosedA : ∀ a b, lstep thA a b → b < thA.length := by
            intro a b hab
            rw [hlenA]
            exact Nat.lt_succ_of_lt (hclosed a b ((lstep_same_links hslA a b).mp hab))
          have hpmemA : ∀ a b, a ≠ st.threads.length → pE thA a b → child_mem thA b a := by
            intro a b hane hab
            unfold pE at hab
            rcases lt_trichotomy a st.threads.length with hal | hal | hal
            · rw [hthA, getC_append_lt st.threads _ a hal] at hab
              exact (child_mem_same_links hslA b a).mpr (hpmem a b hab)
            · exact absurd hal hane
            · rw [hthA, getC_append_oob st.threads nd a (by omega)] at hab
              exact Option.noConfusion (show (none : Option Nat) = some b from hab)
          have hbearingA : ∀ a b, lstep thA a b → (getC thA b).message.isSome = true := by
            intro a b hab
            have h := (lstep_same_links hslA a b).mp hab
            have hb := hclosed a b h
            rw [hthA, getC_append_lt st.threads _ b hb]
            exact hbearing a b h
          have hindegA : ∀ x, ¬ lstep thA x st.threads.length := by
            intro x hx
            exact absurd (hclosed x st.threads.length
              ((lstep_same_links hslA x st.threads.length).mp hx)) (lt_irrefl _)
          have hg1 : ¬ lReach thA p st.threads.length := by
            intro h
            exact absurd (rtg_target_lt hclosed ((lReach_same_links hslA _ _).mp h) hp_lt)
              (lt_irrefl _)
          have hg2 : ¬ lReach thA st.threads.length p := by
            intro h
            have := rtg_no_out hno ((lReach_same_links hslA _ _).mp h)
            omega
          obtain ⟨hlenL, hclosedL, huniqL, hacycL, hpmemL, hbearL, hmsgL, hidL⟩ :=
            linked_WFS hclosedA (uniqueIn_same_links hslA huniq)
              (acyclic_same_links hslA hacyc) hpmemA hbearingA
              (by rw [hlenA]; omega) (by rw [hlenA]; omega)
              (by rw [hgA]; rfl) hindegA hg1 hg2
          have hclosedL' : ∀ a b, lstep (link_child thA p st.threads.length) a b →
              b < (link_child thA p st.threads.length).length := by
            intro a b hab
            rw [hlenL]
            exact hclosedL a b hab
          have hP := propagate_graph_WFS x0.date
            ((link_child thA p st.threads.length).length + 1) p
            hclosedL' huniqL hacycL hpmemL hbearL
          have hidP := propagate_date_field x0.date Container.id (fun c x => rfl)
            ((link_child thA p st.threads.length).length + 1)
            (link_child thA p st.threads.length) p
          have hmsgP := propagate_date_field x0.date Container.message (fun c x => rfl)
            ((link_child thA p st.threads.length).length + 1)
            (link_child thA p st.threads.length) p
          have hlenP := propagate_date_len x0.date
            ((link_child thA p st.threads.length).length + 1)
            (link_child thA p st.threads.length) p
          refine ⟨hP.1, hP.2.1, hP.2.2.1, hP.2.2.2.1, hP.2.2.2.2, ?_, ?_, ?_⟩
          · intro j hj
            rw [hidP j, hidL j]
            rw [hlenP, hlenL, hlenA] at hj
            rcases lt_trichotomy j st.threads.length with hjl | hjl | hjl
            · rw [hthA, getC_append_lt st.threads _ j hjl]
              exact hids j hjl
            · rw [hjl, hgA]
            · omega
          · intro j m hm
            rw [hmsgP j, hmsgL j] at hm
            rw [List.length_append]
            rcases lt_trichotomy j st.threads.length with hjl | hjl | hjl
            · rw [hthA, getC_append_lt st.threads _ j hjl] at hm
              have := hmsg_lt j m hm
              simp only [List.length_singleton]
              omega
            · rw [hjl, hgA] at hm
              have : st.collection.length = m :=
                Option.some.inj (show some st.collection.length = some m from hm)
              simp only [List.length_singleton]
              omega
            · rw [hthA, getC_append_oob st.threads nd j (by omega)] at hm
              exact absurd hm (by
                intro hmm
                exact Option.noConfusion (show (none : Option Nat) = some m from hmm))
          · intro kv hkv
            rw [hlenP, hlenL, hlenA]
            simp only [tableInsert] at hkv
            rcases List.mem_append.mp hkv with h | h
            · exact Nat.lt_succ_of_lt (htval kv h)
            · rw [List.mem_singleton.mp h]
              exact Nat.lt_succ_self _
      · refine ⟨hclosed, huniq, hacyc, hpmem, hbearing, hids, ?_, htval⟩
        intro j m hm
        have := hmsg_lt j m hm
        rw [List.length_append]
        simp only [List.length_singleton]
        omega
    · simp only [hc]
      have hc_lt : c < st.threads.length := by
        obtain ⟨kv, hkv, hv⟩ := tableGet?_val_mem hc
        rw [← hv]
        exact htval kv hkv
      split
      · exact ⟨hclosed, huniq, hacyc, hpmem, hbearing, hids, hmsg_lt, htval⟩
      · rename_i hns
        set cC : Container :=
          { getC st.threads c with
              message := some st.collection.length, date := x0.date } with hcC
        have hslC : same_links st.threads (setC st.threads c cC) :=
          same_links_setC st.threads c cC rfl rfl
        have hparC : eq_field st.threads (setC st.threads c cC) Container.parent :=
          eq_field_setC st.threads c cC Container.parent rfl
        have hidC : eq_field st.threads (setC st.threads c cC) Container.id :=
          eq_field_setC st.threads c cC Container.id rfl
        have hlenC : (setC st.threads c cC).length = st.threads.length :=
          setC_length st.threads c cC
        have hmsgC : ∀ j, (getC (setC st.threads c cC) j).message =
            (if j = c then some st.collection.length else (getC st.threads j).message) := by
          intro j
          by_cases hj : j = c
          · rw [if_pos hj, hj, getC_setC_self st.threads c cC hc_lt]
          · rw [if_neg hj, getC_setC_ne st.threads c j cC hj]
        refine ⟨?_, uniqueIn_same_links hslC huniq, acyclic_same_links hslC hacyc,
          ?_, ?_, ?_, ?_, ?_⟩
        · intro a b hab
          rw [hlenC]
          exact hclosed a b ((lstep_same_links hslC a b).mp hab)
        · intro a b hab
          have hold : pE st.threads a b := by
            unfold pE at hab ⊢
            rw [← hparC a]
            exact hab
          exact (child_mem_same_links hslC b a).mpr (hpmem a b hold)
        · intro a b hab
          rw [show (getC (setC st.threads c cC) b).message.isSome =
              ((if b = c then some st.collection.length
                else (getC st.threads b).message) : Option Nat).isSome
            from congrArg Option.isSome (hmsgC b)]
          by_cases hbc : b = c
          · rw [if_pos hbc]
            rfl
          · rw [if_neg hbc]
            exact hbearing a b ((lstep_same_links hslC a b).mp hab)
        · intro j hj
          rw [hidC j]
          apply hids
          rw [hlenC] at hj
          exact hj
        · intro j m hm
          rw [hmsgC j] at hm
          rw [List.length_append]
          simp only [List.length_singleton]
          by_cases hj : j = c
          · rw [if_pos hj] at hm
            have : st.collection.length = m :=
              Option.some.inj (show some st.collection.length = some m from hm)
            omega
          · rw [if_neg hj] at hm
            have := hmsg_lt j m hm
            omega
        · intro kv hkv
          rw [hlenC]
          exact htval kv hkv
  · exact ⟨hclosed, huniq, hacyc, hpmem, hbearing, hids, hmsg_lt, htval⟩

theorem sent_merge_WFS (st : TState) (sf : Option (List Envelope)) (hw : WFS st) :
    WFS (sent_merge st sf) := by
  rcases sf with _ | sent
  · exact hw
  · show WFS (sent.foldl sent_step st)
    induction sent generalizing st with
    | nil => exact hw
    | cons x sent ih =>
        rw [List.foldl_cons]
        exact ih (sent_step st x) (sent_step_WFS x hw)

/-! ### Parent-field weakening through the flatten walk -/

theorem par_wk_refl (th : List Container) : par_wk th th := fun _ => Or.inl rfl

theorem par_wk_trans {th1 th2 th3 : List Container} (h12 : par_wk th1 th2)
    (h23 : par_wk th2 th3) : par_wk th1 th3 := by
  intro j
  rcases h23 j with h | h
  · rcases h12 j with h2 | h2
    · exact Or.inl (h.trans h2)
    · exact Or.inr (h.trans h2)
  · exact Or.inr h

theorem par_wk_setC_same (th : List Container) (i : Nat) (c : Container)
    (h : c.parent = (getC th i).parent) : par_wk th (setC th i c) := by
  intro j
  by_cases hj : j = i
  · subst hj
    by_cases hl : j < th.length
    · rw [getC_setC_self th j c hl]
      exact Or.inl h
    · rw [setC_oob th j c (le_of_not_lt hl)]
      exact Or.inl rfl
  · rw [getC_setC_ne th i j c hj]
    exact Or.inl rfl

theorem subject_step_parent (c : List Envelope) (th : List Container) (ind i rsi : Nat) :
    par_wk th (subject_step c th ind i rsi) := by
  unfold subject_step
  by_cases h1 : (getC th rsi).message.isSome = true
  · rw [if_pos h1]
    by_cases h2 : (decide (ind > 0) && (getC th i).message.isSome) = true
    · rw [if_pos h2]
      by_cases h3 : subj_cmp c th i rsi = true
      · rw [if_pos h3]
        exact par_wk_setC_same th i _ rfl
      · rw [if_neg h3]
        exact par_wk_refl th
    · rw [if_neg h2]
      exact par_wk_refl th
  · rw [if_neg h1]
    exact par_wk_refl th

theorem parent_step_parent (th : List Container) (snap : Container) (i : Nat) :
    par_wk th (parent_step th snap i) := by
  unfold parent_step
  split
  · intro j
    by_cases hj : j = i
    · subst hj
      by_cases hl : j < th.length
      · rw [getC_setC_self th j _ hl]
        exact Or.inr rfl
      · rw [setC_oob th j _ (le_of_not_lt hl)]
        exact Or.inl rfl
    · rw [getC_setC_ne th i j _ hj]
      exact Or.inl rfl
  · exact par_wk_refl th

theorem indent_step_parent (th : List Container) (td : List Nat) (snap : Container)
    (ind i : Nat) : par_wk th (indent_step th td snap ind i).1 := by
  unfold indent_step
  by_cases hm : snap.message.isSome = true
  · rw [if_pos hm]
    exact par_wk_setC_same th i _ rfl
  · rw [if_neg hm]
    by_cases hi : ind > 0
    · rw [if_pos hi]
      exact par_wk_refl th
    · rw [if_neg hi]
      exact par_wk_refl th

theorem flat_go_parent (c : List Envelope) : ∀ (fuel : Nat) (sibs : Bool)
    (th : List Container) (td : List Nat) (ind i rsi : Nat),
    par_wk th (flat_go c fuel sibs th td ind i rsi).1 := by
  intro fuel
  induction fuel with
  | zero =>
      intro sibs th td ind i rsi
      exact par_wk_refl th
  | succ fuel ih =>
      intro sibs th td ind i rsi
      cases sibs
      · rcases hfc : (getC th i).first_child with _ | fc
        · simp only [flat_go, hfc]
          exact par_wk_trans
            (par_wk_trans (subject_step_parent c th ind i rsi)
              (parent_step_parent _ (getC th i) i))
            (indent_step_parent _ td (getC th i) ind i)
        · simp only [flat_go, hfc]
          exact par_wk_trans
            (par_wk_trans (par_wk_trans (subject_step_parent c th ind i rsi)
              (parent_step_parent _ (getC th i) i))
              (indent_step_parent _ td (getC th i) ind i))
            (ih true _ _ _ fc i)
      · simp only [flat_go]
        rcases hns : (getC (flat_go c fuel false th td ind i rsi).1 i).next_sibling
          with _ | ns
        · simp only [hns]
          exact ih false th td ind i rsi
        · simp only [hns]
          exact par_wk_trans (ih false th td ind i rsi) (ih true _ _ _ ns rsi)

theorem flatten_parent (c : List Envelope) (th : List Container) (rs : List Nat) :
    par_wk th (flatten c th rs).1 := by
  unfold flatten
  have key : ∀ (l : List Nat) (acc : List Container × List Nat), par_wk th acc.1 →
      par_wk th (l.foldl
        (fun (acc : List Container × List Nat) i =>
          build_threaded c (2 * acc.1.length + 2) acc.1 acc.2 0 i i) acc).1 := by
    intro l
    induction l with
    | nil =>
        intro acc h
        exact h
    | cons r l ih =>
        intro acc h
        rw [List.foldl_cons]
        exact ih _ (par_wk_trans h (flat_go_parent c (2 * acc.1.length + 2) false
          acc.1 acc.2 0 r r))
  exact key rs (th, []) (par_wk_refl th)

/-- C2: after every run of `build_threads`, with or without a sent-folder
merge, the returned arena is a forest: no container is reachable from itself
through `first_child`/`next_sibling` link hops, parent-to-child hops
(child-list membership) admit no cycle, child-to-parent hops (the `parent`
fields) admit no cycle, and no container index lies in the child lists of
two different parents. -/
theorem claim_C2_forest (collection : List Envelope)
    (sent_folder : Option (List Envelope)) :
    Acyclic (build_threads collection sent_folder).1 ∧
    (∀ i, ¬ Relation.TransGen (child_mem (build_threads collection sent_folder).1) i i) ∧
    (∀ i, ¬ Relation.TransGen (pE (build_threads collection sent_folder).1) i i) ∧
    (∀ p p' c, child_mem (build_threads collection sent_folder).1 p c →
      child_mem (build_threads collection sent_folder).1 p' c → p = p') := by
  have hw2 : WFS (sent_merge (build_collection
      { threads := [], id_table := [], collection := collection }) sent_folder) :=
    sent_merge_WFS _ sent_folder
      (build_collection_WFS _ (wfs_init collection))
  set st2 := sent_merge (build_collection
    { threads := [], id_table := [], collection := collection }) sent_folder with hst2
  have hbt : (build_threads collection sent_folder).1 =
      (flatten st2.collection st2.threads
        (sort_desc (fun a => (getC st2.threads a).date) (root_set_of st2))).1 := rfl
  obtain ⟨hclosed, huniq, hacyc, hpmem, hbearing, -, -, -⟩ := hw2
  have hskel := (flatten_out st2.collection st2.threads
    (sort_desc (fun a => (getC st2.threads a).date) (root_set_of st2))).1
  have hsl : same_links st2.threads
      (flatten st2.collection st2.threads
        (sort_desc (fun a => (getC st2.threads a).date) (root_set_of st2))).1 :=
    same_links_of_skel hskel
  have hpar : par_wk st2.threads
      (flatten st2.collection st2.threads
        (sort_desc (fun a => (getC st2.threads a).date) (root_set_of st2))).1 :=
    flatten_parent st2.collection st2.threads
      (sort_desc (fun a => (getC st2.threads a).date) (root_set_of st2))
  rw [hbt]
  refine ⟨acyclic_same_links hsl hacyc, ?_, ?_, ?_⟩
  · intro i hi
    refine hacyc i (transGen_mono_trans ?_ hi)
    intro a b hab
    exact child_mem_transGen ((child_mem_same_links hsl a b).mp hab)
  · intro i hi
    refine hacyc i (transGen_reverse ?_ hi)
    intro a b hab
    have hpe : pE st2.threads a b := by
      unfold pE at hab ⊢
      rcases hpar a with h | h
      · rw [← h]
        exact hab
      · rw [h] at hab
        exact Option.noConfusion hab
    exact child_mem_transGen (hpmem a b hpe)
  · intro p p' cc hp hp'
    exact child_mem_unique huniq ((child_mem_same_links hsl p cc).mp hp)
      ((child_mem_same_links hsl p' cc).mp hp')

/-! ### The flatten walk's subject reference (C3) -/

theorem parent_step_show (th : List Container) (snap : Container) (i : Nat) :
    eq_field th (parent_step th snap i) Container.show_subject := by
  unfold parent_step
  split
  · exact eq_field_setC th i _ Container.show_subject rfl
  · exact eq_field_refl _ _

theorem indent_step_show (th : List Container) (td : List Nat) (snap : Container)
    (ind i : Nat) :
    eq_field th (indent_step th td snap ind i).1 Container.show_subject := by
  unfold indent_step
  by_cases hm : snap.message.isSome = true
  · rw [if_pos hm]
    exact eq_field_setC th i _ Container.show_subject rfl
  · rw [if_neg hm]
    by_cases hi : ind > 0
    · rw [if_pos hi]
      exact eq_field_refl _ _
    · rw [if_neg hi]
      exact eq_field_refl _ _

/-- C3 (amended): in the flatten walk, the subject reference passed to a
node's children is the node itself — children are compared against their
immediate parent's subject, not the thread root's (line 403) — and a node
processed with subject reference `rsi` has `show_subject` cleared exactly
when `rsi`'s container bears a message, the node is message-bearing at
positive indentation, and its subject equals `rsi`'s subject or matches
`"Re: " ++` that subject. -/
theorem claim_C3_parent_subject (c : List Envelope) (fuel : Nat) (th : List Container)
    (td : List Nat) (ind i rsi fc : Nat)
    (hi : i < th.length)
    (hfc : (getC th i).first_child = some fc) :
    flat_go c (fuel+1) false th td ind i rsi =
      flat_go c fuel true
        (indent_step (parent_step (subject_step c th ind i rsi) (getC th i) i) td
          (getC th i) ind i).1
        (indent_step (parent_step (subject_step c th ind i rsi) (getC th i) i) td
          (getC th i) ind i).2.1
        (indent_step (parent_step (subject_step c th ind i rsi) (getC th i) i) td
          (getC th i) ind i).2.2 fc i ∧
    (getC (indent_step (parent_step (subject_step c th ind i rsi) (getC th i) i) td
        (getC th i) ind i).1 i).show_subject =
      (if (getC th rsi).message.isSome = true ∧ 0 < ind ∧
          (getC th i).message.isSome = true ∧ subj_cmp c th i rsi = true
        then false else (getC th i).show_subject) := by
  constructor
  · simp only [flat_go, hfc]
  · rw [show (getC (indent_step (parent_step (subject_step c th ind i rsi) (getC th i) i)
        td (getC th i) ind i).1 i).show_subject =
        (getC (parent_step (subject_step c th ind i rsi) (getC th i) i) i).show_subject
      from indent_step_show _ td (getC th i) ind i i]
    rw [show (getC (parent_step (subject_step c th ind i rsi) (getC th i) i) i).show_subject
        = (getC (subject_step c th ind i rsi) i).show_subject
      from parent_step_show _ (getC th i) i i]
    unfold subject_step
    by_cases h1 : (getC th rsi).message.isSome = true
    · rw [if_pos h1]
      by_cases h2 : (decide (ind > 0) && (getC th i).message.isSome) = true
      · rw [if_pos h2]
        have h2p := Bool.and_eq_true_iff.mp h2
        have hind : 0 < ind := of_decide_eq_true h2p.1
        by_cases h3 : subj_cmp c th i rsi = true
        · rw [if_pos h3, if_pos (show (getC th rsi).message.isSome = true ∧ 0 < ind ∧
              (getC th i).message.isSome = true ∧ subj_cmp c th i rsi = true
            from ⟨h1, hind, h2p.2, h3⟩)]
          rw [getC_setC_self th i { getC th i with show_subject := false } hi]
        · rw [if_neg h3, if_neg (show ¬((getC th rsi).message.isSome = true ∧ 0 < ind ∧
              (getC th i).message.isSome = true ∧ subj_cmp c th i rsi = true)
            from fun hcon => h3 hcon.2.2.2)]
      · rw [if_neg h2, if_neg (show ¬((getC th rsi).message.isSome = true ∧ 0 < ind ∧
            (getC th i).message.isSome = true ∧ subj_cmp c th i rsi = true)
          from fun hcon => h2 (by
            rw [Bool.and_eq_true_iff]
            exact ⟨decide_eq_true hcon.2.1, hcon.2.2.1⟩))]
    · rw [if_neg h1, if_neg (show ¬((getC th rsi).message.isSome = true ∧ 0 < ind ∧
          (getC th i).message.isSome = true ∧ subj_cmp c th i rsi = true)
        from fun hcon => h1 hcon.1)]

theorem claim_C3_parent_subject_witness :
    (0 : Nat) < c3w_th.length ∧ (getC c3w_th 0).first_child = some 1 ∧
    (flat_go c3_input (3+1) false c3w_th [] 1 0 0 =
      flat_go c3_input 3 true
        (indent_step (parent_step (subject_step c3_input c3w_th 1 0 0) (getC c3w_th 0) 0)
          [] (getC c3w_th 0) 1 0).1
        (indent_step (parent_step (subject_step c3_input c3w_th 1 0 0) (getC c3w_th 0) 0)
          [] (getC c3w_th 0) 1 0).2.1
        (indent_step (parent_step (subject_step c3_input c3w_th 1 0 0) (getC c3w_th 0) 0)
          [] (getC c3w_th 0) 1 0).2.2 1 0 ∧
    (getC (indent_step (parent_step (subject_step c3_input c3w_th 1 0 0) (getC c3w_th 0) 0)
        [] (getC c3w_th 0) 1 0).1 0).show_subject =
      (if (getC c3w_th 0).message.isSome = true ∧ 0 < 1 ∧
          (getC c3w_th 0).message.isSome = true ∧ subj_cmp c3_input c3w_th 0 0 = true
        then false else (getC c3w_th 0).show_subject)) :=
  ⟨by decide, by decide,
    claim_C3_parent_subject c3_input 3 c3w_th [] 1 0 0 1 (by decide) (by decide)⟩

/-- C5 (amended): a placeholder node with a child list recurses into it
without subject processing and without emitting anything, passing its own
indentation through when that indentation is positive; but a placeholder
visited at indentation 0 passes indentation 1 to its children (the
`else { indentation + 1 }` arm of lines 395-399), so a root placeholder
does consume an indentation level. -/
theorem claim_C5_placeholder_indent (c : List Envelope) (fuel : Nat)
    (th : List Container) (td : List Nat) (ind i rsi fc : Nat)
    (hph : (getC th i).message.isSome = false)
    (hfc : (getC th i).first_child = some fc) :
    flat_go c (fuel+1) false th td ind i rsi =
      flat_go c fuel true (parent_step th (getC th i) i) td
        (if ind > 0 then ind else ind + 1) fc i := by
  have hsub : subject_step c th ind i rsi = th := by
    unfold subject_step
    by_cases h1 : (getC th rsi).message.isSome = true
    · rw [if_pos h1]
      have h2 : (decide (ind > 0) && (getC th i).message.isSome) = false := by
        rw [hph]
        exact Bool.and_false _
      rw [h2, if_neg (show ¬((false : Bool) = true) by decide)]
    · rw [if_neg h1]
  have hind : indent_step (parent_step th (getC th i) i) td (getC th i) ind i =
      (parent_step th (getC th i) i, td, if ind > 0 then ind else ind + 1) := by
    unfold indent_step
    rw [hph, if_neg (show ¬((false : Bool) = true) by decide)]
    by_cases h : ind > 0
    · rw [if_pos h, if_pos h]
    · rw [if_neg h, if_neg h]
  simp only [flat_go, hfc]
  rw [hsub, hind]

theorem claim_C5_placeholder_indent_witness :
    (getC c5w_th 0).message.isSome = false ∧ (getC c5w_th 0).first_child = some 1 ∧
    flat_go c5_input (3+1) false c5w_th [] 0 0 0 =
      flat_go c5_input 3 true (parent_step c5w_th (getC c5w_th 0) 0) []
        (if 0 > 0 then 0 else 0 + 1) 1 0 :=
  ⟨by decide, by decide,
    claim_C5_placeholder_indent c5_input 3 c5w_th [] 0 0 0 1 (by decide) (by decide)⟩

/-- C6 (amended): in the sent-folder merge, a sent envelope whose Message-ID
and In-Reply-To both miss the ID index is ignored entirely (the state is
returned unchanged), and a matched sent envelope is cloned into the primary
collection if and only if its Message-ID does not already resolve to a
message-bearing container: such a duplicate hits the `continue` of lines
273-275, which also skips the `collection.push` of line 336. -/
theorem claim_C6_sent_clone (st : TState) (x0 : Envelope) (hw : WFS st) :
    (((tableGet? st.id_table x0.message_id).isSome ||
       (x0.in_reply_to != "" && (tableGet? st.id_table x0.in_reply_to).isSome)) = false →
      sent_step st x0 = st) ∧
    ((sent_step st x0).collection.length = st.collection.length + 1 ↔
      ((tableGet? st.id_table x0.message_id).isSome ||
        (x0.in_reply_to != "" && (tableGet? st.id_table x0.in_reply_to).isSome)) = true ∧
      ¬∃ c, tableGet? st.id_table x0.message_id = some c ∧
        (getC st.threads c).message.isSome = true) := by
  obtain ⟨hclosed, huniq, hacyc, hpmem, hbearing, hids, hmsg_lt, htval⟩ := hw
  have hunm : ((tableGet? st.id_table x0.message_id).isSome ||
      (x0.in_reply_to != "" && (tableGet? st.id_table x0.in_reply_to).isSome)) = false →
      sent_step st x0 = st := by
    intro hnm
    unfold sent_step
    rw [hnm, if_neg (show ¬((false : Bool) = true) by decide)]
  refine ⟨hunm, ?_, ?_⟩
  · intro hlen
    by_cases hm : ((tableGet? st.id_table x0.message_id).isSome ||
        (x0.in_reply_to != "" && (tableGet? st.id_table x0.in_reply_to).isSome)) = true
    · refine ⟨hm, ?_⟩
      rintro ⟨c, hc, hb⟩
      have hst : sent_step st x0 = st := by
        unfold sent_step
        rw [if_pos hm]
        simp only [hc]
        rw [if_pos hb]
      rw [hst] at hlen
      omega
    · exfalso
      have hmf : ((tableGet? st.id_table x0.message_id).isSome ||
          (x0.in_reply_to != "" && (tableGet? st.id_table x0.in_reply_to).isSome))
          = false := by
        rcases hbb : ((tableGet? st.id_table x0.message_id).isSome ||
            (x0.in_reply_to != "" && (tableGet? st.id_table x0.in_reply_to).isSome))
          with _ | _
        · rfl
        · exact absurd hbb hm
      rw [hunm hmf] at hlen
      omega
  · rintro ⟨hm, hnodup⟩
    unfold sent_step
    rw [if_pos hm]
    rcases hc : tableGet? st.id_table x0.message_id with _ | c
    · simp only [hc]
      have hirt : (x0.in_reply_to != "" &&
          (tableGet? st.id_table x0.in_reply_to).isSome) = true := by
        rcases Bool.or_eq_true_iff.mp hm with h | h
        · rw [hc] at h
          exact absurd h (by decide)
        · exact h
      rw [if_pos hirt]
      have hps : (tableGet? st.id_table x0.in_reply_to).isSome = true :=
        (Bool.and_eq_true_iff.mp hirt).2
      obtain ⟨p, hp⟩ := Option.isSome_iff_exists.mp hps
      simp only [hp, Option.getD_some]
      have hp_lt : p < st.threads.length := by
        obtain ⟨kv, hkv, hv⟩ := tableGet?_val_mem hp
        rw [← hv]
        exact htval kv hkv
      set nd : Container :=
        { id := st.threads.length, message := some st.collection.length, parent := some p,
          first_child := none, next_sibling := none, date := x0.date,
          indentation := 0, show_subject := true } with hnd
      set thA := st.threads ++ [nd] with hthA
      set thB := setC thA st.threads.length
        { getC thA st.threads.length with parent := some p } with hthB
      have hlenA : thA.length = st.threads.length + 1 := by
        rw [hthA]
        simp
      have hslA : same_links st.threads thA := by
        rw [hthA]
        exact ⟨eq_field_append_one st.threads nd Container.first_child rfl,
          eq_field_append_one st.threads nd Container.next_sibling rfl⟩
      have hslB : same_links thA thB := by
        rw [hthB]
        exact same_links_setC thA st.threads.length _ rfl rfl
      have hslAB : same_links st.threads thB := same_links_trans hslA hslB
      have hgw : ∀ w, w < st.threads.length → getC thB w = getC st.threads w := by
        intro w hwl
        rw [hthB, getC_setC_ne thA st.threads.length w _ (by omega), hthA,
          getC_append_lt st.threads _ w hwl]
      have hgA : getC thA st.threads.length = nd := by
        rw [hthA]
        exact getC_append_self st.threads nd
      have hmsgT : (getC thB st.threads.length).message = some st.collection.length := by
        rw [hthB, getC_setC_self thA st.threads.length _ (by rw [hlenA]; omega)]
        show (getC thA st.threads.length).message = some st.collection.length
        rw [hgA]
      have hidT : (getC thB st.threads.length).id = st.threads.length := by
        rw [hthB, getC_setC_self thA st.threads.length _ (by rw [hlenA]; omega)]
        show (getC thA st.threads.length).id = st.threads.length
        rw [hgA]
      have hguard : (is_descendant thB (thB.length + 1) (getC thB p)
          (getC thB st.threads.length) ||
          is_descendant thB (thB.length + 1) (getC thB st.threads.length)
          (getC thB p)) = false :=
        fresh_guard_false hslAB hclosed hids hmsg_lt hgw hmsgT hidT hp_lt
      split
      · rename_i hg
        exact absurd (hguard.symm.trans hg) (by decide)
      · show (st.collection ++ [{ x0 with thread := some st.threads.length }]).length =
          st.collection.length + 1
        rw [List.length_append]
        rfl
    · simp only [hc]
      have hnb : ¬((getC st.threads c).message.isSome = true) := by
        intro hb
        exact hnodup ⟨c, hc, hb⟩
      rw [if_neg hnb]
      show (st.collection ++ [{ x0 with thread := some c }]).length =
        st.collection.length + 1
      rw [List.length_append]
      rfl

theorem claim_C6_sent_clone_witness :
    (((tableGet? ([] : List (String × Nat)) c6_sent.message_id).isSome ||
       (c6_sent.in_reply_to != "" &&
        (tableGet? ([] : List (String × Nat)) c6_sent.in_reply_to).isSome)) = false →
      sent_step { threads := [], id_table := [], collection := [] } c6_sent =
        { threads := [], id_table := [], collection := [] }) ∧
    ((sent_step { threads := [], id_table := [], collection := [] }
        c6_sent).collection.length = ([] : List Envelope).length + 1 ↔
      ((tableGet? ([] : List (String × Nat)) c6_sent.message_id).isSome ||
        (c6_sent.in_reply_to != "" &&
         (tableGet? ([] : List (String × Nat)) c6_sent.in_reply_to).isSome)) = true ∧
      ¬∃ c, tableGet? ([] : List (String × Nat)) c6_sent.message_id = some c ∧
        (getC ([] : List Container) c).message.isSome = true) :=
  claim_C6_sent_clone { threads := [], id_table := [], collection := [] } c6_sent
    (wfs_init [])

end Meli
